import Mathlib

/-!
# Cherry Pickup II (`dynamic_programming/3D-DP/01_cherry_pickup.cpp`)

Shallow embedding of the solution classes of the file and proofs of the
properties stated for them.

Conventions of the embedding.

* In the first embedding a C++ `int` is a Lean `Int` and additions are exact:
  it is the program on every run in which no signed addition leaves the range
  of `int`.  The second embedding (`CherryPickup.Wrap32`, after the other
  programs) reduces every addition to the signed 32-bit range; the properties
  that range over inputs on which a sum can leave that range are stated for it.
* A `vector` is a `List`.  Every subscript `v[i]` is a checked read or write in
  the `Option` monad: an index outside the vector (undefined behaviour in the
  source) is the result `none`.
* Counted loops are left folds over the list of the values of the loop counter;
  the loop body threads the mutated vectors through as explicit state.
-/

namespace CherryPickup

/-! ## Vectors with checked subscripts -/

/-- Read `v[i]` with a C++ `int` index; `none` when the index is out of range. -/
def rd {α : Type} (v : List α) (i : Int) : Option α :=
  if 0 ≤ i then v[i.toNat]? else none

/-- Write `v[i] = x` with a C++ `int` index; `none` when the index is out of range. -/
def wr {α : Type} (v : List α) (i : Int) (x : α) : Option (List α) :=
  if 0 ≤ i ∧ i.toNat < v.length then some (v.set i.toNat x) else none

/-- Read `v[i][j]`. -/
def rd2 {α : Type} (v : List (List α)) (i j : Int) : Option α :=
  (rd v i).bind fun row => rd row j

/-- Read `v[i][j][k]`. -/
def rd3 {α : Type} (v : List (List (List α))) (i j k : Int) : Option α :=
  (rd v i).bind fun layer => rd2 layer j k

/-- Write `v[i][j] = x`. -/
def wr2 {α : Type} (v : List (List α)) (i j : Int) (x : α) : Option (List (List α)) :=
  (rd v i).bind fun row => (wr row j x).bind fun row' => wr v i row'

/-- Write `v[i][j][k] = x`. -/
def wr3 {α : Type} (v : List (List (List α))) (i j k : Int) (x : α) :
    Option (List (List (List α))) :=
  (rd v i).bind fun layer => (wr2 layer j k x).bind fun layer' => wr v i layer'

/-! ## The source -/

/-- The constant `static const int NEG_INF = -1000000000;`. -/
def NEG_INF : Int := -1000000000

/-- The expression `(j1 == j2) ? grid[i][j1] : grid[i][j1] + grid[i][j2]`. -/
def cellReward (grid : List (List Int)) (i j1 j2 : Int) : Option Int :=
  if j1 = j2 then rd2 grid i j1
  else (rd2 grid i j1).bind fun a => (rd2 grid i j2).bind fun b => some (a + b)

/-- The values `-1, 0, 1` of the loop counters `dj1` and `dj2`. -/
def deltas : List Int := [-1, 0, 1]

/-- The two nested loops over `dj1` and `dj2` of the tabulated variants for one
cell `(j1, j2)` of row `i`; `next nj1 nj2` is the read `dp[i + 1][nj1][nj2]`,
respectively `prev[nj1][nj2]`.  Candidates outside `[0, m)` are skipped. -/
def bestOver (grid : List (List Int)) (m : Int) (i j1 j2 : Int)
    (next : Int → Int → Option Int) : Option Int :=
  deltas.foldlM (fun best dj1 =>
    deltas.foldlM (fun best dj2 =>
      let nj1 := j1 + dj1
      let nj2 := j2 + dj2
      if nj1 < 0 ∨ nj1 ≥ m ∨ nj2 < 0 ∨ nj2 ≥ m then some best
      else
        (cellReward grid i j1 j2).bind fun curr =>
          (next nj1 nj2).bind fun v =>
            some (max best (curr + v))) best) NEG_INF

/-- The values of the counter of `for (int j = 0; j < m; j++)`. -/
def upTo (m : Nat) : List Nat := List.range m

/-- The values of the counter of the driver loop `for (int i = n - 2; i >= 0; i--)`. -/
def driverRows (n : Nat) : List Nat := (List.range (n - 1)).reverse

namespace CherryPickupTabulation

/-- The base-case loops of `CherryPickupTabulation::cherryPickup`: they fill
`dp[n - 1]`. -/
def baseLoops (grid : List (List Int)) (n m : Nat) (dp : List (List (List Int))) :
    Option (List (List (List Int))) :=
  (upTo m).foldlM (fun dp (j1 : Nat) =>
    (upTo m).foldlM (fun dp (j2 : Nat) =>
      (cellReward grid ((n : Int) - 1) j1 j2).bind fun v =>
        wr3 dp ((n : Int) - 1) j1 j2 v) dp) dp

/-- The loops over `j1` and `j2` for one row `i` of the driver loop of
`CherryPickupTabulation::cherryPickup`. -/
def rowLoops (grid : List (List Int)) (m : Nat) (dp : List (List (List Int))) (i : Nat) :
    Option (List (List (List Int))) :=
  (upTo m).foldlM (fun dp (j1 : Nat) =>
    (upTo m).foldlM (fun dp (j2 : Nat) =>
      (bestOver grid m i j1 j2 fun a b => rd3 dp ((i : Int) + 1) a b).bind fun best =>
        wr3 dp i j1 j2 best) dp) dp

/-- The table `dp` of `CherryPickupTabulation::cherryPickup` when the driver
loop has finished. -/
def table (grid : List (List Int)) : Option (List (List (List Int))) :=
  (rd grid 0).bind fun row0 =>
    let n := grid.length
    let m := row0.length
    let dp := List.replicate n (List.replicate m (List.replicate m NEG_INF))
    (baseLoops grid n m dp).bind fun dp =>
      (driverRows n).foldlM (rowLoops grid m) dp

/-- The method `CherryPickupTabulation::cherryPickup(grid)`. -/
def cherryPickup (grid : List (List Int)) : Option Int :=
  (rd grid 0).bind fun row0 =>
    let m := row0.length
    (table grid).bind fun dp => rd3 dp 0 0 ((m : Int) - 1)

end CherryPickupTabulation

namespace CherryPickupSpaceOptimized

/-- The base-case loops of `CherryPickupSpaceOptimized::cherryPickup`: they
fill `prev` from row `n - 1`. -/
def baseLoops (grid : List (List Int)) (n m : Nat) (prev : List (List Int)) :
    Option (List (List Int)) :=
  (upTo m).foldlM (fun prev (j1 : Nat) =>
    (upTo m).foldlM (fun prev (j2 : Nat) =>
      (cellReward grid ((n : Int) - 1) j1 j2).bind fun v =>
        wr2 prev j1 j2 v) prev) prev

/-- One iteration of the driver loop of `CherryPickupSpaceOptimized::cherryPickup`
on the state `(prev, curr)`: the loops over `j1` and `j2` write `curr`, then
`prev = curr`. -/
def rowStep (grid : List (List Int)) (m : Nat) (st : List (List Int) × List (List Int))
    (i : Nat) : Option (List (List Int) × List (List Int)) :=
  ((upTo m).foldlM (fun curr (j1 : Nat) =>
    (upTo m).foldlM (fun curr (j2 : Nat) =>
      (bestOver grid m i j1 j2 fun a b => rd2 st.1 a b).bind fun best =>
        wr2 curr j1 j2 best) curr) st.2).bind fun curr => some (curr, curr)

/-- The state `(prev, curr)` of `CherryPickupSpaceOptimized::cherryPickup` when
the driver loop has finished. -/
def layers (grid : List (List Int)) : Option (List (List Int) × List (List Int)) :=
  (rd grid 0).bind fun row0 =>
    let n := grid.length
    let m := row0.length
    let prev := List.replicate m (List.replicate m NEG_INF)
    let curr := List.replicate m (List.replicate m NEG_INF)
    (baseLoops grid n m prev).bind fun prev =>
      (driverRows n).foldlM (rowStep grid m) (prev, curr)

/-- The method `CherryPickupSpaceOptimized::cherryPickup(grid)`. -/
def cherryPickup (grid : List (List Int)) : Option Int :=
  (rd grid 0).bind fun row0 =>
    let m := row0.length
    (layers grid).bind fun st => rd2 st.1 0 ((m : Int) - 1)

end CherryPickupSpaceOptimized

/-! ## Specification-side definitions

Total (unchecked) counterparts of the reads and of the loops, used to state
what the checked code computes. -/

/-- Every row of `grid` has at least `m` entries. -/
def Wide (m : Nat) (grid : List (List Int)) : Prop := ∀ row ∈ grid, m ≤ row.length

/-- The grid is rectangular with `n` rows and `m` columns. -/
def Rect (n m : Nat) (grid : List (List Int)) : Prop :=
  grid.length = n ∧ ∀ row ∈ grid, row.length = m

instance (m : Nat) (grid : List (List Int)) : Decidable (Wide m grid) := by
  unfold Wide; infer_instance

instance (n m : Nat) (grid : List (List Int)) : Decidable (Rect n m grid) := by
  unfold Rect; infer_instance

/-- A layer is a square `m × m` table. -/
def Sq (m : Nat) (layer : List (List Int)) : Prop :=
  layer.length = m ∧ ∀ row ∈ layer, row.length = m

/-- A table of `n` layers, each `m × m`. -/
def Cube (n m : Nat) (dp : List (List (List Int))) : Prop :=
  dp.length = n ∧ ∀ layer ∈ dp, Sq m layer

/-- Total read of `v[i][j]` (`0` outside the vector). -/
def at2 (v : List (List Int)) (i j : Nat) : Int := (v.getD i []).getD j 0

/-- Total read of `v[i][j][k]` (`0` outside the vector). -/
def at3 (v : List (List (List Int))) (i j k : Nat) : Int := at2 (v.getD i []) j k

/-- The reward of one row for walkers on columns `j1` and `j2`: a shared cell
is collected once. -/
def rowReward (row : List Int) (j1 j2 : Nat) : Int :=
  if j1 = j2 then row.getD j1 0 else row.getD j1 0 + row.getD j2 0

/-- The value folded by the loops over `dj1` and `dj2` of the tabulated
variants when the reward of the cell is `r` and the next layer is `next`. -/
def bestV (m : Nat) (r : Int) (next : Nat → Nat → Int) (j1 j2 : Nat) : Int :=
  deltas.foldl (fun best dj1 =>
    deltas.foldl (fun best dj2 =>
      if (j1 : Int) + dj1 < 0 ∨ (j1 : Int) + dj1 ≥ m ∨ (j2 : Int) + dj2 < 0 ∨ (j2 : Int) + dj2 ≥ m
      then best
      else max best (r + next ((j1 : Int) + dj1).toNat ((j2 : Int) + dj2).toNat)) best) NEG_INF

/-- The value the tabulated variants store for the state `(row, j1, j2)`, where
`rows` are the rows of the grid from `row` to the last one. -/
def cellV (m : Nat) : List (List Int) → Nat → Nat → Int
  | [], _, _ => NEG_INF
  | [row], j1, j2 => rowReward row j1 j2
  | row :: next :: rest, j1, j2 =>
      bestV m (rowReward row j1 j2) (cellV m (next :: rest)) j1 j2

/-- The value `x` is the greatest element of `{b} ∪ S`: what a loop
`best = max(best, c)` started at `b` leaves in `best` after it has seen the
candidates `S`. -/
def IsBest (b : Int) (S : Int → Prop) (x : Int) : Prop :=
  b ≤ x ∧ (∀ y, S y → y ≤ x) ∧ (x = b ∨ S x)

/-- Columns one move apart: `|a - b| ≤ 1`. -/
def Near (a b : Nat) : Prop := a ≤ b + 1 ∧ b ≤ a + 1

instance (a b : Nat) : Decidable (Near a b) := by unfold Near; infer_instance

/-- A column sequence of one walker in a grid of width `m`: every column is in
`[0, m)` and consecutive columns are one move apart. -/
def IsWalk (m : Nat) (cols : List Nat) : Prop :=
  (∀ c ∈ cols, c < m) ∧ cols.Chain' Near

instance (m : Nat) (cols : List Nat) : Decidable (IsWalk m cols) := by
  unfold IsWalk; infer_instance

/-- The total collected on `rows` by two walkers with column sequences `as`
and `bs`: row by row, one cell when they coincide, both cells otherwise. -/
def walkTotal : List (List Int) → List Nat → List Nat → Int
  | row :: rows, a :: as, b :: bs => rowReward row a b + walkTotal rows as bs
  | _, _, _ => 0

/-- The value `t` is the total of a pair of column sequences over `rows` that
start on the columns `a` and `b`: both sequences have one column per row, stay inside
`[0, m)` and move by at most one column from a row to the next. -/
def WalkTotal (m : Nat) (rows : List (List Int)) (a b : Nat) (t : Int) : Prop :=
  ∃ as bs, as.length = rows.length ∧ bs.length = rows.length ∧ IsWalk m as ∧ IsWalk m bs ∧
    as.head? = some a ∧ bs.head? = some b ∧ t = walkTotal rows as bs

/-- Every reward of the grid is non-negative. -/
def NonNeg (grid : List (List Int)) : Prop := ∀ row ∈ grid, ∀ x ∈ row, 0 ≤ x

instance (grid : List (List Int)) : Decidable (NonNeg grid) := by
  unfold NonNeg; infer_instance

/-- The candidates the loops over `dj1`, `dj2` fold for the cell `(j1, j2)`. -/
def Cand (m : Nat) (r : Int) (next : Nat → Nat → Int) (j1 j2 : Nat) (y : Int) : Prop :=
  ∃ a b, a < m ∧ b < m ∧ Near a j1 ∧ Near b j2 ∧ y = r + next a b

/-- The single-column path sum: the sum of `grid[i][0]` over the rows, each row
counted once. -/
def columnSum (rows : List (List Int)) : Int := (rows.map fun row => row.getD 0 0).sum

/-- The grid with `grid[r][c]` increased by `d`. -/
def bump (grid : List (List Int)) (r c : Nat) (d : Int) : List (List Int) :=
  grid.set r ((grid.getD r []).set c ((grid.getD r []).getD c 0 + d))

/-- The grid with every row reversed: `grid'[i][j] = grid[i][m - 1 - j]`. -/
def mirror (grid : List (List Int)) : List (List Int) := grid.map List.reverse

/-- The grid cut to its first `m` columns. -/
def cut (m : Nat) (grid : List (List Int)) : List (List Int) := grid.map (List.take m)

/-- Two grids of the same number of rows, the second at least the first in
every cell. -/
def GridLe (rows rows' : List (List Int)) : Prop :=
  List.Forall₂ (fun row row' => ∀ j, row.getD j 0 ≤ row'.getD j 0) rows rows'

end CherryPickup

namespace CherryPickup

instance (m : Nat) (layer : List (List Int)) : Decidable (Sq m layer) := by
  unfold Sq; infer_instance

instance (n m : Nat) (dp : List (List (List Int))) : Decidable (Cube n m dp) := by
  unfold Cube; infer_instance

/-- The value `M` is the greatest entry of the next layer over the candidates of
the cell `(j1, j2)`: the columns `(a, b)` inside `[0, m)` that are one move away
from `j1` and from `j2`. -/
def IsMaxNext (m : Nat) (next : Nat → Nat → Int) (j1 j2 : Nat) (M : Int) : Prop :=
  (∃ a b, a < m ∧ b < m ∧ Near a j1 ∧ Near b j2 ∧ M = next a b) ∧
    ∀ a b, a < m → b < m → Near a j1 → Near b j2 → next a b ≤ M

namespace CherryPickupSpaceOptimized

/-- The state `(prev, curr)` of `CherryPickupSpaceOptimized::cherryPickup` after
the base-case loops and the first `k` iterations of the driver loop, that is
once the rows `n - 1, n - 2, …, n - 1 - k` have been processed. -/
def layersAt (grid : List (List Int)) (k : Nat) :
    Option (List (List Int) × List (List Int)) :=
  (rd grid 0).bind fun row0 =>
    let n := grid.length
    let m := row0.length
    let prev := List.replicate m (List.replicate m NEG_INF)
    let curr := List.replicate m (List.replicate m NEG_INF)
    (baseLoops grid n m prev).bind fun prev =>
      ((driverRows n).take k).foldlM (rowStep grid m) (prev, curr)

end CherryPickupSpaceOptimized

end CherryPickup

/-!
# Loops and one-dimensional vectors shared by the other source files

The files `2D-DP/*.cpp` and `DP_on_Subsequences/01_subset_sum.cpp` follow the
conventions stated at the top: `int` is `Int`, a `vector` is a `List` with
checked subscripts, a counted loop is a fold over the values of its counter.
-/

namespace Loops

/-- The values of the counter of `for (int j = a; j < b; j++)`. -/
def fromTo (a b : Nat) : List Nat := List.range' a (b - a)

/-- The values of the counter of `for (int s = b; s >= a; s--)`. -/
def downTo (b a : Nat) : List Nat := (List.range' a (b + 1 - a)).reverse

/-- The value `*min_element(v.begin(), v.end())`; on an empty vector the
iterator is `end()` and dereferencing it has no result. -/
def minElement : List Int → Option Int
  | [] => none
  | x :: xs => some (xs.foldl min x)

/-- The sum over the rows `i < L` of the entry `g i (js i)` picked by the
sequence `js` (one column, or one task, per row). -/
def seqTotal (g : Nat → Nat → Int) (L : Nat) (js : Nat → Nat) : Int :=
  Finset.sum (Finset.range L) fun i => g i (js i)

end Loops

/-!
# Unique Paths (`dynamic_programming/2D-DP/02_grid_unique_paths.cpp`)
-/

namespace GridUniquePathsSpaceOptimized

open CherryPickup Loops

/-- The right-hand side `prev[j] + curr[j - 1]`. -/
def cellValue (prev curr : List Int) (j : Int) : Option Int :=
  (rd prev j).bind fun p => (rd curr (j - 1)).bind fun c => some (p + c)

/-- The loop `for (int j = 1; j < m; j++) curr[j] = prev[j] + curr[j - 1];`. -/
def rowLoop (m : Nat) (prev curr : List Int) : Option (List Int) :=
  (fromTo 1 m).foldlM (fun curr (j : Nat) =>
    (cellValue prev curr j).bind fun x => wr curr j x) curr

/-- One iteration of the loop over `i` on the state `(prev, curr)`:
`curr[0] = 1`, the loop over `j`, then `prev = curr`.  The body does not use
the counter `i`. -/
def rowStep (m : Nat) (st : List Int × List Int) (_i : Nat) : Option (List Int × List Int) :=
  (wr st.2 0 1).bind fun curr => (rowLoop m st.1 curr).bind fun curr => some (curr, curr)

/-- The method `GridUniquePathsSpaceOptimized::uniquePaths(n, m)`.  A negative
`m` is a vector of negative size, whose allocation fails. -/
def uniquePaths (n m : Int) : Option Int :=
  if m < 0 then none
  else
    ((fromTo 1 n.toNat).foldlM (rowStep m.toNat)
      (List.replicate m.toNat 1, List.replicate m.toNat 0)).bind fun st => rd st.1 (m - 1)

end GridUniquePathsSpaceOptimized

namespace GridUniquePaths

/-- A path written as its sequence of moves, `true` for DOWN and `false` for
RIGHT: it leads from the top-left to the bottom-right cell of an `n × m` grid
when it makes `n - 1` moves down and `m - 1` moves right. -/
def IsPath (n m : Nat) (w : List Bool) : Prop :=
  w.count true = n - 1 ∧ w.count false = m - 1

/-- All move sequences of length `k` with `d` moves down. -/
def wordsWith : Nat → Nat → List (List Bool)
  | 0, 0 => [[]]
  | 0, _ + 1 => []
  | k + 1, 0 => (wordsWith k 0).map (fun w => false :: w)
  | k + 1, d + 1 =>
      (wordsWith k d).map (fun w => true :: w) ++ (wordsWith k (d + 1)).map (fun w => false :: w)

/-- All paths from the top-left to the bottom-right cell of an `n × m` grid. -/
def allPaths (n m : Nat) : List (List Bool) := wordsWith (n + m - 2) (n - 1)

end GridUniquePaths

/-!
# Minimum Path Sum (`dynamic_programming/2D-DP/03_minimum_path_sum.cpp`)
-/

namespace MinPathSumSpaceOptimized

open CherryPickup Loops

/-- The right-hand side `grid[0][j] + prev[j - 1]`. -/
def firstRowValue (grid : List (List Int)) (prev : List Int) (j : Int) : Option Int :=
  (rd2 grid 0 j).bind fun g => (rd prev (j - 1)).bind fun p => some (g + p)

/-- The right-hand side `grid[i][j] + min(prev[j], curr[j - 1])`. -/
def cellValue (grid : List (List Int)) (prev curr : List Int) (i j : Int) : Option Int :=
  (rd2 grid i j).bind fun g =>
    (rd prev j).bind fun p => (rd curr (j - 1)).bind fun c => some (g + min p c)

/-- The statements that fill `prev` from row `0`: `prev[0] = grid[0][0]` and the
loop `for (int j = 1; j < m; j++) prev[j] = grid[0][j] + prev[j - 1];`. -/
def firstRow (grid : List (List Int)) (m : Nat) (prev : List Int) : Option (List Int) :=
  (rd2 grid 0 0).bind fun g =>
    (wr prev 0 g).bind fun prev =>
      (fromTo 1 m).foldlM (fun prev (j : Nat) =>
        (firstRowValue grid prev j).bind fun x => wr prev j x) prev

/-- The right-hand side `grid[i][0] + prev[0]`. -/
def firstColumnValue (grid : List (List Int)) (prev : List Int) (i : Int) : Option Int :=
  (rd2 grid i 0).bind fun g => (rd prev 0).bind fun p => some (g + p)

/-- One iteration of the loop over `i` on the state `(prev, curr)`:
`curr[0] = grid[i][0] + prev[0]`, the loop over `j`, then `prev = curr`. -/
def rowStep (grid : List (List Int)) (m : Nat) (st : List Int × List Int) (i : Nat) :
    Option (List Int × List Int) :=
  (firstColumnValue grid st.1 i).bind fun x =>
    (wr st.2 0 x).bind fun curr =>
      ((fromTo 1 m).foldlM (fun curr (j : Nat) =>
        (cellValue grid st.1 curr i j).bind fun x => wr curr j x) curr).bind fun curr =>
          some (curr, curr)

/-- The method `MinPathSumSpaceOptimized::minPathSum(grid)`. -/
def minPathSum (grid : List (List Int)) : Option Int :=
  (rd grid 0).bind fun row0 =>
    let n := grid.length
    let m := row0.length
    (firstRow grid m (List.replicate m 0)).bind fun prev =>
      ((fromTo 1 n).foldlM (rowStep grid m) (prev, List.replicate m 0)).bind fun st =>
        rd st.1 ((m : Int) - 1)

end MinPathSumSpaceOptimized

namespace MinPathSum

open CherryPickup

/-- The values of row `0`: prefix sums of the costs `g0`. -/
def firstRowV (g0 : Nat → Int) : Nat → Int
  | 0 => g0 0
  | j + 1 => g0 (j + 1) + firstRowV g0 j

/-- The values of a row with costs `gi` from the values `prev` of the row above. -/
def nextRowV (gi prev : Nat → Int) : Nat → Int
  | 0 => gi 0 + prev 0
  | j + 1 => gi (j + 1) + min (prev (j + 1)) (nextRowV gi prev j)

/-- The value the loops store for the cell `(i, j)`. -/
def minCost (grid : List (List Int)) : Nat → Nat → Int
  | 0 => firstRowV (at2 grid 0)
  | i + 1 => nextRowV (at2 grid (i + 1)) (minCost grid i)

/-- One move of a path: down to the next row or right to the next column. -/
def Step (c c' : Nat × Nat) : Prop :=
  (c'.1 = c.1 + 1 ∧ c'.2 = c.2) ∨ (c'.1 = c.1 ∧ c'.2 = c.2 + 1)

/-- A path from `(0, 0)` to `(i, j)` that moves only right or down, as the list
of its cells. -/
def IsPathTo (i j : Nat) (p : List (Nat × Nat)) : Prop :=
  p.head? = some (0, 0) ∧ p.getLast? = some (i, j) ∧ p.Chain' Step

/-- The sum of the costs of the cells on a path. -/
def pathCost (grid : List (List Int)) (p : List (Nat × Nat)) : Int :=
  (p.map fun c => at2 grid c.1 c.2).sum

end MinPathSum

/-!
# Minimum Falling Path Sum (`dynamic_programming/2D-DP/05_minimum_falling_path_sum.cpp`)
-/

namespace MinFallingPathSpaceOptimized

open CherryPickup Loops

/-- The statements `int best = prev[j]; if (j > 0) best = min(best, prev[j - 1]);
if (j < n - 1) best = min(best, prev[j + 1]);`. -/
def bestParent (n : Nat) (prev : List Int) (j : Int) : Option Int :=
  (rd prev j).bind fun best =>
    (if j > 0 then (rd prev (j - 1)).bind fun p => some (min best p) else some best).bind
      fun best =>
        if j < (n : Int) - 1 then (rd prev (j + 1)).bind fun p => some (min best p)
        else some best

/-- The value `mat[i][j] + best` written to `curr[j]`. -/
def cellValue (mat : List (List Int)) (n : Nat) (prev : List Int) (i j : Int) : Option Int :=
  (bestParent n prev j).bind fun best => (rd2 mat i j).bind fun x => some (x + best)

/-- One iteration of the loop over `i` on the state `(prev, curr)`: the loop
over `j` writes `curr`, then `prev = curr`. -/
def rowStep (mat : List (List Int)) (n : Nat) (st : List Int × List Int) (i : Nat) :
    Option (List Int × List Int) :=
  ((fromTo 0 n).foldlM (fun curr (j : Nat) =>
    (cellValue mat n st.1 i j).bind fun x => wr curr j x) st.2).bind fun curr =>
      some (curr, curr)

/-- The method `MinFallingPathSpaceOptimized::minFallingPathSum(mat)`. -/
def minFallingPathSum (mat : List (List Int)) : Option Int :=
  let n := mat.length
  (rd mat 0).bind fun prev =>
    ((fromTo 1 n).foldlM (rowStep mat n) (prev, List.replicate n 0)).bind fun st =>
      minElement st.1

end MinFallingPathSpaceOptimized

namespace MinFallingPath

open CherryPickup Loops

/-- The least of the up to three parents of column `j` in a row of width `n`. -/
def bestParentV (n : Nat) (prev : Nat → Int) (j : Nat) : Int :=
  let b := prev j
  let b := if 0 < j then min b (prev (j - 1)) else b
  if j + 1 < n then min b (prev (j + 1)) else b

/-- The value the loops store for the cell `(i, j)`. -/
def fallV (mat : List (List Int)) (n : Nat) : Nat → Nat → Int
  | 0, j => at2 mat 0 j
  | i + 1, j => at2 mat (i + 1) j + bestParentV n (fallV mat n i) j

/-- A falling path over the first `L` rows of a matrix of width `n`, as the
sequence `js` of its columns: every column is in `[0, n)` and consecutive
columns differ by at most one. -/
def IsFall (n L : Nat) (js : Nat → Nat) : Prop :=
  (∀ i, i < L → js i < n) ∧ ∀ i, i + 1 < L → Near (js i) (js (i + 1))

end MinFallingPath

/-!
# Triangle Minimum Path Sum (`dynamic_programming/2D-DP/04_triangle_minimum_path_sum.cpp`)
-/

namespace TriangleMinPathSpaceOptimized

open CherryPickup Loops

/-- The right-hand side `triangle[i][0] + prev[0]`. -/
def firstValue (triangle : List (List Int)) (prev : List Int) (i : Int) : Option Int :=
  (rd2 triangle i 0).bind fun t => (rd prev 0).bind fun p => some (t + p)

/-- The right-hand side `triangle[i][j] + min(prev[j - 1], prev[j])`. -/
def cellValue (triangle : List (List Int)) (prev : List Int) (i j : Int) : Option Int :=
  (rd2 triangle i j).bind fun t =>
    (rd prev (j - 1)).bind fun a => (rd prev j).bind fun b => some (t + min a b)

/-- The right-hand side `triangle[i][i] + prev[i - 1]`. -/
def lastValue (triangle : List (List Int)) (prev : List Int) (i : Int) : Option Int :=
  (rd2 triangle i i).bind fun t => (rd prev (i - 1)).bind fun p => some (t + p)

/-- One iteration of the loop over `i` on `prev`: a fresh `curr(i + 1)`,
`curr[0]`, the loop over `j`, `curr[i]`, then `prev = curr`. -/
def rowStep (triangle : List (List Int)) (prev : List Int) (i : Nat) : Option (List Int) :=
  (firstValue triangle prev i).bind fun x =>
    (wr (List.replicate (i + 1) 0) 0 x).bind fun curr =>
      ((fromTo 1 i).foldlM (fun curr (j : Nat) =>
        (cellValue triangle prev i j).bind fun x => wr curr j x) curr).bind fun curr =>
          (lastValue triangle prev i).bind fun x => wr curr i x

/-- The method `TriangleMinPathSpaceOptimized::minimumTotal(triangle)`. -/
def minimumTotal (triangle : List (List Int)) : Option Int :=
  let n := triangle.length
  (rd2 triangle 0 0).bind fun t =>
    ((fromTo 1 n).foldlM (rowStep triangle) [t]).bind fun prev => minElement prev

end TriangleMinPathSpaceOptimized

namespace TriangleMinPath

open CherryPickup Loops

/-- A triangle with `n` rows: row `i` has `i + 1` entries. -/
def IsTriangle (n : Nat) (triangle : List (List Int)) : Prop :=
  triangle.length = n ∧ ∀ i, i < n → (triangle.getD i []).length = i + 1

instance (n : Nat) (triangle : List (List Int)) : Decidable (IsTriangle n triangle) := by
  unfold IsTriangle; infer_instance

/-- The value of the parent chosen for column `c` of row `i + 1` from the values
`prev` of row `i`. -/
def parentV (prev : Nat → Int) (i c : Nat) : Int :=
  if c = 0 then prev 0 else if c = i + 1 then prev i else min (prev (c - 1)) (prev c)

/-- The value the loops store for the cell `(i, c)`. -/
def triV (triangle : List (List Int)) : Nat → Nat → Int
  | 0, _ => at2 triangle 0 0
  | i + 1, c => at2 triangle (i + 1) c + parentV (triV triangle i) i c

/-- A path down the first `L` rows of the triangle, as the sequence `js` of its
columns: `j_0 = 0` and `j_{i+1}` is `j_i` or `j_i + 1`. -/
def IsDescent (L : Nat) (js : Nat → Nat) : Prop :=
  js 0 = 0 ∧ ∀ i, i + 1 < L → js (i + 1) = js i ∨ js (i + 1) = js i + 1

end TriangleMinPath

/-!
# Ninja Training (`dynamic_programming/2D-DP/ninja_training.cpp`)
-/

namespace NinjaTrainingSpaceOptimized

open CherryPickup Loops

/-- The four statements `prev[0] = max(points[0][1], points[0][2]); …;
prev[3] = max({points[0][0], points[0][1], points[0][2]});`. -/
def baseRow (points : List (List Int)) (prev : List Int) : Option (List Int) :=
  (rd2 points 0 1).bind fun a => (rd2 points 0 2).bind fun b =>
    (wr prev 0 (max a b)).bind fun prev =>
  (rd2 points 0 0).bind fun a => (rd2 points 0 2).bind fun b =>
    (wr prev 1 (max a b)).bind fun prev =>
  (rd2 points 0 0).bind fun a => (rd2 points 0 1).bind fun b =>
    (wr prev 2 (max a b)).bind fun prev =>
  (rd2 points 0 0).bind fun a => (rd2 points 0 1).bind fun b => (rd2 points 0 2).bind fun c =>
    wr prev 3 (max (max a b) c)

/-- The body of the loop over `task` for `task != last`:
`int point = points[day][task] + prev[task]; curr[last] = max(curr[last], point);`. -/
def taskBody (points : List (List Int)) (prev : List Int) (day last task : Int)
    (curr : List Int) : Option (List Int) :=
  (rd2 points day task).bind fun p =>
    (rd prev task).bind fun q =>
      (rd curr last).bind fun c => wr curr last (max c (p + q))

/-- The loop `for (int task = 0; task < 3; task++) if (task != last) { … }`. -/
def taskLoop (points : List (List Int)) (prev : List Int) (day last : Int)
    (curr : List Int) : Option (List Int) :=
  (fromTo 0 3).foldlM (fun curr (task : Nat) =>
    if (task : Int) ≠ last then taskBody points prev day last task curr else some curr) curr

/-- One iteration of the loop over `day` on the state `(prev, curr)`: for every
`last`, `curr[last] = 0` and the loop over `task`; then `prev = curr`. -/
def rowStep (points : List (List Int)) (st : List Int × List Int) (day : Nat) :
    Option (List Int × List Int) :=
  ((fromTo 0 4).foldlM (fun curr (last : Nat) =>
    (wr curr last 0).bind fun curr => taskLoop points st.1 day last curr) st.2).bind
      fun curr => some (curr, curr)

/-- The method `NinjaTrainingSpaceOptimized::ninjaTraining(points)`. -/
def ninjaTraining (points : List (List Int)) : Option Int :=
  let n := points.length
  (baseRow points (List.replicate 4 0)).bind fun prev =>
    ((fromTo 1 n).foldlM (rowStep points) (prev, List.replicate 4 0)).bind fun st =>
      rd st.1 3

end NinjaTrainingSpaceOptimized

namespace NinjaTraining

open CherryPickup Loops

/-- The values of day `0` for the points `p` of that day. -/
def baseV (p : Nat → Int) (last : Nat) : Int :=
  if last = 0 then max (p 1) (p 2)
  else if last = 1 then max (p 0) (p 2)
  else if last = 2 then max (p 0) (p 1)
  else max (max (p 0) (p 1)) (p 2)

/-- The value the loop over `task` leaves in `curr[last]`, started at `r`. -/
def stepFrom (p prev : Nat → Int) (last : Nat) (r : Int) : Int :=
  (fromTo 0 3).foldl (fun r task => if task ≠ last then max r (p task + prev task) else r) r

/-- The value the loops store for `(day, last)`. -/
def ninjaV (points : List (List Int)) : Nat → Nat → Int
  | 0, last => baseV (at2 points 0) last
  | d + 1, last => stepFrom (at2 points (d + 1)) (ninjaV points d) last 0

/-- A plan for the first `L` days, as the sequence `t` of its tasks: every task
is `0`, `1` or `2` and no task is done on two consecutive days. -/
def IsPlan (L : Nat) (t : Nat → Nat) : Prop :=
  (∀ i, i < L → t i < 3) ∧ ∀ i, i + 1 < L → t i ≠ t (i + 1)

end NinjaTraining

/-!
# Subset Sum (`dynamic_programming/DP_on_Subsequences/01_subset_sum.cpp`)
-/

namespace SubsetSumSpaceOptimized1D

open CherryPickup Loops

/-- The statements `bool notTake = dp[s]; bool take = (arr[ind] <= s) ?
dp[s - arr[ind]] : false;` and the value `take || notTake` written to `dp[s]`. -/
def cellValue (arr : List Int) (dp : List Bool) (ind s : Int) : Option Bool :=
  (rd dp s).bind fun notTake =>
    (rd arr ind).bind fun a =>
      (if a ≤ s then rd dp (s - a) else some false).bind fun take => some (take || notTake)

/-- One iteration of the loop over `ind`: the loop
`for (int s = sum; s >= 1; s--)` updates `dp` in place. -/
def rowStep (arr : List Int) (sum : Nat) (dp : List Bool) (ind : Nat) : Option (List Bool) :=
  (downTo sum 1).foldlM (fun dp (s : Nat) =>
    (cellValue arr dp ind s).bind fun x => wr dp s x) dp

/-- The method `SubsetSumSpaceOptimized1D::isSubsetSum(arr, sum)`.  A negative
`sum + 1` is a vector of negative size, whose allocation fails. -/
def isSubsetSum (arr : List Int) (sum : Int) : Option Bool :=
  let n := arr.length
  if n = 0 then some false
  else if sum + 1 < 0 then none
  else
    (wr (List.replicate (sum + 1).toNat false) 0 true).bind fun dp =>
      (rd arr 0).bind fun a0 =>
        (if a0 ≤ sum then wr dp a0 true else some dp).bind fun dp =>
          ((fromTo 1 n).foldlM (rowStep arr sum.toNat) dp).bind fun dp => rd dp sum

end SubsetSumSpaceOptimized1D

namespace SubsetSum

/-- The entry `dp[s]` after the initialisation for the first element `a0`. -/
def baseV (a0 : Int) (s : Nat) : Bool := decide (s = 0) || decide (a0 = (s : Int))

/-- The entry `dp[s]` after the pass of an element `a` over the entries `old`. -/
def stepV (a : Int) (old : Nat → Bool) (s : Nat) : Bool :=
  if s = 0 then old 0
  else (if a ≤ (s : Int) then old ((s : Int) - a).toNat else false) || old s

/-- The entry `dp[s]` after the pass of the element with index `ind`. -/
def dpV (arr : List Int) : Nat → Nat → Bool
  | 0, s => baseV (arr.getD 0 0) s
  | ind + 1, s => stepV (arr.getD (ind + 1) 0) (dpV arr ind) s

/-- Some elements of `xs`, each position used at most once, add up to `s`: a
sublist of `xs` keeps the elements at a set of distinct indices. -/
def Reach (xs : List Int) (s : Int) : Prop := ∃ sub : List Int, sub.Sublist xs ∧ sub.sum = s

end SubsetSum

namespace CherryPickup

/-- Every reward of the grid has absolute value at most `K`. -/
def Bounded (K : Int) (grid : List (List Int)) : Prop := ∀ row ∈ grid, ∀ x ∈ row, |x| ≤ K

instance (K : Int) (grid : List (List Int)) : Decidable (Bounded K grid) := by
  unfold Bounded; infer_instance

end CherryPickup

namespace Loops

/-- A two-dimensional vector with `n` rows of `w` entries each. -/
def Shape {V : Type} (n w : Nat) (t : List (List V)) : Prop :=
  t.length = n ∧ ∀ row ∈ t, row.length = w

/-- Total read of `t[i][j]` (`d` outside the vector). -/
def cell {V : Type} (d : V) (t : List (List V)) (i j : Nat) : V := (t.getD i []).getD j d

end Loops

namespace SubsetSumRecursive

open CherryPickup

/-- The method `SubsetSumRecursive::solve(ind, sum, arr)`.  The index `ind`
starts at `arr.size() - 1` on a non-empty array and every call decrements it
until the base case `ind == 0`, so it is a natural number. -/
def solve (arr : List Int) : Nat → Int → Option Bool
  | 0, sum =>
      if sum = 0 then some true
      else (rd arr 0).bind fun a => some (decide (a = sum))
  | ind + 1, sum =>
      if sum = 0 then some true
      else
        (solve arr ind sum).bind fun notTake =>
          (rd arr ((ind + 1 : Nat) : Int)).bind fun a =>
            (if a ≤ sum then solve arr ind (sum - a) else some false).bind fun take =>
              some (take || notTake)

/-- The method `SubsetSumRecursive::isSubsetSum(arr, sum)`. -/
def isSubsetSum (arr : List Int) (sum : Int) : Option Bool :=
  if arr.length = 0 then some false
  else solve arr (arr.length - 1) sum

end SubsetSumRecursive

namespace SubsetSumMemoized

open CherryPickup

/-- The method `SubsetSumMemoized::solve(ind, sum, arr, dp)`: the result and the
memo table `dp` after the call.  The table holds `-1` for "not computed" and
the boolean as `0` or `1` otherwise; `return dp[ind][sum]` converts the entry
back to `bool`. -/
def solve (arr : List Int) : Nat → Int → List (List Int) → Option (Bool × List (List Int))
  | 0, sum, dp =>
      if sum = 0 then some (true, dp)
      else (rd arr 0).bind fun a => some (decide (a = sum), dp)
  | ind + 1, sum, dp =>
      if sum = 0 then some (true, dp)
      else
        (rd2 dp ((ind + 1 : Nat) : Int) sum).bind fun memo =>
          if memo ≠ -1 then some (decide (memo ≠ 0), dp)
          else
            (solve arr ind sum dp).bind fun r =>
              (rd arr ((ind + 1 : Nat) : Int)).bind fun a =>
                (if a ≤ sum then solve arr ind (sum - a) r.2 else some (false, r.2)).bind fun t =>
                  (wr2 t.2 ((ind + 1 : Nat) : Int) sum (if t.1 || r.1 then 1 else 0)).bind
                    fun dp => some (t.1 || r.1, dp)

/-- The method `SubsetSumMemoized::isSubsetSum(arr, sum)`.  A negative
`sum + 1` is a vector of negative size, whose allocation fails. -/
def isSubsetSum (arr : List Int) (sum : Int) : Option Bool :=
  let n := arr.length
  if n = 0 then some false
  else if sum + 1 < 0 then none
  else
    (solve arr (n - 1) sum (List.replicate n (List.replicate (sum + 1).toNat (-1)))).bind
      fun r => some r.1

end SubsetSumMemoized

namespace SubsetSumTabulation

open CherryPickup Loops

/-- The statements `bool notTake = dp[ind - 1][s]; bool take = (arr[ind] <= s) ?
dp[ind - 1][s - arr[ind]] : false;` and the value `take || notTake` written to
`dp[ind][s]`. -/
def cellValue (arr : List Int) (dp : List (List Bool)) (ind s : Int) : Option Bool :=
  (rd2 dp (ind - 1) s).bind fun notTake =>
    (rd arr ind).bind fun a =>
      (if a ≤ s then rd2 dp (ind - 1) (s - a) else some false).bind fun take =>
        some (take || notTake)

/-- One iteration of the loop over `ind`: the loop
`for (int s = 1; s <= sum; s++)` fills `dp[ind]`. -/
def rowLoop (arr : List Int) (sum : Nat) (dp : List (List Bool)) (ind : Nat) :
    Option (List (List Bool)) :=
  (fromTo 1 (sum + 1)).foldlM (fun dp (s : Nat) =>
    (cellValue arr dp ind s).bind fun x => wr2 dp ind s x) dp

/-- The table `dp` of `SubsetSumTabulation::isSubsetSum` on a non-empty array
when the loops have finished. -/
def table (arr : List Int) (sum : Int) : Option (List (List Bool)) :=
  let n := arr.length
  ((fromTo 0 n).foldlM (fun dp (i : Nat) => wr2 dp i 0 true)
      (List.replicate n (List.replicate (sum + 1).toNat false))).bind fun dp =>
    (rd arr 0).bind fun a0 =>
      (if a0 ≤ sum then wr2 dp 0 a0 true else some dp).bind fun dp =>
        (fromTo 1 n).foldlM (rowLoop arr sum.toNat) dp

/-- The method `SubsetSumTabulation::isSubsetSum(arr, sum)`.  A negative
`sum + 1` is a vector of negative size, whose allocation fails. -/
def isSubsetSum (arr : List Int) (sum : Int) : Option Bool :=
  let n := arr.length
  if n = 0 then some false
  else if sum + 1 < 0 then none
  else (table arr sum).bind fun dp => rd2 dp ((n : Int) - 1) sum

end SubsetSumTabulation

namespace SubsetSumSpaceOptimized2D

open CherryPickup Loops

/-- The statements `bool notTake = prev[s]; bool take = (arr[ind] <= s) ?
prev[s - arr[ind]] : false;` and the value `take || notTake` written to
`curr[s]`. -/
def cellValue (arr : List Int) (prev : List Bool) (ind s : Int) : Option Bool :=
  (rd prev s).bind fun notTake =>
    (rd arr ind).bind fun a =>
      (if a ≤ s then rd prev (s - a) else some false).bind fun take => some (take || notTake)

/-- One iteration of the loop over `ind` on `prev`: a fresh `curr(sum + 1, false)`,
`curr[0] = true`, the loop `for (int s = 1; s <= sum; s++)`, then `prev = curr`. -/
def rowStep (arr : List Int) (sum : Nat) (prev : List Bool) (ind : Nat) : Option (List Bool) :=
  (wr (List.replicate (sum + 1) false) 0 true).bind fun curr =>
    (fromTo 1 (sum + 1)).foldlM (fun curr (s : Nat) =>
      (cellValue arr prev ind s).bind fun x => wr curr s x) curr

/-- The method `SubsetSumSpaceOptimized2D::isSubsetSum(arr, sum)`.  A negative
`sum + 1` is a vector of negative size, whose allocation fails. -/
def isSubsetSum (arr : List Int) (sum : Int) : Option Bool :=
  let n := arr.length
  if n = 0 then some false
  else if sum + 1 < 0 then none
  else
    (wr (List.replicate (sum + 1).toNat false) 0 true).bind fun prev =>
      (rd arr 0).bind fun a0 =>
        (if a0 ≤ sum then wr prev a0 true else some prev).bind fun prev =>
          ((fromTo 1 n).foldlM (rowStep arr sum.toNat) prev).bind fun prev => rd prev sum

end SubsetSumSpaceOptimized2D

namespace Loops

/-- The constant `INT_MAX` of a 32-bit `int`. -/
def INT_MAX : Int := 2147483647

end Loops

namespace MinFallingPathRecursion

open CherryPickup Loops

/-- The method `MinFallingPathRecursion::f(i, j, mat)`.  The row `i` starts at
`n - 1` with `n ≥ 1` and every call decrements it until the base case `i == 0`,
so it is a natural number. -/
def f (mat : List (List Int)) : Nat → Int → Option Int
  | 0, j =>
      if j < 0 ∨ j ≥ (mat.length : Int) then some INT_MAX
      else rd2 mat 0 j
  | i + 1, j =>
      if j < 0 ∨ j ≥ (mat.length : Int) then some INT_MAX
      else
        (f mat i j).bind fun up =>
          (f mat i (j - 1)).bind fun upLeft =>
            (f mat i (j + 1)).bind fun upRight =>
              let best := min up (min upLeft upRight)
              if best = INT_MAX then some INT_MAX
              else (rd2 mat ((i + 1 : Nat) : Int) j).bind fun x => some (x + best)

/-- The method `MinFallingPathRecursion::minFallingPathSum(mat)`. -/
def minFallingPathSum (mat : List (List Int)) : Option Int :=
  let n := mat.length
  (fromTo 0 n).foldlM (fun ans (j : Nat) =>
    (f mat (n - 1) j).bind fun v => some (min ans v)) INT_MAX

end MinFallingPathRecursion

namespace MinFallingPathMemoization

open CherryPickup Loops

/-- The method `MinFallingPathMemoization::f(i, j, mat, dp)`: the result and
the memo table `dp` after the call.  An entry `INT_MAX` of the table means "not
computed". -/
def f (mat : List (List Int)) : Nat → Int → List (List Int) → Option (Int × List (List Int))
  | 0, j, dp =>
      if j < 0 ∨ j ≥ (mat.length : Int) then some (INT_MAX, dp)
      else (rd2 mat 0 j).bind fun x => some (x, dp)
  | i + 1, j, dp =>
      if j < 0 ∨ j ≥ (mat.length : Int) then some (INT_MAX, dp)
      else
        (rd2 dp ((i + 1 : Nat) : Int) j).bind fun memo =>
          if memo ≠ INT_MAX then some (memo, dp)
          else
            (f mat i j dp).bind fun up =>
              (f mat i (j - 1) up.2).bind fun upLeft =>
                (f mat i (j + 1) upLeft.2).bind fun upRight =>
                  let best := min up.1 (min upLeft.1 upRight.1)
                  if best = INT_MAX then
                    (wr2 upRight.2 ((i + 1 : Nat) : Int) j INT_MAX).bind fun dp =>
                      some (INT_MAX, dp)
                  else
                    (rd2 mat ((i + 1 : Nat) : Int) j).bind fun x =>
                      (wr2 upRight.2 ((i + 1 : Nat) : Int) j (x + best)).bind fun dp =>
                        some (x + best, dp)

/-- The method `MinFallingPathMemoization::minFallingPathSum(mat)`: the loop
threads `ans` and the memo table. -/
def minFallingPathSum (mat : List (List Int)) : Option Int :=
  let n := mat.length
  ((fromTo 0 n).foldlM (fun (st : Int × List (List Int)) (j : Nat) =>
    (f mat (n - 1) j st.2).bind fun r => some (min st.1 r.1, r.2))
    (INT_MAX, List.replicate n (List.replicate n INT_MAX))).bind fun st => some st.1

end MinFallingPathMemoization

namespace MinFallingPath

open CherryPickup Loops

/-- Every entry of the memo table inside the matrix is the marker `INT_MAX` or
the value the recursion returns for its cell. -/
def MemoOk (mat dp : List (List Int)) : Prop :=
  ∀ i j, i < mat.length → j < mat.length →
    at2 dp i j = INT_MAX ∨ MinFallingPathRecursion.f mat i (j : Int) = some (at2 dp i j)

end MinFallingPath

namespace MinPathSumRecursion

open CherryPickup Loops

/-- The method `MinPathSumRecursion::f(i, j, grid)`.  The first component of the
result is the returned value; the second records, in the order of evaluation,
the operands `(grid[i][j], best)` of every addition `grid[i][j] + best` the call
and its recursive calls evaluate. -/
def f (grid : List (List Int)) (i j : Int) : Option (Int × List (Int × Int)) :=
  if _h0 : i = 0 ∧ j = 0 then (rd2 grid 0 0).bind fun x => some (x, [])
  else if _h1 : i < 0 ∨ j < 0 then some (INT_MAX, [])
  else
    (f grid (i - 1) j).bind fun top =>
      (f grid i (j - 1)).bind fun left =>
        let best := min top.1 left.1
        if best = INT_MAX then some (INT_MAX, top.2 ++ left.2)
        else (rd2 grid i j).bind fun x => some (x + best, top.2 ++ left.2 ++ [(x, best)])
termination_by (i + 1).toNat + (j + 1).toNat
decreasing_by
  all_goals omega

/-- The method `MinPathSumRecursion::minPathSum(grid)`. -/
def minPathSum (grid : List (List Int)) : Option Int :=
  (rd grid 0).bind fun row0 =>
    let n := grid.length
    let m := row0.length
    (f grid ((n : Int) - 1) ((m : Int) - 1)).bind fun r => some r.1

end MinPathSumRecursion

namespace MinPathSumTabulation

open CherryPickup Loops

/-- The right-hand side `grid[i][0] + dp[i - 1][0]`. -/
def firstColumnValue (grid dp : List (List Int)) (i : Int) : Option Int :=
  (rd2 grid i 0).bind fun g => (rd2 dp (i - 1) 0).bind fun p => some (g + p)

/-- The right-hand side `grid[0][j] + dp[0][j - 1]`. -/
def firstRowValue (grid dp : List (List Int)) (j : Int) : Option Int :=
  (rd2 grid 0 j).bind fun g => (rd2 dp 0 (j - 1)).bind fun p => some (g + p)

/-- The right-hand side `grid[i][j] + min(dp[i - 1][j], dp[i][j - 1])`. -/
def cellValue (grid dp : List (List Int)) (i j : Int) : Option Int :=
  (rd2 grid i j).bind fun g =>
    (rd2 dp (i - 1) j).bind fun a => (rd2 dp i (j - 1)).bind fun b => some (g + min a b)

/-- The loop `for (int i = 1; i < n; i++) dp[i][0] = grid[i][0] + dp[i - 1][0];`. -/
def firstColumn (grid : List (List Int)) (n : Nat) (dp : List (List Int)) :
    Option (List (List Int)) :=
  (fromTo 1 n).foldlM (fun dp (i : Nat) =>
    (firstColumnValue grid dp i).bind fun x => wr2 dp i 0 x) dp

/-- The loop `for (int j = 1; j < m; j++) dp[0][j] = grid[0][j] + dp[0][j - 1];`. -/
def firstRow (grid : List (List Int)) (m : Nat) (dp : List (List Int)) :
    Option (List (List Int)) :=
  (fromTo 1 m).foldlM (fun dp (j : Nat) =>
    (firstRowValue grid dp j).bind fun x => wr2 dp 0 j x) dp

/-- One iteration of the loop over `i` for the remaining cells: the loop over
`j` from `1`. -/
def rowLoop (grid : List (List Int)) (m : Nat) (dp : List (List Int)) (i : Nat) :
    Option (List (List Int)) :=
  (fromTo 1 m).foldlM (fun dp (j : Nat) =>
    (cellValue grid dp i j).bind fun x => wr2 dp i j x) dp

/-- The method `MinPathSumTabulation::minPathSum(grid)`. -/
def minPathSum (grid : List (List Int)) : Option Int :=
  (rd grid 0).bind fun row0 =>
    let n := grid.length
    let m := row0.length
    (rd2 grid 0 0).bind fun g =>
      (wr2 (List.replicate n (List.replicate m 0)) 0 0 g).bind fun dp =>
        (firstColumn grid n dp).bind fun dp =>
          (firstRow grid m dp).bind fun dp =>
            ((fromTo 1 n).foldlM (rowLoop grid m) dp).bind fun dp =>
              rd2 dp ((n : Int) - 1) ((m : Int) - 1)

end MinPathSumTabulation

namespace MinPathSum

/-- The total sum of the costs of the grid. -/
def gridSum (grid : List (List Int)) : Int := (grid.map List.sum).sum

end MinPathSum

namespace NinjaTrainingRecursion

open CherryPickup Loops

/-- The method `NinjaTrainingRecursion::f(day, last, points)`.  The day starts
at `n - 1` and every call decrements it until the base case `day == 0`, so it
is a natural number. -/
def f (points : List (List Int)) : Nat → Int → Option Int
  | 0, last =>
      (fromTo 0 3).foldlM (fun res (task : Nat) =>
        if (task : Int) ≠ last then
          (rd2 points 0 task).bind fun p => some (max res p)
        else some res) 0
  | day + 1, last =>
      (fromTo 0 3).foldlM (fun res (task : Nat) =>
        if (task : Int) ≠ last then
          (rd2 points ((day + 1 : Nat) : Int) task).bind fun p =>
            (f points day task).bind fun r => some (max res (p + r))
        else some res) 0

/-- The method `NinjaTrainingRecursion::ninjaTraining(points)`.  On an empty
table the call `f(-1, 3, points)` reads `points[-1]`, outside the vector. -/
def ninjaTraining (points : List (List Int)) : Option Int :=
  let n := points.length
  if n = 0 then none else f points (n - 1) 3

end NinjaTrainingRecursion

namespace NinjaTrainingTabulation

open CherryPickup Loops

/-- The four statements `dp[0][0] = max(points[0][1], points[0][2]); …;
dp[0][3] = max({points[0][0], points[0][1], points[0][2]});`. -/
def baseRow (points : List (List Int)) (dp : List (List Int)) : Option (List (List Int)) :=
  (rd2 points 0 1).bind fun a => (rd2 points 0 2).bind fun b =>
    (wr2 dp 0 0 (max a b)).bind fun dp =>
  (rd2 points 0 0).bind fun a => (rd2 points 0 2).bind fun b =>
    (wr2 dp 0 1 (max a b)).bind fun dp =>
  (rd2 points 0 0).bind fun a => (rd2 points 0 1).bind fun b =>
    (wr2 dp 0 2 (max a b)).bind fun dp =>
  (rd2 points 0 0).bind fun a => (rd2 points 0 1).bind fun b => (rd2 points 0 2).bind fun c =>
    wr2 dp 0 3 (max (max a b) c)

/-- The body of the loop over `task` for `task != last`:
`int point = points[day][task] + dp[day - 1][task];
dp[day][last] = max(dp[day][last], point);`. -/
def taskBody (points : List (List Int)) (day last task : Int) (dp : List (List Int)) :
    Option (List (List Int)) :=
  (rd2 points day task).bind fun p =>
    (rd2 dp (day - 1) task).bind fun q =>
      (rd2 dp day last).bind fun c => wr2 dp day last (max c (p + q))

/-- The loop `for (int task = 0; task < 3; task++) if (task != last) { … }`. -/
def taskLoop (points : List (List Int)) (day last : Int) (dp : List (List Int)) :
    Option (List (List Int)) :=
  (fromTo 0 3).foldlM (fun dp (task : Nat) =>
    if (task : Int) ≠ last then taskBody points day last task dp else some dp) dp

/-- One iteration of the loop over `day`: for every `last`, `dp[day][last] = 0`
and the loop over `task`. -/
def dayStep (points : List (List Int)) (dp : List (List Int)) (day : Nat) :
    Option (List (List Int)) :=
  (fromTo 0 4).foldlM (fun dp (last : Nat) =>
    (wr2 dp day last 0).bind fun dp => taskLoop points day last dp) dp

/-- The table `dp` of `NinjaTrainingTabulation::ninjaTraining` when the loops
have finished. -/
def table (points : List (List Int)) : Option (List (List Int)) :=
  let n := points.length
  (baseRow points (List.replicate n (List.replicate 4 0))).bind fun dp =>
    (fromTo 1 n).foldlM (dayStep points) dp

/-- The method `NinjaTrainingTabulation::ninjaTraining(points)`. -/
def ninjaTraining (points : List (List Int)) : Option Int :=
  let n := points.length
  (table points).bind fun dp => rd2 dp ((n : Int) - 1) 3

end NinjaTrainingTabulation

namespace NinjaTraining

open CherryPickup Loops

/-- The value `NinjaTrainingRecursion::f` returns for `(day, last)`: every fold
starts at `0`, on day `0` too. -/
def recV (points : List (List Int)) : Nat → Nat → Int
  | 0, last => stepFrom (at2 points 0) (fun _ => 0) last 0
  | d + 1, last => stepFrom (at2 points (d + 1)) (recV points d) last 0

end NinjaTraining

/-!
# Cherry Pickup II with 32-bit `int`

The embedding at the top of the file adds in `Int`; it is the program on every
run in which no addition leaves the range of `int`.  The properties that range
over inputs on which a sum does leave that range are stated for the embedding
below, in which every addition of the source is a signed 32-bit addition: the
exact sum reduced modulo `2^32` into `[-2^31, 2^31)`, as the two's-complement
targets of the program compute it.  Column indices and loop counters stay far
inside the range and are added exactly.
-/

namespace CherryPickup

namespace Wrap32

/-- The value a signed 32-bit addition leaves when the exact sum is `x`. -/
def wrap (x : Int) : Int := (x + 2147483648) % 4294967296 - 2147483648

/-- The integer `x` is a value of the type `int`. -/
def IsInt (x : Int) : Prop := -2147483648 ≤ x ∧ x ≤ 2147483647

instance (x : Int) : Decidable (IsInt x) := by unfold IsInt; infer_instance

/-- The expression `(j1 == j2) ? grid[i][j1] : grid[i][j1] + grid[i][j2]`. -/
def cellReward (grid : List (List Int)) (i j1 j2 : Int) : Option Int :=
  if j1 = j2 then rd2 grid i j1
  else (rd2 grid i j1).bind fun a => (rd2 grid i j2).bind fun b => some (wrap (a + b))

namespace CherryPickupRecursion

/-- The body of `CherryPickupRecursion::solveRec` below the base cases: the two
nested loops over `dj1` and `dj2` with `curr += solveRec(…)` and
`best = max(best, curr)`, where `rec j1 j2` stands for the recursive call on
row `i + 1`. -/
def recLoops (grid : List (List Int)) (i j1 j2 : Int) (rec : Int → Int → Option Int) :
    Option Int :=
  deltas.foldlM (fun best dj1 =>
    deltas.foldlM (fun best dj2 =>
      (cellReward grid i j1 j2).bind fun curr =>
        (rec (j1 + dj1) (j2 + dj2)).bind fun r =>
          some (max best (wrap (curr + r)))) best) NEG_INF

/-- The method `CherryPickupRecursion::solveRec(i, j1, j2, n, m, grid)`.  The
recursion is on the number of rows of `grid` below row `i`: a row index outside
the grid is an out-of-range read of `grid[i]`. -/
def solveRec (i j1 j2 n m : Int) (grid : List (List Int)) : Option Int :=
  if j1 < 0 ∨ j1 ≥ m ∨ j2 < 0 ∨ j2 ≥ m then some NEG_INF
  else if i = n - 1 then cellReward grid i j1 j2
  else if h : 0 ≤ i ∧ i < grid.length then
    recLoops grid i j1 j2 fun a b => solveRec (i + 1) a b n m grid
  else none
termination_by (grid.length - i).toNat
decreasing_by omega

end CherryPickupRecursion

/-- The two nested loops over `dj1` and `dj2` of the tabulated variants for one
cell `(j1, j2)` of row `i`, with `curr += dp[i + 1][nj1][nj2]`, respectively
`currVal += prev[nj1][nj2]`; `next nj1 nj2` is that read.  Candidates outside
`[0, m)` are skipped. -/
def bestOver (grid : List (List Int)) (m : Int) (i j1 j2 : Int)
    (next : Int → Int → Option Int) : Option Int :=
  deltas.foldlM (fun best dj1 =>
    deltas.foldlM (fun best dj2 =>
      let nj1 := j1 + dj1
      let nj2 := j2 + dj2
      if nj1 < 0 ∨ nj1 ≥ m ∨ nj2 < 0 ∨ nj2 ≥ m then some best
      else
        (cellReward grid i j1 j2).bind fun curr =>
          (next nj1 nj2).bind fun v =>
            some (max best (wrap (curr + v)))) best) NEG_INF

namespace CherryPickupTabulation

/-- The base-case loops of `CherryPickupTabulation::cherryPickup`: they fill
`dp[n - 1]`. -/
def baseLoops (grid : List (List Int)) (n m : Nat) (dp : List (List (List Int))) :
    Option (List (List (List Int))) :=
  (upTo m).foldlM (fun dp (j1 : Nat) =>
    (upTo m).foldlM (fun dp (j2 : Nat) =>
      (cellReward grid ((n : Int) - 1) j1 j2).bind fun v =>
        wr3 dp ((n : Int) - 1) j1 j2 v) dp) dp

/-- The loops over `j1` and `j2` for one row `i` of the driver loop of
`CherryPickupTabulation::cherryPickup`. -/
def rowLoops (grid : List (List Int)) (m : Nat) (dp : List (List (List Int))) (i : Nat) :
    Option (List (List (List Int))) :=
  (upTo m).foldlM (fun dp (j1 : Nat) =>
    (upTo m).foldlM (fun dp (j2 : Nat) =>
      (bestOver grid m i j1 j2 fun a b => rd3 dp ((i : Int) + 1) a b).bind fun best =>
        wr3 dp i j1 j2 best) dp) dp

/-- The table `dp` of `CherryPickupTabulation::cherryPickup` when the driver
loop has finished. -/
def table (grid : List (List Int)) : Option (List (List (List Int))) :=
  (rd grid 0).bind fun row0 =>
    let n := grid.length
    let m := row0.length
    let dp := List.replicate n (List.replicate m (List.replicate m NEG_INF))
    (baseLoops grid n m dp).bind fun dp =>
      (driverRows n).foldlM (rowLoops grid m) dp

/-- The method `CherryPickupTabulation::cherryPickup(grid)`. -/
def cherryPickup (grid : List (List Int)) : Option Int :=
  (rd grid 0).bind fun row0 =>
    let m := row0.length
    (table grid).bind fun dp => rd3 dp 0 0 ((m : Int) - 1)

end CherryPickupTabulation

namespace CherryPickupSpaceOptimized

/-- The base-case loops of `CherryPickupSpaceOptimized::cherryPickup`: they
fill `prev` from row `n - 1`. -/
def baseLoops (grid : List (List Int)) (n m : Nat) (prev : List (List Int)) :
    Option (List (List Int)) :=
  (upTo m).foldlM (fun prev (j1 : Nat) =>
    (upTo m).foldlM (fun prev (j2 : Nat) =>
      (cellReward grid ((n : Int) - 1) j1 j2).bind fun v =>
        wr2 prev j1 j2 v) prev) prev

/-- One iteration of the driver loop of `CherryPickupSpaceOptimized::cherryPickup`
on the state `(prev, curr)`: the loops over `j1` and `j2` write `curr`, then
`prev = curr`. -/
def rowStep (grid : List (List Int)) (m : Nat) (st : List (List Int) × List (List Int))
    (i : Nat) : Option (List (List Int) × List (List Int)) :=
  ((upTo m).foldlM (fun curr (j1 : Nat) =>
    (upTo m).foldlM (fun curr (j2 : Nat) =>
      (bestOver grid m i j1 j2 fun a b => rd2 st.1 a b).bind fun best =>
        wr2 curr j1 j2 best) curr) st.2).bind fun curr => some (curr, curr)

/-- The state `(prev, curr)` of `CherryPickupSpaceOptimized::cherryPickup` when
the driver loop has finished. -/
def layers (grid : List (List Int)) : Option (List (List Int) × List (List Int)) :=
  (rd grid 0).bind fun row0 =>
    let n := grid.length
    let m := row0.length
    let prev := List.replicate m (List.replicate m NEG_INF)
    let curr := List.replicate m (List.replicate m NEG_INF)
    (baseLoops grid n m prev).bind fun prev =>
      (driverRows n).foldlM (rowStep grid m) (prev, curr)

/-- The method `CherryPickupSpaceOptimized::cherryPickup(grid)`. -/
def cherryPickup (grid : List (List Int)) : Option Int :=
  (rd grid 0).bind fun row0 =>
    let m := row0.length
    (layers grid).bind fun st => rd2 st.1 0 ((m : Int) - 1)

end CherryPickupSpaceOptimized

/-! ## Specification-side definitions for the 32-bit embedding -/

/-- The reward of one row for walkers on columns `j1` and `j2` as the 32-bit
code computes it. -/
def rowReward32 (row : List Int) (j1 j2 : Nat) : Int :=
  if j1 = j2 then row.getD j1 0 else wrap (row.getD j1 0 + row.getD j2 0)

/-- The value the 32-bit tabulated variants store for the state
`(row, j1, j2)`, where `rows` are the rows of the grid from `row` to the last
one: the fold of `bestV` over the wrapped candidates. -/
def cellW (m : Nat) : List (List Int) → Nat → Nat → Int
  | [], _, _ => NEG_INF
  | [row], j1, j2 => rowReward32 row j1 j2
  | row :: next :: rest, j1, j2 =>
      bestV m 0 (fun a b => wrap (rowReward32 row j1 j2 + cellW m (next :: rest) a b)) j1 j2

/-- The value the loops of the 32-bit `solveRec` fold for the cell `(j1, j2)`
when the reward of the cell is `r` and the next row returns `next`: a move
outside `[0, m)` offers `r + NEG_INF`. -/
def recBest (m : Nat) (r : Int) (next : Nat → Nat → Int) (j1 j2 : Nat) : Int :=
  deltas.foldl (fun best dj1 =>
    deltas.foldl (fun best dj2 =>
      max best (wrap (r +
        (if (j1 : Int) + dj1 < 0 ∨ (j1 : Int) + dj1 ≥ m ∨ (j2 : Int) + dj2 < 0 ∨
            (j2 : Int) + dj2 ≥ m then NEG_INF
          else next ((j1 : Int) + dj1).toNat ((j2 : Int) + dj2).toNat)))) best) NEG_INF

/-- The value the 32-bit `solveRec` returns for the state `(row, j1, j2)` with
both columns inside `[0, m)`. -/
def recW (m : Nat) : List (List Int) → Nat → Nat → Int
  | [], _, _ => NEG_INF
  | [row], j1, j2 => rowReward32 row j1 j2
  | row :: next :: rest, j1, j2 =>
      recBest m (rowReward32 row j1 j2) (recW m (next :: rest)) j1 j2

/-- No addition of the tabulated run on `rows` leaves the range of `int`: the
reward of every cell pair is an `int` (for `j1 = j2` this says that the entry
itself is one), and so is every exact sum of such a reward and of a stored
value of the next row that the loops add to it. -/
def InRange (m : Nat) : List (List Int) → Prop
  | [] => True
  | [row] => ∀ j1, j1 < m → ∀ j2, j2 < m → IsInt (rowReward row j1 j2)
  | row :: next :: rest =>
      InRange m (next :: rest) ∧
      ∀ j1, j1 < m → ∀ j2, j2 < m → IsInt (rowReward row j1 j2) ∧
        ∀ a, a < m → ∀ b, b < m → Near a j1 → Near b j2 →
          IsInt (rowReward row j1 j2 + cellW m (next :: rest) a b)

end Wrap32

/-- The walkers, started on the columns `0` and `m - 1` of row `0`, can stand on
the columns `a` and `b` in row `i`: there are column sequences of the two
walkers over the rows `0 .. i` that end there. -/
def Reachable (m i a b : Nat) : Prop :=
  ∃ as bs : List Nat, as.length = i + 1 ∧ bs.length = i + 1 ∧ IsWalk m as ∧ IsWalk m bs ∧
    as.head? = some 0 ∧ bs.head? = some (m - 1) ∧
    as.getLast? = some a ∧ bs.getLast? = some b

end CherryPickup

namespace CherryPickup

/-! ## Checked subscripts inside the bounds -/

theorem rd_natCast {α : Type} (v : List α) (i : Nat) : rd v (i : Int) = v[i]? := by
  simp [rd]

theorem rd_zero_cons {α : Type} (x : α) (xs : List α) : rd (x :: xs) 0 = some x := by
  simp [rd]

theorem rd_of_lt {α : Type} (v : List α) (i : Nat) (h : i < v.length) :
    rd v (i : Int) = some (v.get ⟨i, h⟩) := by
  simp [rd, List.getElem?_eq_getElem h]

theorem wr_of_lt {α : Type} (v : List α) (i : Nat) (x : α) (h : i < v.length) :
    wr v (i : Int) x = some (v.set i x) := by
  simp [wr, h]

theorem getD_mem_or {α : Type} (v : List α) (i : Nat) (d : α) (h : i < v.length) :
    v.getD i d ∈ v := by
  rw [List.getD_eq_getElem?_getD, List.getElem?_eq_getElem h]
  exact List.getElem_mem h

theorem rd_getD {α : Type} (v : List α) (i : Nat) (d : α) (h : i < v.length) :
    rd v (i : Int) = some (v.getD i d) := by
  rw [rd_natCast, List.getD_eq_getElem?_getD, List.getElem?_eq_getElem h]
  rfl

theorem rd2_at2 (v : List (List Int)) (m a b : Nat) (hv : ∀ row ∈ v, m ≤ row.length)
    (ha : a < v.length) (hb : b < m) : rd2 v (a : Int) (b : Int) = some (at2 v a b) := by
  have hrow : b < (v.getD a []).length := lt_of_lt_of_le hb (hv _ (getD_mem_or v a [] ha))
  unfold rd2 at2
  rw [rd_getD v a [] ha, Option.some_bind, rd_getD _ b 0 hrow]

theorem sq_wide {m : Nat} {layer : List (List Int)} (h : Sq m layer) :
    ∀ row ∈ layer, m ≤ row.length := fun row hr => le_of_eq (h.2 row hr).symm

theorem rd3_at3 (dp : List (List (List Int))) (n m i a b : Nat) (hdp : Cube n m dp)
    (hi : i < n) (ha : a < m) (hb : b < m) :
    rd3 dp (i : Int) (a : Int) (b : Int) = some (at3 dp i a b) := by
  have hi' : i < dp.length := by rw [hdp.1]; exact hi
  have hsq : Sq m (dp.getD i []) := hdp.2 _ (getD_mem_or dp i [] hi')
  have ha' : a < (dp.getD i []).length := by rw [hsq.1]; exact ha
  unfold rd3 at3
  rw [rd_getD dp i [] hi', Option.some_bind, rd2_at2 _ m a b (sq_wide hsq) ha' hb]

theorem getD_set {α : Type} (v : List α) (i j : Nat) (x d : α) (h : i < v.length) :
    (v.set i x).getD j d = if j = i then x else v.getD j d := by
  simp only [List.getD_eq_getElem?_getD, List.getElem?_set]
  by_cases hji : j = i
  · subst hji; simp [h]
  · have : ¬ i = j := fun e => hji e.symm
    simp [hji, this]

theorem mem_set_cases {α : Type} (v : List α) (i : Nat) (x y : α) (h : y ∈ v.set i x) :
    y = x ∨ y ∈ v := by
  rcases List.mem_iff_getElem?.1 h with ⟨k, hk⟩
  rw [List.getElem?_set] at hk
  by_cases hik : i = k
  · rw [if_pos hik] at hk
    by_cases hl : i < v.length
    · rw [if_pos hl] at hk; exact Or.inl (Option.some.inj hk).symm
    · rw [if_neg hl] at hk; cases hk
  · rw [if_neg hik] at hk
    exact Or.inr (List.mem_iff_getElem?.2 ⟨k, hk⟩)

/-- A write `layer[a][b] = x` inside a square layer succeeds, keeps the layer
square and changes exactly the cell `(a, b)`. -/
theorem wr2_spec (layer : List (List Int)) (m a b : Nat) (x : Int) (hl : Sq m layer)
    (ha : a < m) (hb : b < m) :
    ∃ layer', wr2 layer (a : Int) (b : Int) x = some layer' ∧ Sq m layer' ∧
      ∀ a' b', at2 layer' a' b' = if a' = a ∧ b' = b then x else at2 layer a' b' := by
  have ha' : a < layer.length := by rw [hl.1]; exact ha
  have hrow : (layer.getD a []).length = m := hl.2 _ (getD_mem_or layer a [] ha')
  have hb' : b < (layer.getD a []).length := by rw [hrow]; exact hb
  refine ⟨layer.set a ((layer.getD a []).set b x), ?_, ⟨?_, ?_⟩, ?_⟩
  · unfold wr2
    rw [rd_getD layer a [] ha', Option.some_bind, wr_of_lt _ b x hb', Option.some_bind,
      wr_of_lt layer a _ ha']
  · rw [List.length_set]; exact hl.1
  · intro row hr
    rcases mem_set_cases _ _ _ _ hr with h | h
    · rw [h, List.length_set]; exact hrow
    · exact hl.2 row h
  · intro a' b'
    unfold at2
    rw [getD_set _ _ _ _ _ ha']
    by_cases h1 : a' = a
    · subst h1
      rw [if_pos rfl, getD_set _ _ _ _ _ hb']
      by_cases h2 : b' = b
      · simp [h2]
      · simp [h2]
    · simp [h1]

/-- A write `dp[i][a][b] = x` inside the table succeeds, keeps the shape of the
table and changes exactly the cell `(i, a, b)`. -/
theorem wr3_spec (dp : List (List (List Int))) (n m i a b : Nat) (x : Int) (hdp : Cube n m dp)
    (hi : i < n) (ha : a < m) (hb : b < m) :
    ∃ dp', wr3 dp (i : Int) (a : Int) (b : Int) x = some dp' ∧ Cube n m dp' ∧
      ∀ i' a' b', at3 dp' i' a' b' = if i' = i ∧ a' = a ∧ b' = b then x else at3 dp i' a' b' := by
  have hi' : i < dp.length := by rw [hdp.1]; exact hi
  have hsq : Sq m (dp.getD i []) := hdp.2 _ (getD_mem_or dp i [] hi')
  obtain ⟨layer', hw, hsq', hat⟩ := wr2_spec (dp.getD i []) m a b x hsq ha hb
  refine ⟨dp.set i layer', ?_, ⟨?_, ?_⟩, ?_⟩
  · unfold wr3
    rw [rd_getD dp i [] hi', Option.some_bind, hw, Option.some_bind, wr_of_lt dp i _ hi']
  · rw [List.length_set]; exact hdp.1
  · intro layer hr
    rcases mem_set_cases _ _ _ _ hr with h | h
    · rw [h]; exact hsq'
    · exact hdp.2 layer h
  · intro i' a' b'
    unfold at3
    rw [getD_set _ _ _ _ _ hi']
    by_cases h1 : i' = i
    · subst h1
      rw [if_pos rfl, hat]
      by_cases h2 : a' = a ∧ b' = b
      · simp [h2]
      · rw [if_neg h2, if_neg]
        exact fun h => h2 h.2
    · simp [h1]

end CherryPickup

namespace CherryPickup

/-! ## Loops as folds -/

/-- A loop whose body never fails computes the fold of the total body. -/
theorem foldlM_some {α σ : Type} (step : σ → α → Option σ) (f : σ → α → σ) (l : List α)
    (h : ∀ s, ∀ x ∈ l, step s x = some (f s x)) (s0 : σ) :
    l.foldlM step s0 = some (l.foldl f s0) := by
  induction l generalizing s0 with
  | nil => rfl
  | cons x xs ih =>
    rw [List.foldlM_cons, h s0 x (List.mem_cons_self x xs)]
    exact ih (fun s y hy => h s y (List.mem_cons_of_mem x hy)) (f s0 x)

/-- Loop invariant rule: `Inv k` holds before iteration `k`, every iteration
succeeds and re-establishes it, so the loop succeeds and `Inv` holds at the end. -/
theorem foldlM_inv {α σ : Type} (step : σ → α → Option σ) (l : List α)
    (Inv : Nat → σ → Prop) (s0 : σ) (h0 : Inv 0 s0)
    (hs : ∀ k x s, l[k]? = some x → Inv k s → ∃ s', step s x = some s' ∧ Inv (k + 1) s') :
    ∃ s', l.foldlM step s0 = some s' ∧ Inv l.length s' := by
  induction l generalizing Inv s0 with
  | nil => exact ⟨s0, rfl, h0⟩
  | cons x xs ih =>
    obtain ⟨s1, h1, hi1⟩ := hs 0 x s0 (by simp) h0
    obtain ⟨s', h2, hi2⟩ := ih (fun k s => Inv (k + 1) s) s1 hi1
      (fun k y s hk hi => hs (k + 1) y s (by simpa using hk) hi)
    refine ⟨s', ?_, hi2⟩
    rw [List.foldlM_cons, h1]
    exact h2

theorem upTo_get {m k x : Nat} (h : (upTo m)[k]? = some x) : x = k ∧ k < m := by
  unfold upTo at h
  by_cases hk : k < m
  · rw [List.getElem?_range hk] at h
    exact ⟨(Option.some.inj h).symm, hk⟩
  · rw [List.getElem?_eq_none (by simpa using hk)] at h
    cases h

theorem upTo_length (m : Nat) : (upTo m).length = m := by simp [upTo]

/-- The two nested loops `for j1 … for j2 … cell(j1, j2) = f(j1, j2)` fill the
`m × m` cells of a store: when, under an invariant `P` of the store, every
computation `f` returns `F a b` and every write succeeds, keeps `P` and changes
exactly its cell, the loops succeed and every cell `(a, b)` holds `F a b`. -/
theorem fill_spec {σ : Type} (m : Nat) (P : σ → Prop) (get : σ → Nat → Nat → Int)
    (f : σ → Nat → Nat → Option Int) (w : σ → Nat → Nat → Int → Option σ)
    (F : Nat → Nat → Int)
    (hf : ∀ s a b, P s → a < m → b < m → f s a b = some (F a b))
    (hw : ∀ s a b x, P s → a < m → b < m → ∃ s', w s a b x = some s' ∧ P s' ∧
      ∀ a' b', get s' a' b' = if a' = a ∧ b' = b then x else get s a' b')
    (s0 : σ) (h0 : P s0) :
    ∃ s', (upTo m).foldlM (fun s j1 =>
        (upTo m).foldlM (fun s j2 => (f s j1 j2).bind fun v => w s j1 j2 v) s) s0 = some s' ∧
      P s' ∧ ∀ a b, a < m → b < m → get s' a b = F a b := by
  obtain ⟨s', hs', hP, hget⟩ := foldlM_inv
    (fun s j1 => (upTo m).foldlM (fun s j2 => (f s j1 j2).bind fun v => w s j1 j2 v) s)
    (upTo m)
    (fun a s => P s ∧ ∀ a' b', a' < a → b' < m → get s a' b' = F a' b')
    s0 ⟨h0, fun a' b' ha' _ => absurd ha' (Nat.not_lt_zero a')⟩
    (by
      intro k a s hk hinv
      obtain ⟨hak, hkm⟩ := upTo_get hk
      subst hak
      obtain ⟨s1, h1, hP1, hdone, hrow⟩ := foldlM_inv
        (fun s j2 => (f s a j2).bind fun v => w s a j2 v) (upTo m)
        (fun b s => P s ∧ (∀ a' b', a' < a → b' < m → get s a' b' = F a' b') ∧
          ∀ b', b' < b → get s a b' = F a b')
        s ⟨hinv.1, hinv.2, fun b' hb' => absurd hb' (Nat.not_lt_zero b')⟩
        (by
          intro k2 b t hk2 hinv2
          obtain ⟨hbk, hbm⟩ := upTo_get hk2
          subst hbk
          obtain ⟨hPt, hdone, hrow⟩ := hinv2
          obtain ⟨t', hw', hPt', hget'⟩ := hw t a b (F a b) hPt hkm hbm
          refine ⟨t', ?_, hPt', ?_, ?_⟩
          · show (f t a b).bind (fun v => w t a b v) = some t'
            rw [hf t a b hPt hkm hbm]
            exact hw'
          · intro a' b' ha' hb'
            rw [hget', if_neg (fun h => absurd h.1 (Nat.ne_of_lt ha')), hdone a' b' ha' hb']
          · intro b' hb'
            rw [hget']
            by_cases hbb : b' = b
            · rw [if_pos ⟨rfl, hbb⟩, hbb]
            · rw [if_neg (fun h => hbb h.2)]
              exact hrow b' (by omega))
      rw [upTo_length] at hrow
      refine ⟨s1, h1, hP1, ?_⟩
      intro a' b' ha' hb'
      by_cases haa : a' = a
      · rw [haa]; exact hrow b' hb'
      · exact hdone a' b' (by omega) hb')
  rw [upTo_length] at hget
  exact ⟨s', hs', hP, hget⟩

end CherryPickup

namespace CherryPickup

/-! ## The loops over `dj1` and `dj2` -/

theorem IsBest.unique {b : Int} {S : Int → Prop} {x y : Int} (hx : IsBest b S x)
    (hy : IsBest b S y) : x = y := by
  obtain ⟨hbx, hux, hax⟩ := hx
  obtain ⟨hby, huy, hay⟩ := hy
  apply le_antisymm
  · rcases hax with h | h
    · rw [h]; exact hby
    · exact huy x h
  · rcases hay with h | h
    · rw [h]; exact hbx
    · exact hux y h

theorem IsBest.congr {b : Int} {S S' : Int → Prop} {x : Int} (h : ∀ y, S y ↔ S' y)
    (hx : IsBest b S x) : IsBest b S' x :=
  ⟨hx.1, fun y hy => hx.2.1 y ((h y).2 hy), hx.2.2.imp id (fun hs => (h x).1 hs)⟩

theorem isBest_max (best c : Int) : IsBest best (fun y => y = c) (max best c) := by
  refine ⟨le_max_left _ _, fun y hy => by rw [hy]; exact le_max_right _ _, ?_⟩
  rcases le_total best c with h | h
  · exact Or.inr (max_eq_right h)
  · exact Or.inl (max_eq_left h)

/-- A loop `best = max(best, …)` leaves in `best` the greatest of its start
value and of all the candidates its iterations have offered. -/
theorem foldl_isBest {α : Type} (l : List α) (g : Int → α → Int) (T : α → Int → Prop)
    (hg : ∀ best x, x ∈ l → IsBest best (T x) (g best x)) (b : Int) :
    IsBest b (fun y => ∃ x, x ∈ l ∧ T x y) (l.foldl g b) := by
  induction l generalizing b with
  | nil =>
    refine ⟨le_refl b, ?_, Or.inl rfl⟩
    rintro y ⟨x, hx, _⟩
    cases hx
  | cons x xs ih =>
    have h1 := hg b x (List.mem_cons_self x xs)
    have h2 := ih (fun best y hy => hg best y (List.mem_cons_of_mem x hy)) (g b x)
    rw [List.foldl_cons]
    refine ⟨le_trans h1.1 h2.1, ?_, ?_⟩
    · rintro y ⟨z, hz, hT⟩
      rcases List.mem_cons.1 hz with e | hz'
      · subst e
        exact le_trans (h1.2.1 y hT) h2.1
      · exact h2.2.1 y ⟨z, hz', hT⟩
    · rcases h2.2.2 with e | ⟨z, hz, hT⟩
      · rcases h1.2.2 with e1 | hT
        · exact Or.inl (e.trans e1)
        · exact Or.inr ⟨x, List.mem_cons_self x xs, by rw [e]; exact hT⟩
      · exact Or.inr ⟨z, List.mem_cons_of_mem x hz, hT⟩

theorem mem_deltas {d : Int} : d ∈ deltas ↔ d = -1 ∨ d = 0 ∨ d = 1 := by
  simp [deltas]

/-- The loops of the tabulated variants leave in `best` the greatest of the
sentinel and of `r + next a b` over the in-range neighbours `(a, b)`. -/
theorem bestV_isBest (m : Nat) (r : Int) (next : Nat → Nat → Int) (j1 j2 : Nat) :
    IsBest NEG_INF (Cand m r next j1 j2) (bestV m r next j1 j2) := by
  have h := foldl_isBest deltas
    (fun best dj1 =>
      deltas.foldl (fun best dj2 =>
        if (j1 : Int) + dj1 < 0 ∨ (j1 : Int) + dj1 ≥ m ∨ (j2 : Int) + dj2 < 0 ∨
            (j2 : Int) + dj2 ≥ m
        then best
        else max best (r + next ((j1 : Int) + dj1).toNat ((j2 : Int) + dj2).toNat)) best)
    (fun dj1 y => ∃ dj2, dj2 ∈ deltas ∧
      (¬ ((j1 : Int) + dj1 < 0 ∨ (j1 : Int) + dj1 ≥ m ∨ (j2 : Int) + dj2 < 0 ∨
            (j2 : Int) + dj2 ≥ m) ∧
        y = r + next ((j1 : Int) + dj1).toNat ((j2 : Int) + dj2).toNat))
    (by
      intro best dj1 _
      apply foldl_isBest
      intro best dj2 _
      by_cases hc : (j1 : Int) + dj1 < 0 ∨ (j1 : Int) + dj1 ≥ m ∨ (j2 : Int) + dj2 < 0 ∨
            (j2 : Int) + dj2 ≥ m
      · rw [if_pos hc]
        exact ⟨le_refl _, fun y hy => absurd hc hy.1, Or.inl rfl⟩
      · rw [if_neg hc]
        exact (isBest_max best _).congr (fun y => ⟨fun e => ⟨hc, e⟩, fun e => e.2⟩))
    NEG_INF
  refine IsBest.congr ?_ h
  intro y
  constructor
  · rintro ⟨dj1, h1, dj2, h2, hc, hy⟩
    rw [mem_deltas] at h1 h2
    refine ⟨((j1 : Int) + dj1).toNat, ((j2 : Int) + dj2).toNat, ?_, ?_, ?_, ?_, hy⟩
    · omega
    · omega
    · unfold Near; omega
    · unfold Near; omega
  · rintro ⟨a, b, ha, hb, hna, hnb, hy⟩
    unfold Near at hna hnb
    refine ⟨(a : Int) - j1, ?_, (b : Int) - j2, ?_, ?_, ?_⟩
    · rw [mem_deltas]; omega
    · rw [mem_deltas]; omega
    · omega
    · have e1 : ((j1 : Int) + ((a : Int) - j1)).toNat = a := by omega
      have e2 : ((j2 : Int) + ((b : Int) - j2)).toNat = b := by omega
      rw [e1, e2]; exact hy

theorem cellReward_spec (grid : List (List Int)) (m i a b : Nat) (hg : Wide m grid)
    (hi : i < grid.length) (ha : a < m) (hb : b < m) :
    cellReward grid (i : Int) (a : Int) (b : Int) = some (rowReward (grid.getD i []) a b) := by
  unfold cellReward rowReward
  by_cases hab : a = b
  · subst hab
    rw [if_pos rfl, if_pos rfl, rd2_at2 grid m i a hg hi ha]
    rfl
  · rw [if_neg (fun h => hab (Int.ofNat_inj.1 h)), if_neg hab, rd2_at2 grid m i a hg hi ha,
      rd2_at2 grid m i b hg hi hb]
    rfl

/-- The checked loops of the tabulated variants for one cell: when the reward
of the cell reads as `r` and the in-range cells of the next layer read as
`nx`, they return `bestV`. -/
theorem bestOver_spec (grid : List (List Int)) (m : Nat) (i : Int) (j1 j2 : Nat) (r : Int)
    (next : Int → Int → Option Int) (nx : Nat → Nat → Int)
    (hr : cellReward grid i j1 j2 = some r)
    (hn : ∀ a b : Nat, a < m → b < m → next a b = some (nx a b)) :
    bestOver grid m i j1 j2 next = some (bestV m r nx j1 j2) := by
  unfold bestOver bestV
  apply foldlM_some
  intro best dj1 _
  apply foldlM_some
  intro best dj2 _
  dsimp only
  by_cases hc : (j1 : Int) + dj1 < 0 ∨ (j1 : Int) + dj1 ≥ m ∨ (j2 : Int) + dj2 < 0 ∨
      (j2 : Int) + dj2 ≥ m
  · rw [if_pos hc, if_pos hc]
  · rw [if_neg hc, if_neg hc, hr, Option.some_bind]
    have e1 : (j1 : Int) + dj1 = ((((j1 : Int) + dj1).toNat : Nat) : Int) := by omega
    have e2 : (j2 : Int) + dj2 = ((((j2 : Int) + dj2).toNat : Nat) : Int) := by omega
    have h := hn ((j1 : Int) + dj1).toNat ((j2 : Int) + dj2).toNat (by omega) (by omega)
    rw [← e1, ← e2] at h
    rw [h, Option.some_bind]

end CherryPickup

namespace CherryPickup

/-! ## The layers the tabulated variants compute -/

theorem driverRows_length (n : Nat) : (driverRows n).length = n - 1 := by
  simp [driverRows]

theorem driverRows_get {n k x : Nat} (h : (driverRows n)[k]? = some x) :
    x = n - 2 - k ∧ k + 1 < n := by
  unfold driverRows at h
  by_cases hk : k < n - 1
  · rw [List.getElem?_reverse (by simpa using hk), List.length_range,
      List.getElem?_range (by omega)] at h
    exact ⟨by have := Option.some.inj h; omega, by omega⟩
  · rw [List.getElem?_eq_none (by simpa using hk)] at h
    cases h

theorem getD_drop_head (grid : List (List Int)) (i : Nat) (h : i < grid.length) :
    grid.drop i = grid.getD i [] :: grid.drop (i + 1) := by
  rw [List.drop_eq_getElem_cons h, List.getD_eq_getElem?_getD, List.getElem?_eq_getElem h]
  rfl

theorem cellV_drop_last (m : Nat) (grid : List (List Int)) (i a b : Nat)
    (h : i + 1 = grid.length) :
    cellV m (grid.drop i) a b = rowReward (grid.getD i []) a b := by
  rw [getD_drop_head grid i (by omega), List.drop_eq_nil_of_le (by omega)]
  rfl

theorem cellV_drop (m : Nat) (grid : List (List Int)) (i a b : Nat)
    (h : i + 1 < grid.length) :
    cellV m (grid.drop i) a b =
      bestV m (rowReward (grid.getD i []) a b) (cellV m (grid.drop (i + 1))) a b := by
  rw [getD_drop_head grid i (by omega), getD_drop_head grid (i + 1) h]
  rfl

theorem bestV_congr (m : Nat) (r : Int) (next next' : Nat → Nat → Int) (j1 j2 : Nat)
    (h : ∀ a b, a < m → b < m → next a b = next' a b) :
    bestV m r next j1 j2 = bestV m r next' j1 j2 := by
  refine (bestV_isBest m r next j1 j2).unique (IsBest.congr ?_ (bestV_isBest m r next' j1 j2))
  intro y
  constructor
  · rintro ⟨a, b, ha, hb, hna, hnb, hy⟩
    exact ⟨a, b, ha, hb, hna, hnb, by rw [h a b ha hb]; exact hy⟩
  · rintro ⟨a, b, ha, hb, hna, hnb, hy⟩
    exact ⟨a, b, ha, hb, hna, hnb, by rw [← h a b ha hb]; exact hy⟩

theorem cube_replicate (n m : Nat) :
    Cube n m (List.replicate n (List.replicate m (List.replicate m NEG_INF))) := by
  refine ⟨List.length_replicate _ _, ?_⟩
  intro layer hl
  rw [List.eq_of_mem_replicate hl]
  refine ⟨List.length_replicate _ _, ?_⟩
  intro row hr
  rw [List.eq_of_mem_replicate hr]
  exact List.length_replicate _ _

theorem sq_replicate (m : Nat) : Sq m (List.replicate m (List.replicate m NEG_INF)) := by
  refine ⟨List.length_replicate _ _, ?_⟩
  intro row hr
  rw [List.eq_of_mem_replicate hr]
  exact List.length_replicate _ _

namespace CherryPickupTabulation

/-- The base-case loops succeed on a table of the right shape and fill layer
`n - 1` with the rewards of the last row. -/
theorem tab_baseLoops_spec (grid : List (List Int)) (n m : Nat) (hn : grid.length = n)
    (hpos : 0 < n) (hg : Wide m grid) (dp : List (List (List Int))) (hdp : Cube n m dp) :
    ∃ dp', baseLoops grid n m dp = some dp' ∧ Cube n m dp' ∧
      ∀ a b, a < m → b < m →
        at3 dp' (n - 1) a b = rowReward (grid.getD (n - 1) []) a b := by
  have e : (n : Int) - 1 = ((n - 1 : Nat) : Int) := by omega
  unfold baseLoops
  rw [e]
  exact fill_spec m (fun dp => Cube n m dp) (fun dp a b => at3 dp (n - 1) a b)
    (fun _ a b => cellReward grid ((n - 1 : Nat) : Int) a b)
    (fun dp a b x => wr3 dp ((n - 1 : Nat) : Int) a b x)
    (fun a b => rowReward (grid.getD (n - 1) []) a b)
    (fun _ a b _ ha hb => cellReward_spec grid m (n - 1) a b hg (by omega) ha hb)
    (fun s a b x hs ha hb => by
      obtain ⟨s', h1, h2, h3⟩ := wr3_spec s n m (n - 1) a b x hs (by omega) ha hb
      refine ⟨s', h1, h2, fun a' b' => ?_⟩
      dsimp only
      rw [h3]
      by_cases hc : a' = a ∧ b' = b
      · rw [if_pos hc, if_pos ⟨rfl, hc⟩]
      · rw [if_neg hc, if_neg (fun h => hc h.2)])
    dp hdp

/-- One iteration of the driver loop on row `i`: when layer `i + 1` holds the
values `nx`, the loops succeed, fill layer `i` by the transition and leave the
other layers as they were. -/
theorem tab_rowLoops_spec (grid : List (List Int)) (n m i : Nat) (hn : grid.length = n)
    (hi : i + 1 < n) (hg : Wide m grid) (dp : List (List (List Int))) (hdp : Cube n m dp)
    (nx : Nat → Nat → Int) (hnx : ∀ a b, a < m → b < m → at3 dp (i + 1) a b = nx a b) :
    ∃ dp', rowLoops grid m dp i = some dp' ∧ Cube n m dp' ∧
      (∀ i' a b, i' ≠ i → at3 dp' i' a b = at3 dp i' a b) ∧
      ∀ a b, a < m → b < m →
        at3 dp' i a b = bestV m (rowReward (grid.getD i []) a b) nx a b := by
  obtain ⟨dp', h1, ⟨h2, h3⟩, h4⟩ := fill_spec m
    (fun s => Cube n m s ∧ ∀ i' a b, i' ≠ i → at3 s i' a b = at3 dp i' a b)
    (fun s a b => at3 s i a b)
    (fun s a b => bestOver grid m i a b fun a' b' => rd3 s ((i : Int) + 1) a' b')
    (fun s a b x => wr3 s i a b x)
    (fun a b => bestV m (rowReward (grid.getD i []) a b) nx a b)
    (fun s a b hs ha hb => by
      apply bestOver_spec grid m i a b _ _ nx
        (cellReward_spec grid m i a b hg (by omega) ha hb)
      intro a' b' ha' hb'
      have e : (i : Int) + 1 = ((i + 1 : Nat) : Int) := by omega
      rw [e, rd3_at3 s n m (i + 1) a' b' hs.1 hi ha' hb', hs.2 (i + 1) a' b' (by omega),
        hnx a' b' ha' hb'])
    (fun s a b x hs ha hb => by
      obtain ⟨s', h1, h2, h3⟩ := wr3_spec s n m i a b x hs.1 (by omega) ha hb
      refine ⟨s', h1, ⟨h2, fun i' a' b' hne => ?_⟩, fun a' b' => ?_⟩
      · rw [h3, if_neg (fun h => hne h.1)]
        exact hs.2 i' a' b' hne
      · dsimp only
        rw [h3]
        by_cases hc : a' = a ∧ b' = b
        · rw [if_pos hc, if_pos ⟨rfl, hc⟩]
        · rw [if_neg hc, if_neg (fun h => hc h.2)])
    dp ⟨hdp, fun _ _ _ _ => rfl⟩
  exact ⟨dp', by unfold rowLoops; exact h1, h2, h3, h4⟩

/-- The table of the tabulated variant: on a grid whose rows have at least
`m = grid[0].size()` entries the loops succeed, the table has shape
`n × m × m`, and layer `i` holds `cellV` of the rows from `i` on. -/
theorem tab_table_spec (row0 : List Int) (rest : List (List Int))
    (hg : Wide row0.length (row0 :: rest)) :
    ∃ dp, table (row0 :: rest) = some dp ∧
      Cube (rest.length + 1) row0.length dp ∧
      ∀ i a b, i < rest.length + 1 → a < row0.length → b < row0.length →
        at3 dp i a b = cellV row0.length ((row0 :: rest).drop i) a b := by
  have hn : (row0 :: rest).length = rest.length + 1 := rfl
  obtain ⟨dp1, hb1, hc1, hv1⟩ := tab_baseLoops_spec (row0 :: rest) (rest.length + 1) row0.length
    hn (by omega) hg _ (cube_replicate (rest.length + 1) row0.length)
  obtain ⟨dp2, hd1, hc2, hv2⟩ := foldlM_inv (rowLoops (row0 :: rest) row0.length)
    (driverRows (rest.length + 1))
    (fun k dp => Cube (rest.length + 1) row0.length dp ∧
      ∀ i a b, rest.length - k ≤ i → i < rest.length + 1 → a < row0.length →
        b < row0.length → at3 dp i a b = cellV row0.length ((row0 :: rest).drop i) a b)
    dp1
    ⟨hc1, fun i a b h1 h2 ha hb => by
      have e : i = rest.length + 1 - 1 := by omega
      rw [e, hv1 a b ha hb, cellV_drop_last _ _ _ _ _ (by rw [hn]; omega)]⟩
    (by
      intro k i dp hk hinv
      obtain ⟨hik, hkn⟩ := driverRows_get hk
      obtain ⟨dp', h1, h2, h3, h4⟩ := tab_rowLoops_spec (row0 :: rest) (rest.length + 1)
        row0.length i hn (by omega) hg dp hinv.1
        (cellV row0.length ((row0 :: rest).drop (i + 1)))
        (fun a b ha hb => hinv.2 (i + 1) a b (by omega) (by omega) ha hb)
      refine ⟨dp', h1, h2, ?_⟩
      intro i' a b hi1 hi2 ha hb
      by_cases hii : i' = i
      · rw [hii, h4 a b ha hb, cellV_drop _ _ _ _ _ (by rw [hn]; omega)]
      · rw [h3 i' a b hii]
        exact hinv.2 i' a b (by omega) hi2 ha hb)
  refine ⟨dp2, ?_, hc2, ?_⟩
  · unfold table
    rw [rd_zero_cons, Option.some_bind]
    dsimp only
    rw [hn, hb1, Option.some_bind]
    exact hd1
  · intro i a b hi ha hb
    rw [driverRows_length] at hv2
    exact hv2 i a b (by omega) hi ha hb

/-- The tabulated variant returns `cellV` of the whole grid at the start
columns `(0, m - 1)`. -/
theorem tab_cherryPickup_spec (row0 : List Int) (rest : List (List Int))
    (hg : Wide row0.length (row0 :: rest)) (hm : 0 < row0.length) :
    cherryPickup (row0 :: rest) =
      some (cellV row0.length (row0 :: rest) 0 (row0.length - 1)) := by
  obtain ⟨dp, h1, h2, h3⟩ := tab_table_spec row0 rest hg
  unfold cherryPickup
  rw [rd_zero_cons, Option.some_bind]
  dsimp only
  rw [h1, Option.some_bind]
  have e : (row0.length : Int) - 1 = ((row0.length - 1 : Nat) : Int) := by omega
  have h := rd3_at3 dp _ _ 0 0 (row0.length - 1) h2 (by omega) hm (by omega)
  rw [Nat.cast_zero, ← e] at h
  rw [h, h3 0 0 (row0.length - 1) (by omega) hm (by omega)]
  rfl

end CherryPickupTabulation

end CherryPickup

namespace CherryPickup

namespace CherryPickupSpaceOptimized

/-- The base-case loops succeed on a square layer and fill it with the rewards
of the last row. -/
theorem so_baseLoops_spec (grid : List (List Int)) (n m : Nat) (hn : grid.length = n)
    (hpos : 0 < n) (hg : Wide m grid) (prev : List (List Int)) (hp : Sq m prev) :
    ∃ prev', baseLoops grid n m prev = some prev' ∧ Sq m prev' ∧
      ∀ a b, a < m → b < m → at2 prev' a b = rowReward (grid.getD (n - 1) []) a b := by
  have e : (n : Int) - 1 = ((n - 1 : Nat) : Int) := by omega
  unfold baseLoops
  rw [e]
  exact fill_spec m (fun s => Sq m s) (fun s a b => at2 s a b)
    (fun _ a b => cellReward grid ((n - 1 : Nat) : Int) a b)
    (fun s a b x => wr2 s a b x)
    (fun a b => rowReward (grid.getD (n - 1) []) a b)
    (fun _ a b _ ha hb => cellReward_spec grid m (n - 1) a b hg (by omega) ha hb)
    (fun s a b x hs ha hb => wr2_spec s m a b x hs ha hb)
    prev hp

/-- One iteration of the driver loop on row `i`: when `prev` holds the values
`nx`, the loops succeed and both `prev` and `curr` end as the layer computed
from `nx` by the transition. -/
theorem so_rowStep_spec (grid : List (List Int)) (n m i : Nat) (hn : grid.length = n)
    (hi : i + 1 < n) (hg : Wide m grid) (st : List (List Int) × List (List Int))
    (hp : Sq m st.1) (hc : Sq m st.2)
    (nx : Nat → Nat → Int) (hnx : ∀ a b, a < m → b < m → at2 st.1 a b = nx a b) :
    ∃ st', rowStep grid m st i = some st' ∧ Sq m st'.1 ∧ Sq m st'.2 ∧ st'.1 = st'.2 ∧
      ∀ a b, a < m → b < m →
        at2 st'.1 a b = bestV m (rowReward (grid.getD i []) a b) nx a b := by
  obtain ⟨curr', h1, h2, h3⟩ := fill_spec m (fun s => Sq m s) (fun s a b => at2 s a b)
    (fun _ a b => bestOver grid m i a b fun a' b' => rd2 st.1 a' b')
    (fun s a b x => wr2 s a b x)
    (fun a b => bestV m (rowReward (grid.getD i []) a b) nx a b)
    (fun _ a b _ ha hb => by
      apply bestOver_spec grid m i a b _ _ nx
        (cellReward_spec grid m i a b hg (by omega) ha hb)
      intro a' b' ha' hb'
      rw [rd2_at2 st.1 m a' b' (sq_wide hp) (by rw [hp.1]; exact ha') hb', hnx a' b' ha' hb'])
    (fun s a b x hs ha hb => wr2_spec s m a b x hs ha hb)
    st.2 hc
  refine ⟨(curr', curr'), ?_, h2, h2, rfl, h3⟩
  unfold rowStep
  rw [h1, Option.some_bind]

/-- The two layers of the space-optimised variant when the driver loop has
finished: on a grid whose rows have at least `m = grid[0].size()` entries the
loops succeed and `prev` holds `cellV` of the whole grid. -/
theorem so_layers_spec (row0 : List Int) (rest : List (List Int))
    (hg : Wide row0.length (row0 :: rest)) :
    ∃ st, layers (row0 :: rest) = some st ∧ Sq row0.length st.1 ∧
      ∀ a b, a < row0.length → b < row0.length →
        at2 st.1 a b = cellV row0.length (row0 :: rest) a b := by
  have hn : (row0 :: rest).length = rest.length + 1 := rfl
  obtain ⟨p1, hb1, hc1, hv1⟩ := so_baseLoops_spec (row0 :: rest) (rest.length + 1) row0.length
    hn (by omega) hg _ (sq_replicate row0.length)
  obtain ⟨st, hd1, hc2, _, hv2⟩ := foldlM_inv (rowStep (row0 :: rest) row0.length)
    (driverRows (rest.length + 1))
    (fun k st => Sq row0.length st.1 ∧ Sq row0.length st.2 ∧
      ∀ a b, a < row0.length → b < row0.length →
        at2 st.1 a b = cellV row0.length ((row0 :: rest).drop (rest.length - k)) a b)
    (p1, List.replicate row0.length (List.replicate row0.length NEG_INF))
    ⟨hc1, sq_replicate row0.length, fun a b ha hb => by
      have e : rest.length - 0 = rest.length + 1 - 1 := by omega
      rw [e, hv1 a b ha hb, cellV_drop_last _ _ _ _ _ (by rw [hn]; omega)]⟩
    (by
      intro k i s hk hinv
      obtain ⟨hik, hkn⟩ := driverRows_get hk
      obtain ⟨s', h1, h2, h3, _, h5⟩ := so_rowStep_spec (row0 :: rest) (rest.length + 1)
        row0.length i hn (by omega) hg s hinv.1 hinv.2.1
        (cellV row0.length ((row0 :: rest).drop (i + 1)))
        (fun a b ha hb => by
          have e : i + 1 = rest.length - k := by omega
          rw [e]; exact hinv.2.2 a b ha hb)
      refine ⟨s', h1, h2, h3, ?_⟩
      intro a b ha hb
      have e : rest.length - (k + 1) = i := by omega
      rw [e, h5 a b ha hb, cellV_drop _ _ _ _ _ (by rw [hn]; omega)])
  refine ⟨st, ?_, hc2, ?_⟩
  · unfold layers
    rw [rd_zero_cons, Option.some_bind]
    dsimp only
    rw [hn, hb1, Option.some_bind]
    exact hd1
  · intro a b ha hb
    rw [driverRows_length] at hv2
    have e : rest.length - (rest.length + 1 - 1) = 0 := by omega
    have h := hv2 a b ha hb
    rw [e] at h
    exact h

/-- The space-optimised variant returns `cellV` of the whole grid at the start
columns `(0, m - 1)`. -/
theorem so_cherryPickup_spec (row0 : List Int) (rest : List (List Int))
    (hg : Wide row0.length (row0 :: rest)) (hm : 0 < row0.length) :
    cherryPickup (row0 :: rest) =
      some (cellV row0.length (row0 :: rest) 0 (row0.length - 1)) := by
  obtain ⟨st, h1, h2, h3⟩ := so_layers_spec row0 rest hg
  unfold cherryPickup
  rw [rd_zero_cons, Option.some_bind]
  dsimp only
  rw [h1, Option.some_bind]
  have e : (row0.length : Int) - 1 = ((row0.length - 1 : Nat) : Int) := by omega
  have h := rd2_at2 st.1 row0.length 0 (row0.length - 1) (sq_wide h2) (by rw [h2.1]; exact hm)
    (by omega)
  rw [Nat.cast_zero, ← e] at h
  rw [h, h3 0 (row0.length - 1) hm (by omega)]

end CherryPickupSpaceOptimized

/-! ## Shapes -/

theorem rect_wide {n m : Nat} {grid : List (List Int)} (h : Rect n m grid) : Wide m grid :=
  fun row hr => le_of_eq (h.2 row hr).symm

/-- A rectangular grid with at least one row is its first row, of length `m`,
followed by the other rows. -/
theorem rect_cons {n m : Nat} {grid : List (List Int)} (h : Rect n m grid) (hn : 1 ≤ n) :
    ∃ row0 rest, grid = row0 :: rest ∧ row0.length = m ∧ rest.length + 1 = n := by
  obtain ⟨hl, hr⟩ := h
  cases grid with
  | nil => simp at hl; omega
  | cons row0 rest =>
    exact ⟨row0, rest, rfl, hr row0 (List.mem_cons_self _ _), by simpa using hl⟩

/-- On a rectangular grid both tabulated variants return `cellV` of the grid at
the start columns. -/
theorem cherryPickup_rect (n m : Nat) (grid : List (List Int)) (h : Rect n m grid)
    (hn : 1 ≤ n) (hm : 1 ≤ m) :
    CherryPickupTabulation.cherryPickup grid = some (cellV m grid 0 (m - 1)) ∧
      CherryPickupSpaceOptimized.cherryPickup grid = some (cellV m grid 0 (m - 1)) := by
  obtain ⟨row0, rest, hg, hm0, _⟩ := rect_cons h hn
  subst hg
  subst hm0
  exact ⟨CherryPickupTabulation.tab_cherryPickup_spec row0 rest (rect_wide h) hm,
    CherryPickupSpaceOptimized.so_cherryPickup_spec row0 rest (rect_wide h) hm⟩

end CherryPickup

namespace CherryPickup

/-! ## Equivalence of the two tabulated variants and the concrete scenarios -/

/-- C2: on every rectangular grid with `n ≥ 1` rows and `m ≥ 1` columns,
`CherryPickupTabulation::cherryPickup` (full `n × m × m` table) and
`CherryPickupSpaceOptimized::cherryPickup` (two rolling `m × m` layers) both
return, and they return the same integer. -/
theorem tabulation_eq_spaceOptimized (n m : Nat) (grid : List (List Int))
    (h : Rect n m grid) (hn : 1 ≤ n) (hm : 1 ≤ m) :
    ∃ v, CherryPickupTabulation.cherryPickup grid = some v ∧ CherryPickupSpaceOptimized.cherryPickup grid = some v :=
  ⟨cellV m grid 0 (m - 1), cherryPickup_rect n m grid h hn hm⟩

theorem tabulation_eq_spaceOptimized_witness :
    Rect 2 3 [[1, 2, 3], [4, 5, 6]] ∧
      ∃ v, CherryPickupTabulation.cherryPickup [[1, 2, 3], [4, 5, 6]] = some v ∧
        CherryPickupSpaceOptimized.cherryPickup [[1, 2, 3], [4, 5, 6]] = some v :=
  ⟨by decide,
    tabulation_eq_spaceOptimized 2 3 [[1, 2, 3], [4, 5, 6]] (by decide) (by decide) (by decide)⟩

/-- C4: on the grid `[[3,1,1],[2,5,1],[1,5,5],[2,1,1]]` (`n = 4`, `m = 3`)
`CherryPickupSpaceOptimized::cherryPickup` returns `24`. -/
theorem spaceOptimized_reference_example :
    CherryPickupSpaceOptimized.cherryPickup [[3, 1, 1], [2, 5, 1], [1, 5, 5], [2, 1, 1]] = some 24 := by
  rfl

/-- C5: on the grid `[[1,1],[1,1]]` (`n = 2`, `m = 2`), where the walkers start
at columns `0` and `m - 1 = 1`, `CherryPickupSpaceOptimized::cherryPickup`
returns `4`. -/
theorem spaceOptimized_two_by_two :
    ([[1, 1], [1, 1]] : List (List Int)).length = 2 ∧
      (([[1, 1], [1, 1]] : List (List Int)).map List.length) = [2, 2] ∧
      CherryPickupSpaceOptimized.cherryPickup [[1, 1], [1, 1]] = some 4 := by
  refine ⟨rfl, rfl, ?_⟩
  rfl

end CherryPickup

namespace CherryPickup

/-! ## Properties of the stored values -/

theorem bestV_ge_sentinel (m : Nat) (r : Int) (next : Nat → Nat → Int) (j1 j2 : Nat) :
    NEG_INF ≤ bestV m r next j1 j2 :=
  (bestV_isBest m r next j1 j2).1

theorem bestV_ge (m : Nat) (r : Int) (next : Nat → Nat → Int) (j1 j2 a b : Nat)
    (ha : a < m) (hb : b < m) (hna : Near a j1) (hnb : Near b j2) :
    r + next a b ≤ bestV m r next j1 j2 :=
  (bestV_isBest m r next j1 j2).2.1 _ ⟨a, b, ha, hb, hna, hnb, rfl⟩

theorem bestV_cases (m : Nat) (r : Int) (next : Nat → Nat → Int) (j1 j2 : Nat) :
    bestV m r next j1 j2 = NEG_INF ∨
      ∃ a b, a < m ∧ b < m ∧ Near a j1 ∧ Near b j2 ∧ bestV m r next j1 j2 = r + next a b :=
  (bestV_isBest m r next j1 j2).2.2

theorem bestV_mono (m : Nat) (r r' : Int) (next next' : Nat → Nat → Int) (j1 j2 : Nat)
    (hr : r ≤ r') (hn : ∀ a b, a < m → b < m → next a b ≤ next' a b) :
    bestV m r next j1 j2 ≤ bestV m r' next' j1 j2 := by
  rcases bestV_cases m r next j1 j2 with h | ⟨a, b, ha, hb, hna, hnb, h⟩
  · rw [h]; exact bestV_ge_sentinel m r' next' j1 j2
  · rw [h]
    exact le_trans (add_le_add hr (hn a b ha hb)) (bestV_ge m r' next' j1 j2 a b ha hb hna hnb)

theorem bestV_swap (m : Nat) (r : Int) (next : Nat → Nat → Int) (j1 j2 : Nat) :
    bestV m r (fun a b => next b a) j2 j1 = bestV m r next j1 j2 := by
  refine (bestV_isBest m r _ j2 j1).unique (IsBest.congr ?_ (bestV_isBest m r next j1 j2))
  intro y
  constructor
  · rintro ⟨a, b, ha, hb, hna, hnb, hy⟩
    exact ⟨b, a, hb, ha, hnb, hna, hy⟩
  · rintro ⟨a, b, ha, hb, hna, hnb, hy⟩
    exact ⟨b, a, hb, ha, hnb, hna, hy⟩

theorem bestV_mirror (m : Nat) (r : Int) (next : Nat → Nat → Int) (j1 j2 : Nat)
    (h1 : j1 < m) (h2 : j2 < m) :
    bestV m r (fun a b => next (m - 1 - a) (m - 1 - b)) j1 j2 =
      bestV m r next (m - 1 - j1) (m - 1 - j2) := by
  refine (bestV_isBest m r _ j1 j2).unique (IsBest.congr ?_ (bestV_isBest m r next _ _))
  intro y
  unfold Cand Near
  constructor
  · rintro ⟨a, b, ha, hb, hna, hnb, hy⟩
    refine ⟨m - 1 - a, m - 1 - b, by omega, by omega, by omega, by omega, ?_⟩
    have ea : m - 1 - (m - 1 - a) = a := by omega
    have eb : m - 1 - (m - 1 - b) = b := by omega
    dsimp only
    rw [ea, eb]; exact hy
  · rintro ⟨a, b, ha, hb, hna, hnb, hy⟩
    exact ⟨m - 1 - a, m - 1 - b, by omega, by omega, by omega, by omega, hy⟩

theorem rowReward_swap (row : List Int) (a b : Nat) : rowReward row b a = rowReward row a b := by
  unfold rowReward
  by_cases h : a = b
  · subst h; rfl
  · rw [if_neg h, if_neg (fun e => h e.symm)]; exact add_comm _ _

theorem cellV_swap (m : Nat) (rows : List (List Int)) (a b : Nat) :
    cellV m rows b a = cellV m rows a b := by
  induction rows generalizing a b with
  | nil => rfl
  | cons row rest ih =>
    cases rest with
    | nil => exact rowReward_swap row a b
    | cons next rest =>
      show bestV m (rowReward row b a) (cellV m (next :: rest)) b a =
        bestV m (rowReward row a b) (cellV m (next :: rest)) a b
      rw [rowReward_swap row a b, ← bestV_swap m _ (cellV m (next :: rest)) a b]
      exact bestV_congr m _ _ _ b a (fun x y _ _ => ih y x)

theorem getD_reverse_of_lt (row : List Int) (a : Nat) (h : a < row.length) :
    row.reverse.getD a 0 = row.getD (row.length - 1 - a) 0 := by
  rw [List.getD_eq_getElem?_getD, List.getD_eq_getElem?_getD, List.getElem?_reverse h]

theorem rowReward_reverse (row : List Int) (a b : Nat) (ha : a < row.length)
    (hb : b < row.length) :
    rowReward row.reverse a b = rowReward row (row.length - 1 - a) (row.length - 1 - b) := by
  unfold rowReward
  rw [getD_reverse_of_lt row a ha, getD_reverse_of_lt row b hb]
  by_cases h : a = b
  · rw [if_pos h, if_pos (by omega)]
  · rw [if_neg h, if_neg (by omega)]

theorem cellV_mirror (m : Nat) (rows : List (List Int)) (hr : ∀ row ∈ rows, row.length = m)
    (a b : Nat) (ha : a < m) (hb : b < m) :
    cellV m (mirror rows) a b = cellV m rows (m - 1 - a) (m - 1 - b) := by
  induction rows generalizing a b with
  | nil => rfl
  | cons row rest ih =>
    have hrow : row.length = m := hr row (List.mem_cons_self _ _)
    have hrest : ∀ r ∈ rest, r.length = m := fun r h => hr r (List.mem_cons_of_mem _ h)
    have hrew : rowReward row.reverse a b = rowReward row (m - 1 - a) (m - 1 - b) := by
      rw [rowReward_reverse row a b (by omega) (by omega), hrow]
    cases rest with
    | nil => exact hrew
    | cons next rest =>
      show bestV m (rowReward row.reverse a b) (cellV m (mirror (next :: rest))) a b =
        bestV m (rowReward row (m - 1 - a) (m - 1 - b)) (cellV m (next :: rest))
          (m - 1 - a) (m - 1 - b)
      rw [hrew, ← bestV_mirror m _ (cellV m (next :: rest)) a b ha hb]
      exact bestV_congr m _ _ _ a b (fun x y hx hy => ih hrest x y hx hy)

theorem rowReward_mono (row row' : List Int) (h : ∀ j, row.getD j 0 ≤ row'.getD j 0)
    (a b : Nat) : rowReward row a b ≤ rowReward row' a b := by
  unfold rowReward
  by_cases hab : a = b
  · rw [if_pos hab, if_pos hab]; exact h a
  · rw [if_neg hab, if_neg hab]; exact add_le_add (h a) (h b)

theorem cellV_mono (m : Nat) (rows rows' : List (List Int)) (h : GridLe rows rows')
    (a b : Nat) : cellV m rows a b ≤ cellV m rows' a b := by
  unfold GridLe at h
  induction h generalizing a b with
  | nil => exact le_refl _
  | cons hrow hrest ih =>
    cases hrest with
    | nil => exact rowReward_mono _ _ hrow a b
    | cons hnext hrest' =>
      exact bestV_mono m _ _ _ _ a b (rowReward_mono _ _ hrow a b) (fun x y _ _ => ih x y)

theorem forall2_set {α : Type} (R : α → α → Prop) (hrefl : ∀ x, R x x) (l : List α)
    (r : Nat) (y : α) (h : ∀ x, l[r]? = some x → R x y) : List.Forall₂ R l (l.set r y) := by
  induction l generalizing r with
  | nil => exact List.Forall₂.nil
  | cons x xs ih =>
    cases r with
    | zero => exact List.Forall₂.cons (h x (by simp)) (List.forall₂_same.2 (fun z _ => hrefl z))
    | succ r => exact List.Forall₂.cons (hrefl x) (ih r (fun z hz => h z (by simpa using hz)))

theorem gridLe_bump (grid : List (List Int)) (r c : Nat) (d : Int) (hd : 0 ≤ d) :
    GridLe grid (bump grid r c d) := by
  unfold GridLe bump
  apply forall2_set _ (fun row j => le_refl _)
  intro row hrow j
  have e : grid.getD r [] = row := by
    rw [List.getD_eq_getElem?_getD, hrow]; rfl
  rw [e]
  by_cases hc : c < row.length
  · rw [getD_set row c j _ 0 hc]
    by_cases hj : j = c
    · rw [if_pos hj, hj]; omega
    · rw [if_neg hj]
  · rw [List.set_eq_of_length_le (by omega)]

theorem rect_bump {n m : Nat} {grid : List (List Int)} (h : Rect n m grid) (r c : Nat)
    (d : Int) : Rect n m (bump grid r c d) := by
  unfold bump
  by_cases hr : r < grid.length
  · refine ⟨by rw [List.length_set]; exact h.1, ?_⟩
    intro row hrow
    rcases mem_set_cases _ _ _ _ hrow with e | hmem
    · rw [e, List.length_set]
      exact h.2 _ (getD_mem_or grid r [] hr)
    · exact h.2 row hmem
  · rw [List.set_eq_of_length_le (by omega)]
    exact h

end CherryPickup

namespace CherryPickup

/-! ## Single column, monotonicity, symmetry -/

theorem columnSum_cons (row : List Int) (rows : List (List Int)) :
    columnSum (row :: rows) = row.getD 0 0 + columnSum rows := by
  simp [columnSum]

theorem at2_bump (grid : List (List Int)) (n m r c : Nat) (d : Int) (h : Rect n m grid)
    (hr : r < n) (hc : c < m) : at2 (bump grid r c d) r c = at2 grid r c + d := by
  have hr' : r < grid.length := by rw [h.1]; exact hr
  have hc' : c < (grid.getD r []).length := by
    rw [h.2 _ (getD_mem_or grid r [] hr')]; exact hc
  unfold at2 bump
  rw [getD_set grid r r _ [] hr', if_pos rfl, getD_set _ c c _ 0 hc', if_pos rfl]

theorem rect_mirror {n m : Nat} {grid : List (List Int)} (h : Rect n m grid) :
    Rect n m (mirror grid) := by
  unfold mirror
  refine ⟨by rw [List.length_map]; exact h.1, ?_⟩
  intro row hrow
  obtain ⟨row', hmem, e⟩ := List.mem_map.1 hrow
  rw [← e, List.length_reverse]
  exact h.2 row' hmem

theorem at2_mirror (grid : List (List Int)) (n m i j : Nat) (h : Rect n m grid)
    (hi : i < n) (hj : j < m) : at2 (mirror grid) i j = at2 grid i (m - 1 - j) := by
  have hi' : i < grid.length := by rw [h.1]; exact hi
  have hrow : (grid.getD i []).length = m := h.2 _ (getD_mem_or grid i [] hi')
  have e : (mirror grid).getD i [] = (grid.getD i []).reverse := by
    unfold mirror
    rw [List.getD_eq_getElem?_getD, List.getD_eq_getElem?_getD, List.getElem?_map,
      List.getElem?_eq_getElem hi']
    rfl
  unfold at2
  rw [e, getD_reverse_of_lt _ j (by omega), hrow]

/-- C9: symmetry.  On every rectangular grid with `n, m ≥ 1`, `cherryPickup` of
the grid with every row reversed (`grid'[i][j] = grid[i][m - 1 - j]`) equals
`cherryPickup` of the grid. -/
theorem cherryPickup_mirror (n m : Nat) (grid : List (List Int)) (h : Rect n m grid)
    (hn : 1 ≤ n) (hm : 1 ≤ m) :
    (∀ i j, i < n → j < m → at2 (mirror grid) i j = at2 grid i (m - 1 - j)) ∧
      ∃ v, CherryPickupSpaceOptimized.cherryPickup grid = some v ∧
        CherryPickupSpaceOptimized.cherryPickup (mirror grid) = some v := by
  refine ⟨fun i j hi hj => at2_mirror grid n m i j h hi hj, cellV m grid 0 (m - 1),
    (cherryPickup_rect n m grid h hn hm).2, ?_⟩
  rw [(cherryPickup_rect n m _ (rect_mirror h) hn hm).2,
    cellV_mirror m grid h.2 0 (m - 1) (by omega) (by omega)]
  have e : m - 1 - (m - 1) = 0 := by omega
  rw [e, Nat.sub_zero, cellV_swap m grid 0 (m - 1)]

theorem cherryPickup_mirror_witness :
    Rect 2 3 [[1, 2, 3], [4, 5, 6]] ∧
      ((∀ i j, i < 2 → j < 3 →
          at2 (mirror [[1, 2, 3], [4, 5, 6]]) i j = at2 [[1, 2, 3], [4, 5, 6]] i (3 - 1 - j)) ∧
        ∃ v, CherryPickupSpaceOptimized.cherryPickup [[1, 2, 3], [4, 5, 6]] = some v ∧
          CherryPickupSpaceOptimized.cherryPickup (mirror [[1, 2, 3], [4, 5, 6]]) = some v) :=
  ⟨by decide, cherryPickup_mirror 2 3 [[1, 2, 3], [4, 5, 6]] (by decide) (by decide)
    (by decide)⟩

end CherryPickup

namespace CherryPickup

/-! ## Walks of the two walkers -/

theorem near_refl (a : Nat) : Near a a := ⟨by omega, by omega⟩

theorem near_symm {a b : Nat} (h : Near a b) : Near b a := ⟨h.2, h.1⟩

theorem walkTotal_single_iff (m : Nat) (row : List Int) (a b : Nat) (t : Int) :
    WalkTotal m [row] a b t ↔ a < m ∧ b < m ∧ t = rowReward row a b := by
  constructor
  · rintro ⟨as, bs, hla, hlb, hwa, hwb, hha, hhb, ht⟩
    cases as with
    | nil => simp at hla
    | cons x as =>
      cases bs with
      | nil => simp at hlb
      | cons y bs =>
        simp only [List.head?_cons, Option.some.injEq] at hha hhb
        subst hha
        subst hhb
        refine ⟨hwa.1 x (List.mem_cons_self _ _), hwb.1 y (List.mem_cons_self _ _), ?_⟩
        rw [ht]
        simp [walkTotal]
  · rintro ⟨ha, hb, ht⟩
    refine ⟨[a], [b], rfl, rfl, ⟨?_, List.chain'_singleton a⟩, ⟨?_, List.chain'_singleton b⟩,
      rfl, rfl, ?_⟩
    · intro c hc; rw [List.mem_singleton.1 hc]; exact ha
    · intro c hc; rw [List.mem_singleton.1 hc]; exact hb
    · rw [ht]; simp [walkTotal]

theorem isWalk_cons_iff (m a : Nat) (as : List Nat) :
    IsWalk m (a :: as) ↔ a < m ∧ (∀ a', as.head? = some a' → Near a a') ∧ IsWalk m as := by
  unfold IsWalk
  rw [List.chain'_cons']
  constructor
  · rintro ⟨hall, hhead, hchain⟩
    exact ⟨hall a (List.mem_cons_self _ _), fun a' h => hhead a' (by rw [h]; rfl),
      fun c hc => hall c (List.mem_cons_of_mem _ hc), hchain⟩
  · rintro ⟨ha, hhead, hall, hchain⟩
    refine ⟨?_, fun a' h => hhead a' (by simpa using h), hchain⟩
    intro c hc
    rcases List.mem_cons.1 hc with e | h
    · rw [e]; exact ha
    · exact hall c h

theorem walkTotal_cons_iff (m : Nat) (row next : List Int) (rest : List (List Int))
    (a b : Nat) (t : Int) :
    WalkTotal m (row :: next :: rest) a b t ↔
      a < m ∧ b < m ∧ ∃ a' b' t', Near a a' ∧ Near b b' ∧
        WalkTotal m (next :: rest) a' b' t' ∧ t = rowReward row a b + t' := by
  constructor
  · rintro ⟨as, bs, hla, hlb, hwa, hwb, hha, hhb, ht⟩
    cases as with
    | nil => simp at hla
    | cons x as =>
      cases bs with
      | nil => simp at hlb
      | cons y bs =>
        simp only [List.head?_cons, Option.some.injEq] at hha hhb
        subst hha
        subst hhb
        cases as with
        | nil => simp at hla
        | cons a' as =>
          cases bs with
          | nil => simp at hlb
          | cons b' bs =>
            rw [isWalk_cons_iff] at hwa hwb
            refine ⟨hwa.1, hwb.1, a', b', walkTotal (next :: rest) (a' :: as) (b' :: bs),
              hwa.2.1 a' rfl, hwb.2.1 b' rfl, ?_, ?_⟩
            · exact ⟨a' :: as, b' :: bs, by simpa using hla, by simpa using hlb,
                hwa.2.2, hwb.2.2, rfl, rfl, rfl⟩
            · rw [ht]; rfl
  · rintro ⟨ha, hb, a', b', t', hna, hnb, ⟨as, bs, hla, hlb, hwa, hwb, hha, hhb, ht'⟩, ht⟩
    refine ⟨a :: as, b :: bs, by simp [hla], by simp [hlb], ?_, ?_, rfl, rfl, ?_⟩
    · rw [isWalk_cons_iff]
      refine ⟨ha, fun x hx => ?_, hwa⟩
      rw [hha] at hx
      rw [← Option.some.inj hx]; exact hna
    · rw [isWalk_cons_iff]
      refine ⟨hb, fun x hx => ?_, hwb⟩
      rw [hhb] at hx
      rw [← Option.some.inj hx]; exact hnb
    · rw [ht, ht']; rfl

theorem getD_nonneg (row : List Int) (h : ∀ x ∈ row, 0 ≤ x) (j : Nat) : 0 ≤ row.getD j 0 := by
  rw [List.getD_eq_getElem?_getD]
  by_cases hj : j < row.length
  · rw [List.getElem?_eq_getElem hj]
    exact h _ (List.getElem_mem hj)
  · rw [List.getElem?_eq_none (by omega)]
    exact le_refl _

theorem rowReward_nonneg (row : List Int) (h : ∀ x ∈ row, 0 ≤ x) (a b : Nat) :
    0 ≤ rowReward row a b := by
  unfold rowReward
  split
  · exact getD_nonneg row h a
  · exact add_nonneg (getD_nonneg row h a) (getD_nonneg row h b)

theorem walkTotal_nonneg (rows : List (List Int)) (h : NonNeg rows) (as bs : List Nat) :
    0 ≤ walkTotal rows as bs := by
  induction rows generalizing as bs with
  | nil => simp [walkTotal]
  | cons row rest ih =>
    cases as with
    | nil => simp [walkTotal]
    | cons a as =>
      cases bs with
      | nil => simp [walkTotal]
      | cons b bs =>
        show 0 ≤ rowReward row a b + walkTotal rest as bs
        exact add_nonneg (rowReward_nonneg row (h row (List.mem_cons_self _ _)) a b)
          (ih (fun r hr => h r (List.mem_cons_of_mem _ hr)) as bs)

theorem nonNeg_drop {grid : List (List Int)} (h : NonNeg grid) (i : Nat) :
    NonNeg (grid.drop i) := fun row hr => h row (List.mem_of_mem_drop hr)

/-- On a grid of non-negative rewards every total lies above the sentinel. -/
theorem walkTotal_above_sentinel (m : Nat) (grid : List (List Int)) (h : NonNeg grid)
    (i a b : Nat) (t : Int) (ht : WalkTotal m (grid.drop i) a b t) : NEG_INF < t := by
  obtain ⟨as, bs, _, _, _, _, _, _, e⟩ := ht
  have := walkTotal_nonneg (grid.drop i) (nonNeg_drop h i) as bs
  rw [e]
  unfold NEG_INF
  omega

end CherryPickup

namespace CherryPickup

/-! ## Non-negative grids -/

theorem cellV_nonneg (m : Nat) (rows : List (List Int)) (hne : rows ≠ []) (h : NonNeg rows)
    (a b : Nat) (ha : a < m) (hb : b < m) : 0 ≤ cellV m rows a b := by
  induction rows generalizing a b with
  | nil => exact absurd rfl hne
  | cons row rest ih =>
    have hrow := rowReward_nonneg row (h row (List.mem_cons_self _ _)) a b
    cases rest with
    | nil => exact hrow
    | cons next rest =>
      have h1 := ih (by simp) (fun r hr => h r (List.mem_cons_of_mem _ hr)) a b ha hb
      have h2 := bestV_ge m (rowReward row a b) (cellV m (next :: rest)) a b a b ha hb
        (near_refl a) (near_refl b)
      show 0 ≤ bestV m (rowReward row a b) (cellV m (next :: rest)) a b
      omega

end CherryPickup

namespace CherryPickup

/-! ## Grids cut to their first columns -/

theorem getD_take_of_lt (row : List Int) (m a : Nat) (ha : a < m) :
    (row.take m).getD a 0 = row.getD a 0 := by
  rw [List.getD_eq_getElem?_getD, List.getD_eq_getElem?_getD, List.getElem?_take, if_pos ha]

theorem rect_cut {m : Nat} {grid : List (List Int)} (h : Wide m grid) :
    Rect grid.length m (cut m grid) := by
  unfold cut
  refine ⟨List.length_map _ _, ?_⟩
  intro row hrow
  obtain ⟨row', hmem, e⟩ := List.mem_map.1 hrow
  rw [← e, List.length_take]
  exact Nat.min_eq_left (h row' hmem)

end CherryPickup

namespace CherryPickup

/-! ## The transition, the base layer and the rolling of the layers -/

theorem exists_isMaxNext (m : Nat) (next : Nat → Nat → Int) (j1 j2 : Nat) (h1 : j1 < m)
    (h2 : j2 < m) : ∃ M, IsMaxNext m next j1 j2 M := by
  have hne : ((Finset.range m ×ˢ Finset.range m).filter
      (fun p => Near p.1 j1 ∧ Near p.2 j2)).Nonempty :=
    ⟨(j1, j2), by simp [h1, h2, near_refl]⟩
  obtain ⟨p, hp, hmax⟩ := Finset.exists_max_image _ (fun p => next p.1 p.2) hne
  simp only [Finset.mem_filter, Finset.mem_product, Finset.mem_range] at hp
  refine ⟨next p.1 p.2, ⟨p.1, p.2, hp.1.1, hp.1.2, hp.2.1, hp.2.2, rfl⟩, ?_⟩
  intro a b ha hb hna hnb
  exact hmax (a, b) (by simp [ha, hb, hna, hnb])

/-- The loops over `dj1`, `dj2` leave the greater of the sentinel and of the
reward plus the greatest candidate of the next layer. -/
theorem bestV_eq_max (m : Nat) (r : Int) (next : Nat → Nat → Int) (j1 j2 : Nat) (M : Int)
    (hM : IsMaxNext m next j1 j2 M) : bestV m r next j1 j2 = max NEG_INF (r + M) := by
  obtain ⟨⟨a, b, ha, hb, hna, hnb, e⟩, hub⟩ := hM
  refine (bestV_isBest m r next j1 j2).unique ⟨le_max_left _ _, ?_, ?_⟩
  · rintro y ⟨a', b', ha', hb', hna', hnb', hy⟩
    rw [hy]
    exact le_trans (add_le_add_left (hub a' b' ha' hb' hna' hnb') r) (le_max_right _ _)
  · rcases le_total NEG_INF (r + M) with h | h
    · right
      rw [max_eq_right h]
      exact ⟨a, b, ha, hb, hna, hnb, by rw [e]⟩
    · left
      exact max_eq_left h

namespace CherryPickupSpaceOptimized

/-- The layers after `k` iterations of the driver loop: `prev` holds the values
of row `n - 1 - k`, and from the first iteration on `curr` is the same layer. -/
theorem so_layersAt_spec (row0 : List Int) (rest : List (List Int))
    (hg : Wide row0.length (row0 :: rest)) (k : Nat) (hk : k ≤ rest.length) :
    ∃ st, layersAt (row0 :: rest) k = some st ∧ Sq row0.length st.1 ∧
      (∀ a b, a < row0.length → b < row0.length →
        at2 st.1 a b = cellV row0.length ((row0 :: rest).drop (rest.length - k)) a b) ∧
      (0 < k → st.2 = st.1) := by
  have hn : (row0 :: rest).length = rest.length + 1 := rfl
  obtain ⟨p1, hb1, hc1, hv1⟩ := so_baseLoops_spec (row0 :: rest) (rest.length + 1) row0.length
    hn (by omega) hg _ (sq_replicate row0.length)
  obtain ⟨st, hd1, hc2, _, hv2, heq⟩ := foldlM_inv (rowStep (row0 :: rest) row0.length)
    ((driverRows (rest.length + 1)).take k)
    (fun k' st => Sq row0.length st.1 ∧ Sq row0.length st.2 ∧
      (∀ a b, a < row0.length → b < row0.length →
        at2 st.1 a b = cellV row0.length ((row0 :: rest).drop (rest.length - k')) a b) ∧
      (0 < k' → st.2 = st.1))
    (p1, List.replicate row0.length (List.replicate row0.length NEG_INF))
    ⟨hc1, sq_replicate row0.length, fun a b ha hb => by
      have e : rest.length - 0 = rest.length + 1 - 1 := by omega
      rw [e, hv1 a b ha hb, cellV_drop_last _ _ _ _ _ (by rw [hn]; omega)],
      fun h0 => absurd h0 (Nat.lt_irrefl 0)⟩
    (by
      intro k' i s hk' hinv
      rw [List.getElem?_take] at hk'
      split at hk'
      · obtain ⟨hik, hkn⟩ := driverRows_get hk'
        obtain ⟨s', h1, h2, h3, h4, h5⟩ := so_rowStep_spec (row0 :: rest) (rest.length + 1)
          row0.length i hn (by omega) hg s hinv.1 hinv.2.1
          (cellV row0.length ((row0 :: rest).drop (i + 1)))
          (fun a b ha hb => by
            have e : i + 1 = rest.length - k' := by omega
            rw [e]; exact hinv.2.2.1 a b ha hb)
        refine ⟨s', h1, h2, h3, ?_, fun _ => h4.symm⟩
        intro a b ha hb
        have e : rest.length - (k' + 1) = i := by omega
        rw [e, h5 a b ha hb, cellV_drop _ _ _ _ _ (by rw [hn]; omega)]
      · cases hk')
  have hlen : ((driverRows (rest.length + 1)).take k).length = k := by
    rw [List.length_take, driverRows_length]
    omega
  rw [hlen] at hv2 heq
  refine ⟨st, ?_, hc2, hv2, heq⟩
  unfold layersAt
  rw [rd_zero_cons, Option.some_bind]
  dsimp only
  rw [hn, hb1, Option.some_bind]
  exact hd1

end CherryPickupSpaceOptimized

/-- C19: layer-rolling invariant.  On every rectangular grid with `n, m ≥ 1`
and for every row `i` from `n - 1` down to `0`, the layer held in `prev` by the
space-optimised variant once row `i` has been processed (after the base-case
loops for `i = n - 1`, after `prev = curr` of the iteration of row `i`
otherwise) equals layer `dp[i]` of the tabulated variant in every cell; after
an iteration `curr` is that same layer, so no value of an older layer is left
in it. -/
theorem layer_rolling (n m : Nat) (grid : List (List Int)) (h : Rect n m grid) (hn : 1 ≤ n)
    (hm : 1 ≤ m) (i : Nat) (hi : i < n) :
    ∃ st dp, CherryPickupSpaceOptimized.layersAt grid (n - 1 - i) = some st ∧
      CherryPickupTabulation.table grid = some dp ∧
      (∀ j1 j2, j1 < m → j2 < m → at2 st.1 j1 j2 = at3 dp i j1 j2) ∧
      (i + 1 < n → st.2 = st.1) := by
  obtain ⟨row0, rest, hg, hm0, hlen⟩ := rect_cons h hn
  subst hg
  subst hm0
  obtain ⟨st, h1, _, h3, h4⟩ := CherryPickupSpaceOptimized.so_layersAt_spec row0 rest
    (rect_wide h) (n - 1 - i) (by omega)
  obtain ⟨dp, g1, _, g3⟩ := CherryPickupTabulation.tab_table_spec row0 rest (rect_wide h)
  refine ⟨st, dp, h1, g1, ?_, fun hlt => h4 (by omega)⟩
  intro j1 j2 hj1 hj2
  have e : rest.length - (n - 1 - i) = i := by omega
  rw [h3 j1 j2 hj1 hj2, g3 i j1 j2 (by omega) hj1 hj2, e]

theorem layer_rolling_witness :
    Rect 3 2 [[1, 2], [3, 4], [5, 6]] ∧
      ∃ st dp, CherryPickupSpaceOptimized.layersAt [[1, 2], [3, 4], [5, 6]] (3 - 1 - 1) =
          some st ∧
        CherryPickupTabulation.table [[1, 2], [3, 4], [5, 6]] = some dp ∧
        (∀ j1 j2, j1 < 2 → j2 < 2 → at2 st.1 j1 j2 = at3 dp 1 j1 j2) ∧
        (1 + 1 < 3 → st.2 = st.1) :=
  ⟨by decide, layer_rolling 3 2 [[1, 2], [3, 4], [5, 6]] (by decide) (by decide) (by decide)
    1 (by decide)⟩

theorem foldlM_congr {α σ : Type} (step step' : σ → α → Option σ) (l : List α)
    (h : ∀ s, ∀ x ∈ l, step s x = step' s x) (s0 : σ) :
    l.foldlM step s0 = l.foldlM step' s0 := by
  induction l generalizing s0 with
  | nil => rfl
  | cons x xs ih =>
    rw [List.foldlM_cons, List.foldlM_cons, h s0 x (List.mem_cons_self x xs)]
    cases step' s0 x with
    | none => rfl
    | some s1 => exact ih (fun s y hy => h s y (List.mem_cons_of_mem x hy)) s1

/-- The transition loops never read the next layer at a column outside `[0, m)`:
their result does not change when every such read is replaced by a failure. -/
theorem bestOver_skips (grid : List (List Int)) (m i j1 j2 : Int)
    (next : Int → Int → Option Int) :
    bestOver grid m i j1 j2 next = bestOver grid m i j1 j2
      (fun a b => if a < 0 ∨ a ≥ m ∨ b < 0 ∨ b ≥ m then none else next a b) := by
  unfold bestOver
  apply foldlM_congr
  intro best dj1 _
  apply foldlM_congr
  intro best' dj2 _
  dsimp only
  by_cases hc : j1 + dj1 < 0 ∨ j1 + dj1 ≥ m ∨ j2 + dj2 < 0 ∨ j2 + dj2 ≥ m
  · rw [if_pos hc, if_pos hc]
  · rw [if_neg hc, if_neg hc, if_neg hc]

/-- C20: on every rectangular grid with `n ≥ 1` and `m ≥ 1` every subscript the
two tabulated variants apply to `grid`, `dp`, `prev` or `curr` is in range:
the loops run to their end and both functions return a value, which in the
embedding happens only if no checked read or write has left its vector; and a
candidate with a next column outside `[0, m)` is skipped before the next layer
is read. -/
theorem subscripts_in_range (n m : Nat) (grid : List (List Int)) (h : Rect n m grid)
    (hn : 1 ≤ n) (hm : 1 ≤ m) :
    (CherryPickupTabulation.table grid).isSome = true ∧
      (CherryPickupTabulation.cherryPickup grid).isSome = true ∧
      (CherryPickupSpaceOptimized.layers grid).isSome = true ∧
      (CherryPickupSpaceOptimized.cherryPickup grid).isSome = true ∧
      ∀ (i j1 j2 : Int) (next : Int → Int → Option Int),
        bestOver grid m i j1 j2 next = bestOver grid m i j1 j2
          (fun a b => if a < 0 ∨ a ≥ m ∨ b < 0 ∨ b ≥ m then none else next a b) := by
  obtain ⟨row0, rest, hg, hm0, _⟩ := rect_cons h hn
  subst hg
  subst hm0
  obtain ⟨dp, g1, _, _⟩ := CherryPickupTabulation.tab_table_spec row0 rest (rect_wide h)
  obtain ⟨st, h1, _, _⟩ := CherryPickupSpaceOptimized.so_layers_spec row0 rest (rect_wide h)
  refine ⟨by rw [g1]; rfl, ?_, by rw [h1]; rfl, ?_, fun i j1 j2 next =>
    bestOver_skips _ _ i j1 j2 next⟩
  · rw [CherryPickupTabulation.tab_cherryPickup_spec row0 rest (rect_wide h) hm]; rfl
  · rw [CherryPickupSpaceOptimized.so_cherryPickup_spec row0 rest (rect_wide h) hm]; rfl

theorem subscripts_in_range_witness :
    Rect 2 3 [[1, 2, 3], [4, 5, 6]] ∧
      ((CherryPickupTabulation.table [[1, 2, 3], [4, 5, 6]]).isSome = true ∧
      (CherryPickupTabulation.cherryPickup [[1, 2, 3], [4, 5, 6]]).isSome = true ∧
      (CherryPickupSpaceOptimized.layers [[1, 2, 3], [4, 5, 6]]).isSome = true ∧
      (CherryPickupSpaceOptimized.cherryPickup [[1, 2, 3], [4, 5, 6]]).isSome = true ∧
      ∀ (i j1 j2 : Int) (next : Int → Int → Option Int),
        bestOver [[1, 2, 3], [4, 5, 6]] (3 : Nat) i j1 j2 next =
          bestOver [[1, 2, 3], [4, 5, 6]] (3 : Nat) i j1 j2
            (fun a b => if a < 0 ∨ a ≥ (3 : Nat) ∨ b < 0 ∨ b ≥ (3 : Nat) then none
              else next a b)) :=
  ⟨by decide, subscripts_in_range 2 3 [[1, 2, 3], [4, 5, 6]] (by decide) (by decide)
    (by decide)⟩

end CherryPickup

namespace Loops

open CherryPickup

/-! ## Counted loops over one-dimensional vectors -/

theorem fromTo_length (a b : Nat) : (fromTo a b).length = b - a := by
  simp [fromTo]

theorem fromTo_get {a b k x : Nat} (h : (fromTo a b)[k]? = some x) : x = a + k ∧ x < b := by
  unfold fromTo at h
  by_cases hk : k < b - a
  · rw [List.getElem?_range' a 1 hk] at h
    have := Option.some.inj h
    omega
  · rw [List.getElem?_eq_none (by simp; omega)] at h
    cases h

theorem downTo_length (b a : Nat) : (downTo b a).length = b + 1 - a := by
  simp [downTo]

theorem downTo_get {a b k x : Nat} (h : (downTo b a)[k]? = some x) : x + k = b ∧ a ≤ x := by
  unfold downTo at h
  by_cases hk : k < b + 1 - a
  · rw [List.getElem?_reverse (by simpa using hk), List.length_range',
      List.getElem?_range' a 1 (by omega)] at h
    have := Option.some.inj h
    omega
  · rw [List.getElem?_eq_none (by simp; omega)] at h
    cases h

/-- A checked write inside the vector succeeds, keeps the length and changes
exactly one cell. -/
theorem wr_spec {V : Type} (v : List V) (j : Nat) (x d : V) (h : j < v.length) :
    ∃ v', wr v (j : Int) x = some v' ∧ v'.length = v.length ∧
      ∀ j', v'.getD j' d = if j' = j then x else v.getD j' d :=
  ⟨v.set j x, wr_of_lt v j x h, List.length_set _ _ _, fun j' => getD_set v j j' x d h⟩

/-- An ascending loop `for j in [a, b): v[j] = f(v, j)`: when every computation
returns `F j` on a vector whose cells `[a, j)` already hold `F` and whose other
cells are untouched, the loop succeeds and fills `[a, b)` with `F`. -/
theorem fillUp_spec {V : Type} (d : V) (a b : Nat) (f : List V → Nat → Option V)
    (F : Nat → V) (v0 : List V) (hb : b ≤ v0.length)
    (hf : ∀ v j, v.length = v0.length → a ≤ j → j < b →
      (∀ j', a ≤ j' → j' < j → v.getD j' d = F j') →
      (∀ j', j' < a ∨ j ≤ j' → v.getD j' d = v0.getD j' d) → f v j = some (F j)) :
    ∃ v', (fromTo a b).foldlM (fun v (j : Nat) => (f v j).bind fun x => wr v (j : Int) x) v0 =
        some v' ∧ v'.length = v0.length ∧
      (∀ j, a ≤ j → j < b → v'.getD j d = F j) ∧
      (∀ j, j < a ∨ b ≤ j → v'.getD j d = v0.getD j d) := by
  obtain ⟨v', h1, h2, h3, h4⟩ := foldlM_inv
    (fun v (j : Nat) => (f v j).bind fun x => wr v (j : Int) x) (fromTo a b)
    (fun k v => v.length = v0.length ∧ (∀ j, a ≤ j → j < a + k → v.getD j d = F j) ∧
      (∀ j, j < a ∨ a + k ≤ j → v.getD j d = v0.getD j d))
    v0 ⟨rfl, fun j h1 h2 => by omega, fun _ _ => rfl⟩
    (by
      intro k j v hk hinv
      obtain ⟨hjk, hjb⟩ := fromTo_get hk
      obtain ⟨hlen, hdone, hrest⟩ := hinv
      have hval := hf v j hlen (by omega) hjb (fun j' h1 h2 => hdone j' h1 (by omega))
        (fun j' h => hrest j' (by omega))
      obtain ⟨v', hw, hl', hg'⟩ := wr_spec v j (F j) d (by omega)
      refine ⟨v', ?_, by rw [hl', hlen], ?_, ?_⟩
      · show (f v j).bind (fun x => wr v (j : Int) x) = some v'
        rw [hval]; exact hw
      · intro j' h1 h2
        rw [hg']
        by_cases e : j' = j
        · rw [if_pos e, e]
        · rw [if_neg e]; exact hdone j' h1 (by omega)
      · intro j' h
        rw [hg', if_neg (by omega)]
        exact hrest j' (by omega))
  rw [fromTo_length] at h3 h4
  by_cases hab : a ≤ b
  · exact ⟨v', h1, h2, fun j h5 h6 => h3 j h5 (by omega), fun j h => h4 j (by omega)⟩
  · exact ⟨v', h1, h2, fun j h5 h6 => by omega, fun j h => by
      have e : a + (b - a) = a := by omega
      rw [e] at h4
      by_cases hj : j < a
      · exact h4 j (Or.inl hj)
      · exact h4 j (Or.inr (by omega))⟩

/-- A descending loop `for s from b down to a: v[s] = f(v, s)`: when every
computation returns `F s` on a vector whose cells `(s, b]` already hold `F` and
whose other cells are untouched, the loop succeeds and fills `[a, b]` with `F`. -/
theorem fillDown_spec {V : Type} (d : V) (a b : Nat) (f : List V → Nat → Option V)
    (F : Nat → V) (v0 : List V) (hb : b < v0.length)
    (hf : ∀ v s, v.length = v0.length → a ≤ s → s ≤ b →
      (∀ j', s < j' → j' ≤ b → v.getD j' d = F j') →
      (∀ j', j' ≤ s ∨ b < j' → v.getD j' d = v0.getD j' d) → f v s = some (F s)) :
    ∃ v', (downTo b a).foldlM (fun v (s : Nat) => (f v s).bind fun x => wr v (s : Int) x) v0 =
        some v' ∧ v'.length = v0.length ∧
      (∀ j, a ≤ j → j ≤ b → v'.getD j d = F j) ∧
      (∀ j, j < a ∨ b < j → v'.getD j d = v0.getD j d) := by
  obtain ⟨v', h1, h2, h3, h4⟩ := foldlM_inv
    (fun v (s : Nat) => (f v s).bind fun x => wr v (s : Int) x) (downTo b a)
    (fun k v => v.length = v0.length ∧ (∀ j, b < j + k → j ≤ b → v.getD j d = F j) ∧
      (∀ j, j + k ≤ b ∨ b < j → v.getD j d = v0.getD j d))
    v0 ⟨rfl, fun j h1 h2 => by omega, fun _ _ => rfl⟩
    (by
      intro k s v hk hinv
      obtain ⟨hsk, has⟩ := downTo_get hk
      obtain ⟨hlen, hdone, hrest⟩ := hinv
      have hval := hf v s hlen has (by omega) (fun j' h1 h2 => hdone j' (by omega) h2)
        (fun j' h => hrest j' (by omega))
      obtain ⟨v', hw, hl', hg'⟩ := wr_spec v s (F s) d (by omega)
      refine ⟨v', ?_, by rw [hl', hlen], ?_, ?_⟩
      · show (f v s).bind (fun x => wr v (s : Int) x) = some v'
        rw [hval]; exact hw
      · intro j' h1 h2
        rw [hg']
        by_cases e : j' = s
        · rw [if_pos e, e]
        · rw [if_neg e]; exact hdone j' (by omega) h2
      · intro j' h
        rw [hg', if_neg (by omega)]
        exact hrest j' (by omega))
  rw [downTo_length] at h3 h4
  by_cases hab : a ≤ b
  · exact ⟨v', h1, h2, fun j h5 h6 => h3 j (by omega) h6, fun j h => h4 j (by omega)⟩
  · exact ⟨v', h1, h2, fun j h5 h6 => by omega, fun j h => by
      by_cases hj : b < j
      · exact h4 j (Or.inr hj)
      · exact h4 j (Or.inl (by omega))⟩

theorem foldl_min_spec (xs : List Int) (x : Int) :
    xs.foldl min x ∈ x :: xs ∧ ∀ y ∈ x :: xs, xs.foldl min x ≤ y := by
  induction xs generalizing x with
  | nil => simp
  | cons z zs ih =>
    obtain ⟨hmem, hle⟩ := ih (min x z)
    rw [List.foldl_cons]
    constructor
    · rcases List.mem_cons.1 hmem with e | h
      · rw [e]
        rcases le_total x z with hxz | hxz
        · rw [min_eq_left hxz]; exact List.mem_cons_self _ _
        · rw [min_eq_right hxz]; exact List.mem_cons_of_mem _ (List.mem_cons_self _ _)
      · exact List.mem_cons_of_mem _ (List.mem_cons_of_mem _ h)
    · intro y hy
      have h0 := hle (min x z) (List.mem_cons_self _ _)
      rcases List.mem_cons.1 hy with e | h
      · rw [e]; exact le_trans h0 (min_le_left _ _)
      · rcases List.mem_cons.1 h with e | h'
        · rw [e]; exact le_trans h0 (min_le_right _ _)
        · exact hle y (List.mem_cons_of_mem _ h')

/-- On a non-empty vector `min_element` is an element of the vector and is at
most every element. -/
theorem minElement_spec (v : List Int) (h : v ≠ []) :
    ∃ x, minElement v = some x ∧ x ∈ v ∧ ∀ y ∈ v, x ≤ y := by
  cases v with
  | nil => exact absurd rfl h
  | cons x xs => exact ⟨_, rfl, (foldl_min_spec xs x).1, (foldl_min_spec xs x).2⟩

theorem seqTotal_succ (g : Nat → Nat → Int) (L : Nat) (js : Nat → Nat) :
    seqTotal g (L + 1) js = seqTotal g L js + g L (js L) := by
  unfold seqTotal
  rw [Finset.sum_range_succ]

theorem seqTotal_congr (g : Nat → Nat → Int) (L : Nat) (js js' : Nat → Nat)
    (h : ∀ i, i < L → js i = js' i) : seqTotal g L js = seqTotal g L js' := by
  unfold seqTotal
  apply Finset.sum_congr rfl
  intro i hi
  rw [h i (Finset.mem_range.1 hi)]

theorem seqTotal_update (g : Nat → Nat → Int) (L : Nat) (js : Nat → Nat) (c : Nat) :
    seqTotal g (L + 1) (Function.update js L c) = seqTotal g L js + g L c := by
  rw [seqTotal_succ, Function.update_same]
  congr 1
  apply seqTotal_congr
  intro i hi
  exact Function.update_noteq (Nat.ne_of_lt hi) c js

theorem rd2_of_lt (v : List (List Int)) (i j : Nat) (hi : i < v.length)
    (hj : j < (v.getD i []).length) : rd2 v (i : Int) (j : Int) = some (at2 v i j) := by
  unfold rd2 at2
  rw [rd_getD v i [] hi, Option.some_bind, rd_getD _ j 0 hj]

end Loops

namespace GridUniquePaths

open CherryPickup Loops

/-! ## Unique paths: the rolling row holds binomial coefficients -/

theorem count_true_add_count_false (w : List Bool) :
    w.count true + w.count false = w.length := by
  induction w with
  | nil => rfl
  | cons b w ih =>
    cases b <;> simp [List.count_cons] <;> omega

theorem mem_wordsWith (k d : Nat) (w : List Bool) :
    w ∈ wordsWith k d ↔ w.length = k ∧ w.count true = d := by
  induction k generalizing d w with
  | zero =>
    cases d with
    | zero =>
      simp only [wordsWith, List.mem_singleton]
      constructor
      · intro e; rw [e]; exact ⟨rfl, rfl⟩
      · intro h; exact List.length_eq_zero.1 h.1
    | succ d =>
      simp only [wordsWith, List.not_mem_nil, false_iff]
      rintro ⟨h1, h2⟩
      rw [List.length_eq_zero.1 h1] at h2
      simp at h2
  | succ k ih =>
    cases d with
    | zero =>
      simp only [wordsWith, List.mem_map]
      constructor
      · rintro ⟨u, hu, rfl⟩
        obtain ⟨h1, h2⟩ := (ih 0 u).1 hu
        simp [h1, h2]
      · rintro ⟨h1, h2⟩
        cases w with
        | nil => simp at h1
        | cons b u =>
          cases b with
          | true => simp [List.count_cons] at h2
          | false =>
            refine ⟨u, (ih 0 u).2 ⟨by simpa using h1, by simpa [List.count_cons] using h2⟩, rfl⟩
    | succ d =>
      simp only [wordsWith, List.mem_append, List.mem_map]
      constructor
      · rintro (⟨u, hu, rfl⟩ | ⟨u, hu, rfl⟩)
        · obtain ⟨h1, h2⟩ := (ih d u).1 hu
          simp [h1, h2]
        · obtain ⟨h1, h2⟩ := (ih (d + 1) u).1 hu
          simp [h1, h2]
      · rintro ⟨h1, h2⟩
        cases w with
        | nil => simp at h1
        | cons b u =>
          cases b with
          | true =>
            left
            refine ⟨u, (ih d u).2 ⟨by simpa using h1, by simpa [List.count_cons] using h2⟩, rfl⟩
          | false =>
            right
            refine ⟨u, (ih (d + 1) u).2 ⟨by simpa using h1,
              by simpa [List.count_cons] using h2⟩, rfl⟩

theorem length_wordsWith (k d : Nat) : (wordsWith k d).length = Nat.choose k d := by
  induction k generalizing d with
  | zero => cases d <;> simp [wordsWith]
  | succ k ih =>
    cases d with
    | zero => simp [wordsWith, ih]
    | succ d => simp [wordsWith, ih, Nat.choose_succ_succ]

theorem nodup_wordsWith (k d : Nat) : (wordsWith k d).Nodup := by
  induction k generalizing d with
  | zero => cases d <;> simp [wordsWith]
  | succ k ih =>
    cases d with
    | zero =>
      exact (ih 0).map (fun a b h => (List.cons.inj h).2)
    | succ d =>
      simp only [wordsWith]
      refine List.Nodup.append ((ih d).map (fun a b h => (List.cons.inj h).2))
        ((ih (d + 1)).map (fun a b h => (List.cons.inj h).2)) ?_
      intro w h1 h2
      obtain ⟨u, _, rfl⟩ := List.mem_map.1 h1
      obtain ⟨u', _, e⟩ := List.mem_map.1 h2
      cases e

theorem mem_allPaths (n m : Nat) (hn : 1 ≤ n) (hm : 1 ≤ m) (w : List Bool) :
    w ∈ allPaths n m ↔ IsPath n m w := by
  unfold allPaths IsPath
  rw [mem_wordsWith]
  have := count_true_add_count_false w
  constructor
  · rintro ⟨h1, h2⟩; exact ⟨h2, by omega⟩
  · rintro ⟨h1, h2⟩; exact ⟨by omega, h1⟩

end GridUniquePaths

namespace GridUniquePathsSpaceOptimized

open CherryPickup Loops

/-- The loop over `j` of a row: when `prev` holds the binomials of row `k` and
`curr[0] = 1`, it fills `curr` with the binomials of row `k + 1`. -/
theorem gup_rowLoop_spec (m k : Nat) (prev curr : List Int) (hp : prev.length = m)
    (hc : curr.length = m) (_hm : 1 ≤ m)
    (hprev : ∀ j, j < m → prev.getD j 0 = ((Nat.choose (k + j) k : Nat) : Int))
    (h0 : curr.getD 0 0 = 1) :
    ∃ curr', rowLoop m prev curr = some curr' ∧ curr'.length = m ∧
      ∀ j, j < m → curr'.getD j 0 = ((Nat.choose (k + 1 + j) (k + 1) : Nat) : Int) := by
  obtain ⟨v', h1, h2, h3, h4⟩ := fillUp_spec (0 : Int) 1 m
    (fun v j => cellValue prev v j)
    (fun j => ((Nat.choose (k + 1 + j) (k + 1) : Nat) : Int)) curr (by omega)
    (by
      intro v j hlen h1j hjm hdone hrest
      have e : ((j : Int) - 1) = ((j - 1 : Nat) : Int) := by omega
      have hprevj : v.getD (j - 1) 0 = ((Nat.choose (k + j) (k + 1) : Nat) : Int) := by
        by_cases hj1 : j = 1
        · subst hj1
          rw [hrest 0 (by omega), h0]
          simp
        · rw [hdone (j - 1) (by omega) (by omega)]
          have e2 : k + 1 + (j - 1) = k + j := by omega
          dsimp only
          rw [e2]
      show cellValue prev v j = _
      unfold cellValue
      rw [rd_getD prev j 0 (by omega), Option.some_bind, e, rd_getD v (j - 1) 0 (by omega),
        Option.some_bind, hprev j hjm, hprevj]
      have e3 : k + 1 + j = (k + j) + 1 := by omega
      dsimp only
      rw [e3, Nat.choose_succ_succ]
      push_cast
      rfl)
  refine ⟨v', h1, by rw [h2, hc], ?_⟩
  intro j hj
  by_cases hj0 : j = 0
  · subst hj0
    rw [h4 0 (by omega), h0]
    simp
  · exact h3 j (by omega) hj

/-- After `k` iterations of the loop over `i`, `prev[j]` is the binomial
coefficient `C(k + j, k)`. -/
theorem gup_rows_spec (n m : Nat) (hm : 1 ≤ m) :
    ∃ st, (fromTo 1 n).foldlM (rowStep m) (List.replicate m 1, List.replicate m 0) =
        some st ∧ st.1.length = m ∧
      ∀ j, j < m → st.1.getD j 0 = ((Nat.choose (n - 1 + j) (n - 1) : Nat) : Int) := by
  obtain ⟨st, h1, h2, _, h4⟩ := foldlM_inv (rowStep m) (fromTo 1 n)
    (fun k st => st.1.length = m ∧ st.2.length = m ∧
      ∀ j, j < m → st.1.getD j 0 = ((Nat.choose (k + j) k : Nat) : Int))
    (List.replicate m 1, List.replicate m 0)
    ⟨by simp, by simp, fun j hj => by
      simp [List.getD_eq_getElem?_getD, List.getElem?_replicate, hj]⟩
    (by
      intro k i st hk hinv
      obtain ⟨hp, hc, hv⟩ := hinv
      obtain ⟨c1, hw, hl1, hg1⟩ := wr_spec st.2 0 (1 : Int) 0 (by omega)
      rw [Nat.cast_zero] at hw
      obtain ⟨c2, hr, hl2, hv2⟩ := gup_rowLoop_spec m k st.1 c1 hp (by rw [hl1, hc]) hm hv
        (by rw [hg1 0, if_pos rfl])
      refine ⟨(c2, c2), ?_, hl2, hl2, hv2⟩
      unfold rowStep
      rw [hw, Option.some_bind, hr, Option.some_bind])
  rw [fromTo_length] at h4
  exact ⟨st, h1, h2, h4⟩

end GridUniquePathsSpaceOptimized

/-- C12: for all `n ≥ 1` and `m ≥ 1`,
`GridUniquePathsSpaceOptimized::uniquePaths(n, m)` returns the binomial
coefficient `C(n + m - 2, n - 1)`, which is the number of paths from the
top-left to the bottom-right cell of an `n × m` grid that use only right and
down moves: `allPaths n m` lists every such path exactly once.  Integers of
the embedding are unbounded, so the count is not required to fit an `int`. -/
theorem uniquePaths_eq_choose (n m : Nat) (hn : 1 ≤ n) (hm : 1 ≤ m) :
    GridUniquePathsSpaceOptimized.uniquePaths n m =
        some ((Nat.choose (n + m - 2) (n - 1) : Nat) : Int) ∧
      (GridUniquePaths.allPaths n m).length = Nat.choose (n + m - 2) (n - 1) ∧
      (GridUniquePaths.allPaths n m).Nodup ∧
      ∀ w, w ∈ GridUniquePaths.allPaths n m ↔ GridUniquePaths.IsPath n m w := by
  refine ⟨?_, GridUniquePaths.length_wordsWith _ _, GridUniquePaths.nodup_wordsWith _ _,
    GridUniquePaths.mem_allPaths n m hn hm⟩
  obtain ⟨st, h1, h2, h3⟩ := GridUniquePathsSpaceOptimized.gup_rows_spec n m hm
  unfold GridUniquePathsSpaceOptimized.uniquePaths
  rw [if_neg (by omega), Int.toNat_natCast, Int.toNat_natCast, h1, Option.some_bind]
  have e : (m : Int) - 1 = ((m - 1 : Nat) : Int) := by omega
  rw [e, CherryPickup.rd_getD st.1 (m - 1) 0 (by omega), h3 (m - 1) (by omega)]
  have e2 : n - 1 + (m - 1) = n + m - 2 := by omega
  rw [e2]

theorem uniquePaths_eq_choose_witness :
    (1 ≤ 3 ∧ 1 ≤ 7) ∧
      (GridUniquePathsSpaceOptimized.uniquePaths (3 : Nat) (7 : Nat) =
          some ((Nat.choose (3 + 7 - 2) (3 - 1) : Nat) : Int) ∧
        (GridUniquePaths.allPaths 3 7).length = Nat.choose (3 + 7 - 2) (3 - 1) ∧
        (GridUniquePaths.allPaths 3 7).Nodup ∧
        ∀ w, w ∈ GridUniquePaths.allPaths 3 7 ↔ GridUniquePaths.IsPath 3 7 w) :=
  ⟨by decide, uniquePaths_eq_choose 3 7 (by decide) (by decide)⟩

namespace MinPathSum

open CherryPickup Loops

/-! ## Minimum path sum: the stored values are the cheapest paths -/

theorem minCost_le_down (grid : List (List Int)) (i j : Nat) :
    minCost grid (i + 1) j ≤ minCost grid i j + at2 grid (i + 1) j := by
  cases j with
  | zero => show at2 grid (i + 1) 0 + minCost grid i 0 ≤ _; omega
  | succ j =>
    show at2 grid (i + 1) (j + 1) + min (minCost grid i (j + 1)) _ ≤ _
    have := min_le_left (minCost grid i (j + 1))
      (nextRowV (at2 grid (i + 1)) (minCost grid i) j)
    omega

theorem minCost_le_right (grid : List (List Int)) (i j : Nat) :
    minCost grid i (j + 1) ≤ minCost grid i j + at2 grid i (j + 1) := by
  cases i with
  | zero =>
    show at2 grid 0 (j + 1) + firstRowV (at2 grid 0) j ≤
      firstRowV (at2 grid 0) j + at2 grid 0 (j + 1)
    omega
  | succ i =>
    show at2 grid (i + 1) (j + 1) + min (minCost grid i (j + 1)) (minCost grid (i + 1) j) ≤ _
    have := min_le_right (minCost grid i (j + 1)) (minCost grid (i + 1) j)
    omega

/-- A path extended by one move. -/
theorem isPathTo_snoc {i j : Nat} {c : Nat × Nat} {q : List (Nat × Nat)}
    (hq : IsPathTo c.1 c.2 q) (hs : Step c (i, j)) : IsPathTo i j (q ++ [(i, j)]) := by
  obtain ⟨hh, hl, hc⟩ := hq
  refine ⟨?_, by simp, ?_⟩
  · rw [List.head?_append, hh]; rfl
  · rw [List.chain'_append]
    refine ⟨hc, List.chain'_singleton _, ?_⟩
    intro x hx y hy
    rw [hl] at hx
    simp only [List.head?_cons, Option.mem_def, Option.some.injEq] at hx hy
    rw [← hx, ← hy]
    exact hs

theorem pathCost_snoc (grid : List (List Int)) (q : List (Nat × Nat)) (i j : Nat) :
    pathCost grid (q ++ [(i, j)]) = pathCost grid q + at2 grid i j := by
  simp [pathCost]

/-- A path to `(i, j)` is the one-cell path at `(0, 0)` or a path to a cell one
move before `(i, j)` followed by `(i, j)`. -/
theorem isPathTo_cases {i j : Nat} {p : List (Nat × Nat)} (hp : IsPathTo i j p) :
    (p = [(0, 0)] ∧ i = 0 ∧ j = 0) ∨
      ∃ q c, p = q ++ [(i, j)] ∧ IsPathTo c.1 c.2 q ∧ Step c (i, j) := by
  obtain ⟨hh, hl, hc⟩ := hp
  rcases List.eq_nil_or_concat p with e | ⟨q, x, e⟩
  · rw [e] at hh; cases hh
  · rw [List.concat_eq_append] at e
    subst e
    have hx : x = (i, j) := by simpa using hl
    subst hx
    cases q with
    | nil =>
      left
      simp only [List.nil_append, List.head?_cons, Option.some.injEq, Prod.mk.injEq] at hh
      refine ⟨by rw [hh.1, hh.2]; rfl, hh.1, hh.2⟩
    | cons y ys =>
      right
      rw [List.chain'_append] at hc
      obtain ⟨c, hcl⟩ : ∃ c, (y :: ys).getLast? = some c :=
        ⟨(y :: ys).getLast (by simp), List.getLast?_eq_getLast _ (by simp)⟩
      refine ⟨y :: ys, c, rfl, ⟨by simpa using hh, hcl, hc.1⟩, ?_⟩
      exact hc.2.2 c (by rw [hcl]; rfl) (i, j) (by simp)

theorem minCost_le_pathCost (grid : List (List Int)) (p : List (Nat × Nat)) :
    ∀ i j, IsPathTo i j p → minCost grid i j ≤ pathCost grid p := by
  induction p using List.reverseRecOn with
  | nil =>
    intro i j hp
    cases hp.1
  | append_singleton q x ih =>
    intro i j hp
    rcases isPathTo_cases hp with ⟨e, hi, hj⟩ | ⟨q', c, e, hq, hs⟩
    · rw [e, hi, hj]
      show at2 grid 0 0 ≤ pathCost grid [(0, 0)]
      simp [pathCost]
    · obtain ⟨e1, _⟩ := List.append_inj' e rfl
      subst e1
      have e2 : x = (i, j) := by
        have := List.append_inj_right' e rfl
        simpa using this
      subst e2
      rw [pathCost_snoc]
      have h1 := ih c.1 c.2 hq
      rcases hs with ⟨hs1, hs2⟩ | ⟨hs1, hs2⟩
      · simp only at hs1 hs2
        have h2 := minCost_le_down grid c.1 c.2
        rw [hs1, hs2]
        omega
      · simp only at hs1 hs2
        have h2 := minCost_le_right grid c.1 c.2
        rw [hs1, hs2]
        omega

theorem exists_path_minCost (grid : List (List Int)) (i j : Nat) :
    ∃ p, IsPathTo i j p ∧ pathCost grid p = minCost grid i j := by
  induction i generalizing j with
  | zero =>
    induction j with
    | zero =>
      exact ⟨[(0, 0)], ⟨rfl, rfl, List.chain'_singleton _⟩,
        by simp [pathCost, minCost, firstRowV]⟩
    | succ j ih =>
      obtain ⟨q, hq, hc⟩ := ih
      refine ⟨q ++ [(0, j + 1)], isPathTo_snoc (c := (0, j)) hq (Or.inr ⟨rfl, rfl⟩), ?_⟩
      rw [pathCost_snoc, hc]
      show _ = at2 grid 0 (j + 1) + firstRowV (at2 grid 0) j
      show minCost grid 0 j + _ = _
      have : minCost grid 0 j = firstRowV (at2 grid 0) j := rfl
      omega
  | succ i ih =>
    induction j with
    | zero =>
      obtain ⟨q, hq, hc⟩ := ih 0
      refine ⟨q ++ [(i + 1, 0)], isPathTo_snoc (c := (i, 0)) hq (Or.inl ⟨rfl, rfl⟩), ?_⟩
      rw [pathCost_snoc, hc]
      show _ = at2 grid (i + 1) 0 + minCost grid i 0
      omega
    | succ j ihj =>
      have hdef : minCost grid (i + 1) (j + 1) = at2 grid (i + 1) (j + 1) +
          min (minCost grid i (j + 1)) (minCost grid (i + 1) j) := rfl
      rcases le_total (minCost grid i (j + 1)) (minCost grid (i + 1) j) with hle | hle
      · obtain ⟨q, hq, hc⟩ := ih (j + 1)
        refine ⟨q ++ [(i + 1, j + 1)],
          isPathTo_snoc (c := (i, j + 1)) hq (Or.inl ⟨rfl, rfl⟩), ?_⟩
        rw [pathCost_snoc, hc, hdef, min_eq_left hle]
        omega
      · obtain ⟨q, hq, hc⟩ := ihj
        refine ⟨q ++ [(i + 1, j + 1)],
          isPathTo_snoc (c := (i + 1, j)) hq (Or.inr ⟨rfl, rfl⟩), ?_⟩
        rw [pathCost_snoc, hc, hdef, min_eq_right hle]
        omega

end MinPathSum

namespace MinPathSumSpaceOptimized

open CherryPickup Loops MinPathSum

/-- The statements for row `0` fill `prev` with the prefix sums of row `0`. -/
theorem mps_firstRow_spec (grid : List (List Int)) (m : Nat) (hg : Wide m grid)
    (hn : 0 < grid.length) (hm : 1 ≤ m) (prev : List Int) (hp : prev.length = m) :
    ∃ prev', firstRow grid m prev = some prev' ∧ prev'.length = m ∧
      ∀ j, j < m → prev'.getD j 0 = minCost grid 0 j := by
  obtain ⟨p1, hw, hl1, hg1⟩ := wr_spec prev 0 (at2 grid 0 0) 0 (by omega)
  rw [Nat.cast_zero] at hw
  have hr0 := rd2_at2 grid m 0 0 hg hn (by omega)
  rw [Nat.cast_zero] at hr0
  obtain ⟨v', h1, h2, h3, h4⟩ := fillUp_spec (0 : Int) 1 m
    (fun v j => firstRowValue grid v j) (fun j => minCost grid 0 j) p1 (by omega)
    (by
      intro v j hlen h1j hjm hdone hrest
      have e : ((j : Int) - 1) = ((j - 1 : Nat) : Int) := by omega
      have hprevj : v.getD (j - 1) 0 = minCost grid 0 (j - 1) := by
        by_cases hj1 : j = 1
        · subst hj1
          rw [hrest 0 (by omega), hg1 0, if_pos rfl]
          rfl
        · exact hdone (j - 1) (by omega) (by omega)
      have hr := rd2_at2 grid m 0 j hg hn hjm
      rw [Nat.cast_zero] at hr
      show firstRowValue grid v j = _
      unfold firstRowValue
      rw [hr, Option.some_bind, e, rd_getD v (j - 1) 0 (by omega), Option.some_bind, hprevj]
      obtain ⟨j', rfl⟩ : ∃ j', j = j' + 1 := ⟨j - 1, by omega⟩
      rfl)
  refine ⟨v', ?_, by rw [h2, hl1, hp], ?_⟩
  · unfold firstRow
    rw [hr0, Option.some_bind, hw, Option.some_bind]
    exact h1
  · intro j hj
    by_cases hj0 : j = 0
    · subst hj0
      rw [h4 0 (by omega), hg1 0, if_pos rfl]
      rfl
    · exact h3 j (by omega) hj

/-- One iteration of the loop over `i`: from the values of row `i - 1` in
`prev` it computes the values of row `i`. -/
theorem mps_rowStep_spec (grid : List (List Int)) (m i : Nat) (hg : Wide m grid)
    (hi : i + 1 < grid.length) (hm : 1 ≤ m) (st : List Int × List Int)
    (hp : st.1.length = m) (hc : st.2.length = m)
    (hv : ∀ j, j < m → st.1.getD j 0 = minCost grid i j) :
    ∃ st', rowStep grid m st (i + 1) = some st' ∧ st'.1.length = m ∧ st'.2.length = m ∧
      ∀ j, j < m → st'.1.getD j 0 = minCost grid (i + 1) j := by
  have hr0 := rd2_at2 grid m (i + 1) 0 hg hi (by omega)
  rw [Nat.cast_zero] at hr0
  have hp0 := rd_getD st.1 0 (0 : Int) (by omega)
  rw [Nat.cast_zero] at hp0
  obtain ⟨c1, hw, hl1, hg1⟩ := wr_spec st.2 0 (at2 grid (i + 1) 0 + st.1.getD 0 0) 0 (by omega)
  rw [Nat.cast_zero] at hw
  obtain ⟨v', h1, h2, h3, h4⟩ := fillUp_spec (0 : Int) 1 m
    (fun v j => cellValue grid st.1 v ((i + 1 : Nat) : Int) j)
    (fun j => minCost grid (i + 1) j) c1 (by omega)
    (by
      intro v j hlen h1j hjm hdone hrest
      have e : ((j : Int) - 1) = ((j - 1 : Nat) : Int) := by omega
      have hprevj : v.getD (j - 1) 0 = minCost grid (i + 1) (j - 1) := by
        by_cases hj1 : j = 1
        · subst hj1
          rw [hrest 0 (by omega), hg1 0, if_pos rfl, hv 0 (by omega)]
          rfl
        · exact hdone (j - 1) (by omega) (by omega)
      show cellValue grid st.1 v ((i + 1 : Nat) : Int) j = _
      unfold cellValue
      rw [rd2_at2 grid m (i + 1) j hg hi hjm, Option.some_bind, rd_getD st.1 j 0 (by omega),
        Option.some_bind, e, rd_getD v (j - 1) 0 (by omega), Option.some_bind, hprevj,
        hv j hjm]
      obtain ⟨j', rfl⟩ : ∃ j', j = j' + 1 := ⟨j - 1, by omega⟩
      rfl)
  refine ⟨(v', v'), ?_, by rw [h2, hl1, hc], by rw [h2, hl1, hc], ?_⟩
  · unfold rowStep firstColumnValue
    rw [hr0, Option.some_bind, hp0, Option.some_bind, Option.some_bind, hw, Option.some_bind,
      h1, Option.some_bind]
  · intro j hj
    by_cases hj0 : j = 0
    · subst hj0
      show v'.getD 0 0 = _
      rw [h4 0 (by omega), hg1 0, if_pos rfl, hv 0 (by omega)]
      rfl
    · exact h3 j (by omega) hj

/-- On a grid whose rows have at least `m = grid[0].size() ≥ 1` entries the
function returns the value stored for the cell `(n - 1, m - 1)`. -/
theorem mps_minPathSum_spec (n m : Nat) (grid : List (List Int)) (h : Rect n m grid)
    (hn : 1 ≤ n) (hm : 1 ≤ m) :
    minPathSum grid = some (minCost grid (n - 1) (m - 1)) := by
  obtain ⟨row0, rest, hg, hm0, hlen⟩ := rect_cons h hn
  have hw := rect_wide h
  have hgl : grid.length = n := h.1
  obtain ⟨p1, hf, hl1, hv1⟩ := mps_firstRow_spec grid m hw (by omega) hm
    (List.replicate m 0) (by simp)
  obtain ⟨st, hd, hl2, _, hv2⟩ := foldlM_inv (rowStep grid m) (fromTo 1 n)
    (fun k st => st.1.length = m ∧ st.2.length = m ∧
      ∀ j, j < m → st.1.getD j 0 = minCost grid k j)
    (p1, List.replicate m 0) ⟨hl1, by simp, hv1⟩
    (by
      intro k i st hk hinv
      obtain ⟨hik, hin⟩ := fromTo_get hk
      have e : i = k + 1 := by omega
      subst e
      exact mps_rowStep_spec grid m k hw (by omega) hm st hinv.1 hinv.2.1 hinv.2.2)
  rw [fromTo_length] at hv2
  unfold minPathSum
  rw [hg, rd_zero_cons, Option.some_bind]
  dsimp only
  rw [← hg, hgl, hm0, hf, Option.some_bind, hd, Option.some_bind]
  have e : (m : Int) - 1 = ((m - 1 : Nat) : Int) := by omega
  rw [e, rd_getD st.1 (m - 1) 0 (by omega), hv2 (m - 1) (by omega)]

end MinPathSumSpaceOptimized

/-- C13: on every rectangular grid with `n ≥ 1` rows and `m ≥ 1` columns,
`MinPathSumSpaceOptimized::minPathSum(grid)` returns the minimum, over all
paths from `(0, 0)` to `(n - 1, m - 1)` that move only right or down, of the
sum of the costs of the cells on the path: the value is the cost of such a path
and no such path is cheaper.  The costs need not be non-negative, and integers
of the embedding are unbounded. -/
theorem minPathSum_is_minimum (n m : Nat) (grid : List (List Int))
    (h : CherryPickup.Rect n m grid) (hn : 1 ≤ n) (hm : 1 ≤ m) :
    ∃ v, MinPathSumSpaceOptimized.minPathSum grid = some v ∧
      (∃ p, MinPathSum.IsPathTo (n - 1) (m - 1) p ∧ MinPathSum.pathCost grid p = v) ∧
      ∀ p, MinPathSum.IsPathTo (n - 1) (m - 1) p → v ≤ MinPathSum.pathCost grid p :=
  ⟨_, MinPathSumSpaceOptimized.mps_minPathSum_spec n m grid h hn hm,
    MinPathSum.exists_path_minCost grid (n - 1) (m - 1),
    fun p hp => MinPathSum.minCost_le_pathCost grid p (n - 1) (m - 1) hp⟩

theorem minPathSum_is_minimum_witness :
    CherryPickup.Rect 2 3 [[1, 3, 1], [1, 5, 1]] ∧
      ∃ v, MinPathSumSpaceOptimized.minPathSum [[1, 3, 1], [1, 5, 1]] = some v ∧
        (∃ p, MinPathSum.IsPathTo (2 - 1) (3 - 1) p ∧
          MinPathSum.pathCost [[1, 3, 1], [1, 5, 1]] p = v) ∧
        ∀ p, MinPathSum.IsPathTo (2 - 1) (3 - 1) p →
          v ≤ MinPathSum.pathCost [[1, 3, 1], [1, 5, 1]] p :=
  ⟨by decide, minPathSum_is_minimum 2 3 [[1, 3, 1], [1, 5, 1]] (by decide) (by decide)
    (by decide)⟩

namespace MinFallingPath

open CherryPickup Loops

/-! ## Minimum falling path sum -/

theorem bestParentV_spec (n : Nat) (prev : Nat → Int) (j : Nat) (hj : j < n) :
    (∃ c, c < n ∧ Near c j ∧ bestParentV n prev j = prev c) ∧
      ∀ c, c < n → Near c j → bestParentV n prev j ≤ prev c := by
  unfold bestParentV Near
  dsimp only
  by_cases h1 : 0 < j <;> by_cases h2 : j + 1 < n
  · rw [if_pos h1, if_pos h2]
    constructor
    · rcases le_total (min (prev j) (prev (j - 1))) (prev (j + 1)) with h | h
      · rw [min_eq_left h]
        rcases le_total (prev j) (prev (j - 1)) with h' | h'
        · exact ⟨j, hj, by omega, min_eq_left h'⟩
        · exact ⟨j - 1, by omega, by omega, min_eq_right h'⟩
      · exact ⟨j + 1, h2, by omega, min_eq_right h⟩
    · intro c hc hn
      have hc3 : c = j ∨ c = j - 1 ∨ c = j + 1 := by omega
      rcases hc3 with e | e | e <;> subst e
      · exact le_trans (min_le_left _ _) (min_le_left _ _)
      · exact le_trans (min_le_left _ _) (min_le_right _ _)
      · exact min_le_right _ _
  · rw [if_pos h1, if_neg h2]
    constructor
    · rcases le_total (prev j) (prev (j - 1)) with h' | h'
      · exact ⟨j, hj, by omega, min_eq_left h'⟩
      · exact ⟨j - 1, by omega, by omega, min_eq_right h'⟩
    · intro c hc hn
      have hc3 : c = j ∨ c = j - 1 := by omega
      rcases hc3 with e | e <;> subst e
      · exact min_le_left _ _
      · exact min_le_right _ _
  · rw [if_neg h1, if_pos h2]
    constructor
    · rcases le_total (prev j) (prev (j + 1)) with h' | h'
      · exact ⟨j, hj, by omega, min_eq_left h'⟩
      · exact ⟨j + 1, by omega, by omega, min_eq_right h'⟩
    · intro c hc hn
      have hc3 : c = j ∨ c = j + 1 := by omega
      rcases hc3 with e | e <;> subst e
      · exact min_le_left _ _
      · exact min_le_right _ _
  · rw [if_neg h1, if_neg h2]
    constructor
    · exact ⟨j, hj, by omega, rfl⟩
    · intro c hc hn
      have e : c = j := by omega
      subst e
      exact le_refl _

theorem isFall_prefix {n L : Nat} {js : Nat → Nat} (h : IsFall n (L + 1) js) : IsFall n L js :=
  ⟨fun i hi => h.1 i (by omega), fun i hi => h.2 i (by omega)⟩

theorem isFall_update {n L : Nat} {js : Nat → Nat} (h : IsFall n (L + 1) js) (c : Nat)
    (hc : c < n) (hn : Near (js L) c) : IsFall n (L + 2) (Function.update js (L + 1) c) := by
  constructor
  · intro i hi
    by_cases e : i = L + 1
    · rw [e, Function.update_same]; exact hc
    · rw [Function.update_noteq e]; exact h.1 i (by omega)
  · intro i hi
    by_cases e : i = L
    · rw [e, Function.update_same, Function.update_noteq (by omega)]; exact hn
    · rw [Function.update_noteq (by omega), Function.update_noteq (by omega)]
      exact h.2 i (by omega)

/-- The value stored for `(i, c)` is the least total of a falling path over the
rows `0 .. i` that ends in column `c`. -/
theorem fallV_least (mat : List (List Int)) (n i : Nat) :
    ∀ c, c < n →
      (∃ js, IsFall n (i + 1) js ∧ js i = c ∧ seqTotal (at2 mat) (i + 1) js = fallV mat n i c) ∧
      ∀ js, IsFall n (i + 1) js → js i = c → fallV mat n i c ≤ seqTotal (at2 mat) (i + 1) js := by
  induction i with
  | zero =>
    intro c hc
    constructor
    · refine ⟨fun _ => c, ⟨fun _ _ => hc, fun i hi => by omega⟩, rfl, ?_⟩
      simp [seqTotal, fallV]
    · intro js _ hjc
      rw [seqTotal_succ, hjc]
      simp [seqTotal, fallV]
  | succ i ih =>
    intro c hc
    obtain ⟨⟨c', hc', hn', hbest⟩, hle⟩ := bestParentV_spec n (fallV mat n i) c hc
    have hdef : fallV mat n (i + 1) c = at2 mat (i + 1) c + bestParentV n (fallV mat n i) c :=
      rfl
    constructor
    · obtain ⟨js, hjs, hend, htot⟩ := (ih c' hc').1
      refine ⟨Function.update js (i + 1) c, isFall_update hjs c hc (by rw [hend]; exact hn'),
        Function.update_same _ _ _, ?_⟩
      rw [seqTotal_update, htot, hdef, hbest]
      omega
    · intro js hjs hend
      have hpre := isFall_prefix hjs
      have h1 := (ih (js i) (hjs.1 i (by omega))).2 js hpre rfl
      have h2 := hle (js i) (hjs.1 i (by omega)) (by rw [← hend]; exact hjs.2 i (by omega))
      rw [seqTotal_succ, hend, hdef]
      omega

end MinFallingPath

namespace MinFallingPathSpaceOptimized

open CherryPickup Loops MinFallingPath

theorem mfp_bestParent_spec (n : Nat) (prev : List Int) (hp : prev.length = n) (j : Nat)
    (hj : j < n) :
    bestParent n prev j = some (bestParentV n (fun c => prev.getD c 0) j) := by
  unfold bestParent bestParentV
  dsimp only
  rw [rd_getD prev j 0 (by omega), Option.some_bind]
  by_cases h1 : 0 < j
  · have e : ((j : Int) - 1) = ((j - 1 : Nat) : Int) := by omega
    rw [if_pos (by omega), if_pos h1, e, rd_getD prev (j - 1) 0 (by omega), Option.some_bind,
      Option.some_bind]
    by_cases h2 : j + 1 < n
    · have e2 : ((j : Int) + 1) = ((j + 1 : Nat) : Int) := by omega
      rw [if_pos (by omega), if_pos h2, e2, rd_getD prev (j + 1) 0 (by omega), Option.some_bind]
    · rw [if_neg (by omega), if_neg h2]
  · rw [if_neg (by omega), if_neg h1, Option.some_bind]
    by_cases h2 : j + 1 < n
    · have e2 : ((j : Int) + 1) = ((j + 1 : Nat) : Int) := by omega
      rw [if_pos (by omega), if_pos h2, e2, rd_getD prev (j + 1) 0 (by omega), Option.some_bind]
    · rw [if_neg (by omega), if_neg h2]

theorem bestParentV_congr (n : Nat) (prev prev' : Nat → Int) (j : Nat) (hj : j < n)
    (h : ∀ c, c < n → prev c = prev' c) : bestParentV n prev j = bestParentV n prev' j := by
  unfold bestParentV
  dsimp only
  rw [h j hj]
  by_cases h1 : 0 < j <;> by_cases h2 : j + 1 < n
  · rw [if_pos h1, if_pos h1, if_pos h2, if_pos h2, h (j - 1) (by omega), h (j + 1) h2]
  · rw [if_pos h1, if_pos h1, if_neg h2, if_neg h2, h (j - 1) (by omega)]
  · rw [if_neg h1, if_neg h1, if_pos h2, if_pos h2, h (j + 1) h2]
  · rw [if_neg h1, if_neg h1, if_neg h2, if_neg h2]

/-- One iteration of the loop over `i`: from the values of row `i` in `prev`
it computes the values of row `i + 1`. -/
theorem mfp_rowStep_spec (mat : List (List Int)) (n i : Nat) (h : Rect n n mat)
    (hi : i + 1 < n) (st : List Int × List Int) (hp : st.1.length = n) (hc : st.2.length = n)
    (hv : ∀ j, j < n → st.1.getD j 0 = fallV mat n i j) :
    ∃ st', rowStep mat n st (i + 1) = some st' ∧ st'.1.length = n ∧ st'.2.length = n ∧
      ∀ j, j < n → st'.1.getD j 0 = fallV mat n (i + 1) j := by
  obtain ⟨v', h1, h2, h3, _⟩ := fillUp_spec (0 : Int) 0 n
    (fun _ j => cellValue mat n st.1 ((i + 1 : Nat) : Int) j)
    (fun j => fallV mat n (i + 1) j) st.2 (by omega)
    (by
      intro v j _ _ hjn _ _
      show cellValue mat n st.1 ((i + 1 : Nat) : Int) j = _
      unfold cellValue
      rw [mfp_bestParent_spec n st.1 hp j hjn, Option.some_bind,
        rd2_at2 mat n (i + 1) j (rect_wide h) (by rw [h.1]; exact hi) hjn, Option.some_bind,
        bestParentV_congr n _ (fallV mat n i) j hjn hv]
      rfl)
  refine ⟨(v', v'), ?_, by rw [h2, hc], by rw [h2, hc], fun j hj => h3 j (by omega) hj⟩
  unfold rowStep
  rw [h1, Option.some_bind]

/-- When the loop over `i` has finished, `prev` holds the values of the last row. -/
theorem mfp_rows_spec (mat : List (List Int)) (n : Nat) (h : Rect n n mat) (hn : 1 ≤ n) :
    ∃ row0 st, rd mat 0 = some row0 ∧
      (fromTo 1 n).foldlM (rowStep mat n) (row0, List.replicate n 0) = some st ∧
      st.1.length = n ∧ ∀ j, j < n → st.1.getD j 0 = fallV mat n (n - 1) j := by
  obtain ⟨row0, rest, hg, hm0, hlen⟩ := rect_cons h hn
  obtain ⟨st, hd, hl, _, hv⟩ := foldlM_inv (rowStep mat n) (fromTo 1 n)
    (fun k st => st.1.length = n ∧ st.2.length = n ∧
      ∀ j, j < n → st.1.getD j 0 = fallV mat n k j)
    (row0, List.replicate n 0) ⟨hm0, by simp, fun j _ => by rw [hg]; rfl⟩
    (by
      intro k i st hk hinv
      obtain ⟨hik, hin⟩ := fromTo_get hk
      have e : i = k + 1 := by omega
      subst e
      exact mfp_rowStep_spec mat n k h (by omega) st hinv.1 hinv.2.1 hinv.2.2)
  rw [fromTo_length] at hv
  exact ⟨row0, st, by rw [hg]; exact rd_zero_cons row0 rest, hd, hl, hv⟩

end MinFallingPathSpaceOptimized

namespace TriangleMinPath

open CherryPickup Loops

/-! ## Triangle minimum path sum -/

theorem parentV_spec (prev : Nat → Int) (i c : Nat) (hc : c ≤ i + 1) :
    (∃ c', c' ≤ i ∧ (c = c' ∨ c = c' + 1) ∧ parentV prev i c = prev c') ∧
      ∀ c', c' ≤ i → (c = c' ∨ c = c' + 1) → parentV prev i c ≤ prev c' := by
  unfold parentV
  by_cases h0 : c = 0
  · rw [if_pos h0]
    refine ⟨⟨0, by omega, by omega, rfl⟩, ?_⟩
    intro c' _ h
    have e : c' = 0 := by omega
    rw [e]
  · rw [if_neg h0]
    by_cases h1 : c = i + 1
    · rw [if_pos h1]
      refine ⟨⟨i, le_refl i, by omega, rfl⟩, ?_⟩
      intro c' hc' h
      have e : c' = i := by omega
      rw [e]
    · rw [if_neg h1]
      constructor
      · rcases le_total (prev (c - 1)) (prev c) with h | h
        · exact ⟨c - 1, by omega, by omega, min_eq_left h⟩
        · exact ⟨c, by omega, by omega, min_eq_right h⟩
      · intro c' _ h
        rcases h with e | e
        · rw [← e]; exact min_le_right _ _
        · have e' : c' = c - 1 := by omega
          rw [e']; exact min_le_left _ _

theorem isDescent_le {L : Nat} {js : Nat → Nat} (h : IsDescent L js) :
    ∀ i, i < L → js i ≤ i := by
  intro i
  induction i with
  | zero => intro _; rw [h.1]
  | succ i ih =>
    intro hi
    have := ih (by omega)
    rcases h.2 i hi with e | e <;> omega

theorem isDescent_prefix {L : Nat} {js : Nat → Nat} (h : IsDescent (L + 1) js) :
    IsDescent L js := ⟨h.1, fun i hi => h.2 i (by omega)⟩

theorem isDescent_update {L : Nat} {js : Nat → Nat} (h : IsDescent (L + 1) js) (c : Nat)
    (hc : c = js L ∨ c = js L + 1) : IsDescent (L + 2) (Function.update js (L + 1) c) := by
  constructor
  · rw [Function.update_noteq (by omega)]; exact h.1
  · intro i hi
    by_cases e : i = L
    · rw [e, Function.update_same, Function.update_noteq (by omega)]; exact hc
    · rw [Function.update_noteq (by omega), Function.update_noteq (by omega)]
      exact h.2 i (by omega)

/-- The value stored for `(i, c)` is the least total of a path down the rows
`0 .. i` that ends in column `c`. -/
theorem triV_least (triangle : List (List Int)) (i : Nat) :
    ∀ c, c ≤ i →
      (∃ js, IsDescent (i + 1) js ∧ js i = c ∧
        seqTotal (at2 triangle) (i + 1) js = triV triangle i c) ∧
      ∀ js, IsDescent (i + 1) js → js i = c →
        triV triangle i c ≤ seqTotal (at2 triangle) (i + 1) js := by
  induction i with
  | zero =>
    intro c hc
    have e : c = 0 := by omega
    subst e
    constructor
    · refine ⟨fun _ => 0, ⟨rfl, fun i hi => by omega⟩, rfl, ?_⟩
      simp [seqTotal, triV]
    · intro js _ hjc
      rw [seqTotal_succ, hjc]
      simp [seqTotal, triV]
  | succ i ih =>
    intro c hc
    obtain ⟨⟨c', hc', hn', hbest⟩, hle⟩ := parentV_spec (triV triangle i) i c hc
    have hdef : triV triangle (i + 1) c =
        at2 triangle (i + 1) c + parentV (triV triangle i) i c := rfl
    constructor
    · obtain ⟨js, hjs, hend, htot⟩ := (ih c' hc').1
      refine ⟨Function.update js (i + 1) c, isDescent_update hjs c (by rw [hend]; exact hn'),
        Function.update_same _ _ _, ?_⟩
      rw [seqTotal_update, htot, hdef, hbest]
      omega
    · intro js hjs hend
      have hpre := isDescent_prefix hjs
      have hji : js i ≤ i := isDescent_le hjs i (by omega)
      have h1 := (ih (js i) hji).2 js hpre rfl
      have h2 := hle (js i) hji (by rw [← hend]; exact hjs.2 i (by omega))
      rw [seqTotal_succ, hend, hdef]
      omega

end TriangleMinPath

namespace TriangleMinPathSpaceOptimized

open CherryPickup Loops TriangleMinPath

/-- One iteration of the loop over `i`: from the values of row `k` in `prev`
it builds the values of row `k + 1`. -/
theorem tri_rowStep_spec (triangle : List (List Int)) (n k : Nat) (h : IsTriangle n triangle)
    (hk : k + 1 < n) (prev : List Int) (hp : prev.length = k + 1)
    (hv : ∀ j, j ≤ k → prev.getD j 0 = triV triangle k j) :
    ∃ prev', rowStep triangle prev (k + 1) = some prev' ∧ prev'.length = k + 2 ∧
      ∀ j, j ≤ k + 1 → prev'.getD j 0 = triV triangle (k + 1) j := by
  have hlen : triangle.length = n := h.1
  have hrow : (triangle.getD (k + 1) []).length = k + 2 := h.2 (k + 1) hk
  have hT : ∀ j, j ≤ k + 1 →
      rd2 triangle ((k + 1 : Nat) : Int) (j : Int) = some (at2 triangle (k + 1) j) :=
    fun j hj => rd2_of_lt triangle (k + 1) j (by omega) (by omega)
  have hP : ∀ j, j ≤ k → rd prev (j : Int) = some (triV triangle k j) :=
    fun j hj => by rw [rd_getD prev j 0 (by omega), hv j hj]
  -- curr[0]
  have hfirst : firstValue triangle prev ((k + 1 : Nat) : Int) =
      some (triV triangle (k + 1) 0) := by
    unfold firstValue
    have h0 := hT 0 (by omega)
    have p0 := hP 0 (by omega)
    rw [Nat.cast_zero] at h0 p0
    rw [h0, Option.some_bind, p0, Option.some_bind]
    rfl
  obtain ⟨c1, hw1, hl1, hg1⟩ := wr_spec (List.replicate (k + 1 + 1) (0 : Int)) 0
    (triV triangle (k + 1) 0) 0 (by simp)
  rw [Nat.cast_zero] at hw1
  have hl1' : c1.length = k + 2 := by rw [hl1]; simp
  -- the loop over j
  obtain ⟨c2, hw2, hl2, hin2, hout2⟩ := fillUp_spec (0 : Int) 1 (k + 1)
    (fun _ j => cellValue triangle prev ((k + 1 : Nat) : Int) j)
    (fun j => triV triangle (k + 1) j) c1 (by omega)
    (by
      intro v j _ h1j hjk _ _
      have e : ((j : Int) - 1) = ((j - 1 : Nat) : Int) := by omega
      show cellValue triangle prev ((k + 1 : Nat) : Int) j = _
      unfold cellValue
      rw [hT j (by omega), Option.some_bind, e, hP (j - 1) (by omega), Option.some_bind,
        hP j (by omega), Option.some_bind]
      show _ = some (at2 triangle (k + 1) j + parentV (triV triangle k) k j)
      unfold parentV
      rw [if_neg (by omega), if_neg (by omega)])
  -- curr[i]
  have hlast : lastValue triangle prev ((k + 1 : Nat) : Int) =
      some (triV triangle (k + 1) (k + 1)) := by
    unfold lastValue
    have e : (((k + 1 : Nat) : Int) - 1) = ((k : Nat) : Int) := by omega
    rw [hT (k + 1) (le_refl _), Option.some_bind, e, hP k (le_refl _), Option.some_bind]
    show _ = some (at2 triangle (k + 1) (k + 1) + parentV (triV triangle k) k (k + 1))
    unfold parentV
    rw [if_neg (by omega), if_pos rfl]
  obtain ⟨c3, hw3, hl3, hg3⟩ := wr_spec c2 (k + 1) (triV triangle (k + 1) (k + 1)) 0
    (by omega)
  refine ⟨c3, ?_, by omega, ?_⟩
  · unfold rowStep
    rw [hfirst, Option.some_bind, hw1, Option.some_bind, hw2, Option.some_bind, hlast,
      Option.some_bind, hw3]
  · intro j hj
    rw [hg3 j]
    by_cases e1 : j = k + 1
    · rw [if_pos e1, e1]
    · rw [if_neg e1]
      by_cases e0 : j = 0
      · rw [e0, hout2 0 (by omega), hg1 0, if_pos rfl]
      · exact hin2 j (by omega) (by omega)

/-- When the loop over `i` has finished, `prev` holds the values of the last row. -/
theorem tri_rows_spec (triangle : List (List Int)) (n : Nat) (h : IsTriangle n triangle)
    (hn : 1 ≤ n) :
    ∃ prev, (fromTo 1 n).foldlM (rowStep triangle) [at2 triangle 0 0] = some prev ∧
      prev.length = n ∧ ∀ j, j < n → prev.getD j 0 = triV triangle (n - 1) j := by
  obtain ⟨prev, hd, hl, hv⟩ := foldlM_inv (rowStep triangle) (fromTo 1 n)
    (fun k prev => prev.length = k + 1 ∧ ∀ j, j ≤ k → prev.getD j 0 = triV triangle k j)
    [at2 triangle 0 0] ⟨rfl, fun j hj => by
      have e : j = 0 := by omega
      rw [e]; rfl⟩
    (by
      intro k i prev hk hinv
      obtain ⟨hik, hin⟩ := fromTo_get hk
      have e : i = k + 1 := by omega
      subst e
      obtain ⟨p', h1, h2, h3⟩ := tri_rowStep_spec triangle n k h (by omega) prev hinv.1 hinv.2
      exact ⟨p', h1, h2, h3⟩)
  rw [fromTo_length] at hl hv
  exact ⟨prev, hd, by omega, fun j hj => hv j (by omega)⟩

end TriangleMinPathSpaceOptimized

namespace NinjaTraining

open CherryPickup Loops

/-! ## Ninja training -/

theorem seqTotal_nonneg (g : Nat → Nat → Int) (hg : ∀ i j, 0 ≤ g i j) (L : Nat)
    (t : Nat → Nat) : 0 ≤ seqTotal g L t := by
  unfold seqTotal
  exact Finset.sum_nonneg (fun i _ => hg i (t i))

theorem at2_nonneg (grid : List (List Int)) (h : NonNeg grid) (i j : Nat) :
    0 ≤ at2 grid i j := by
  unfold at2
  by_cases hi : i < grid.length
  · exact getD_nonneg _ (h _ (getD_mem_or grid i [] hi)) j
  · have e : grid.getD i [] = [] := by
      rw [List.getD_eq_getElem?_getD, List.getElem?_eq_none (by omega)]
      rfl
    rw [e]
    exact le_refl _

theorem mem_fromTo {a b x : Nat} : x ∈ fromTo a b ↔ a ≤ x ∧ x < b := by
  unfold fromTo
  rw [List.mem_range'_1]
  omega

theorem baseV_spec (p : Nat → Int) (last : Nat) (hl : last ≤ 3) :
    (∃ task, task < 3 ∧ task ≠ last ∧ baseV p last = p task) ∧
      ∀ task, task < 3 → task ≠ last → p task ≤ baseV p last := by
  have h3 : last = 0 ∨ last = 1 ∨ last = 2 ∨ last = 3 := by omega
  rcases h3 with e | e | e | e <;> subst e <;> simp only [baseV] <;> norm_num
  · constructor
    · rcases le_total (p 1) (p 2) with h | h
      · exact ⟨2, by omega, by omega, max_eq_right h⟩
      · exact ⟨1, by omega, by omega, max_eq_left h⟩
    · intro task h1 h2
      have : task = 1 ∨ task = 2 := by omega
      rcases this with e | e <;> subst e
      · exact Or.inl (le_refl _)
      · exact Or.inr (le_refl _)
  · constructor
    · rcases le_total (p 0) (p 2) with h | h
      · exact ⟨2, by omega, by omega, max_eq_right h⟩
      · exact ⟨0, by omega, by omega, max_eq_left h⟩
    · intro task h1 h2
      have : task = 0 ∨ task = 2 := by omega
      rcases this with e | e <;> subst e
      · exact Or.inl (le_refl _)
      · exact Or.inr (le_refl _)
  · constructor
    · rcases le_total (p 0) (p 1) with h | h
      · exact ⟨1, by omega, by omega, max_eq_right h⟩
      · exact ⟨0, by omega, by omega, max_eq_left h⟩
    · intro task h1 h2
      have : task = 0 ∨ task = 1 := by omega
      rcases this with e | e <;> subst e
      · exact Or.inl (le_refl _)
      · exact Or.inr (le_refl _)
  · constructor
    · rcases le_total (max (p 0) (p 1)) (p 2) with h | h
      · exact ⟨2, by omega, by omega, max_eq_right h⟩
      · rcases le_total (p 0) (p 1) with h' | h'
        · exact ⟨1, by omega, by omega, by rw [max_eq_left h, max_eq_right h']⟩
        · exact ⟨0, by omega, by omega, by rw [max_eq_left h, max_eq_left h']⟩
    · intro task h1 _
      have : task = 0 ∨ task = 1 ∨ task = 2 := by omega
      rcases this with e | e | e <;> subst e
      · exact Or.inl (Or.inl (le_refl _))
      · exact Or.inl (Or.inr (le_refl _))
      · exact Or.inr (le_refl _)

/-- The loop over `task` leaves the greatest of its start value and of the
candidates `p task + prev task` over the tasks different from `last`. -/
theorem stepFrom_isBest (p prev : Nat → Int) (last : Nat) (r : Int) :
    IsBest r (fun y => ∃ task, task < 3 ∧ task ≠ last ∧ y = p task + prev task)
      (stepFrom p prev last r) := by
  have h := foldl_isBest (fromTo 0 3)
    (fun r task => if task ≠ last then max r (p task + prev task) else r)
    (fun task y => task ≠ last ∧ y = p task + prev task)
    (by
      intro best task _
      dsimp only
      by_cases hc : task ≠ last
      · rw [if_pos hc]
        exact (isBest_max best _).congr (fun y => ⟨fun e => ⟨hc, e⟩, fun e => e.2⟩)
      · rw [if_neg hc]
        exact ⟨le_refl _, fun y hy => absurd hy.1 hc, Or.inl rfl⟩)
    r
  refine IsBest.congr ?_ h
  intro y
  constructor
  · rintro ⟨task, hmem, hne, hy⟩
    exact ⟨task, (mem_fromTo.1 hmem).2, hne, hy⟩
  · rintro ⟨task, hlt, hne, hy⟩
    exact ⟨task, mem_fromTo.2 ⟨by omega, hlt⟩, hne, hy⟩

theorem stepFrom_congr (p prev prev' : Nat → Int) (last : Nat) (r : Int)
    (h : ∀ task, task < 3 → prev task = prev' task) :
    stepFrom p prev last r = stepFrom p prev' last r := by
  refine (stepFrom_isBest p prev last r).unique (IsBest.congr ?_ (stepFrom_isBest p prev' last r))
  intro y
  constructor
  · rintro ⟨task, hlt, hne, hy⟩
    exact ⟨task, hlt, hne, by rw [h task hlt]; exact hy⟩
  · rintro ⟨task, hlt, hne, hy⟩
    exact ⟨task, hlt, hne, by rw [← h task hlt]; exact hy⟩

/-- With non-negative candidates the loop started at `0` leaves the greatest
candidate. -/
theorem stepFrom_spec (p prev : Nat → Int) (last : Nat) (_hl : last ≤ 3)
    (hnn : ∀ task, task < 3 → 0 ≤ p task + prev task) :
    (∃ task, task < 3 ∧ task ≠ last ∧ stepFrom p prev last 0 = p task + prev task) ∧
      ∀ task, task < 3 → task ≠ last → p task + prev task ≤ stepFrom p prev last 0 := by
  obtain ⟨h0, hub, hat⟩ := stepFrom_isBest p prev last 0
  refine ⟨?_, fun task hlt hne => hub _ ⟨task, hlt, hne, rfl⟩⟩
  rcases hat with e | ⟨task, hlt, hne, e⟩
  · obtain ⟨task, hlt, hne⟩ : ∃ task, task < 3 ∧ task ≠ last := by
      by_cases h : last = 0
      · exact ⟨1, by omega, by omega⟩
      · exact ⟨0, by omega, by omega⟩
    refine ⟨task, hlt, hne, ?_⟩
    have h1 := hub _ ⟨task, hlt, hne, rfl⟩
    have h2 := hnn task hlt
    omega
  · exact ⟨task, hlt, hne, e⟩

theorem isPlan_prefix {L : Nat} {t : Nat → Nat} (h : IsPlan (L + 1) t) : IsPlan L t :=
  ⟨fun i hi => h.1 i (by omega), fun i hi => h.2 i (by omega)⟩

theorem isPlan_update {L : Nat} {t : Nat → Nat} (h : IsPlan (L + 1) t) (task : Nat)
    (hlt : task < 3) (hne : t L ≠ task) : IsPlan (L + 2) (Function.update t (L + 1) task) := by
  constructor
  · intro i hi
    by_cases e : i = L + 1
    · rw [e, Function.update_same]; exact hlt
    · rw [Function.update_noteq e]; exact h.1 i (by omega)
  · intro i hi
    by_cases e : i = L
    · rw [e, Function.update_same, Function.update_noteq (by omega)]; exact hne
    · rw [Function.update_noteq (by omega), Function.update_noteq (by omega)]
      exact h.2 i (by omega)

/-- The value stored for `(d, last)` is the greatest total of a plan for the
days `0 .. d` whose task of day `d` is not `last`. -/
theorem ninjaV_greatest (points : List (List Int)) (hnn : NonNeg points) (d : Nat) :
    ∀ last, last ≤ 3 →
      (∃ t, IsPlan (d + 1) t ∧ t d ≠ last ∧
        seqTotal (at2 points) (d + 1) t = ninjaV points d last) ∧
      ∀ t, IsPlan (d + 1) t → t d ≠ last →
        seqTotal (at2 points) (d + 1) t ≤ ninjaV points d last := by
  induction d with
  | zero =>
    intro last hl
    obtain ⟨⟨task, hlt, hne, hval⟩, hub⟩ := baseV_spec (at2 points 0) last hl
    constructor
    · refine ⟨fun _ => task, ⟨fun _ _ => hlt, fun i hi => by omega⟩, hne, ?_⟩
      show _ = baseV (at2 points 0) last
      rw [hval]
      simp [seqTotal]
    · intro t ht hne'
      have := hub (t 0) (ht.1 0 (by omega)) hne'
      show _ ≤ baseV (at2 points 0) last
      simpa [seqTotal] using this
  | succ d ih =>
    intro last hl
    have hcand : ∀ task, task < 3 → 0 ≤ at2 points (d + 1) task + ninjaV points d task := by
      intro task hlt
      obtain ⟨t, _, _, htot⟩ := (ih task (by omega)).1
      have h1 := seqTotal_nonneg (at2 points) (at2_nonneg points hnn) (d + 1) t
      have h2 := at2_nonneg points hnn (d + 1) task
      omega
    obtain ⟨⟨task, hlt, hne, hval⟩, hub⟩ :=
      stepFrom_spec (at2 points (d + 1)) (ninjaV points d) last hl hcand
    have hdef : ninjaV points (d + 1) last =
        stepFrom (at2 points (d + 1)) (ninjaV points d) last 0 := rfl
    constructor
    · obtain ⟨t, ht, hend, htot⟩ := (ih task (by omega)).1
      refine ⟨Function.update t (d + 1) task, isPlan_update ht task hlt hend, ?_, ?_⟩
      · rw [Function.update_same]; exact hne
      · rw [seqTotal_update, htot, hdef, hval]
        omega
    · intro t ht hne'
      have hpre := isPlan_prefix ht
      have hlt' : t (d + 1) < 3 := ht.1 (d + 1) (by omega)
      have h1 := (ih (t (d + 1)) (by omega)).2 t hpre (ht.2 d (by omega))
      have h2 := hub (t (d + 1)) hlt' hne'
      rw [seqTotal_succ, hdef]
      omega

end NinjaTraining

namespace NinjaTrainingSpaceOptimized

open CherryPickup Loops NinjaTraining

theorem fromTo_zero_three : fromTo 0 3 = [0, 1, 2] := rfl

/-- The statements for day `0` fill `prev` with the values of day `0`. -/
theorem nin_baseRow_spec (points : List (List Int)) (n : Nat) (h : Rect n 3 points)
    (hn : 1 ≤ n) (prev : List Int) (hp : prev.length = 4) :
    ∃ prev', baseRow points prev = some prev' ∧ prev'.length = 4 ∧
      ∀ last, last ≤ 3 → prev'.getD last 0 = baseV (at2 points 0) last := by
  have hR : ∀ j : Nat, j < 3 →
      rd2 points ((0 : Nat) : Int) (j : Int) = some (at2 points 0 j) :=
    fun j hj => rd2_at2 points 3 0 j (rect_wide h) (by rw [h.1]; omega) hj
  have r0 := hR 0 (by omega)
  have r1 := hR 1 (by omega)
  have r2 := hR 2 (by omega)
  simp only [Nat.cast_zero, Nat.cast_one, Nat.cast_ofNat] at r0 r1 r2
  obtain ⟨p1, w1, l1, g1⟩ := wr_spec prev 0 (max (at2 points 0 1) (at2 points 0 2)) 0
    (by omega)
  obtain ⟨p2, w2, l2, g2⟩ := wr_spec p1 1 (max (at2 points 0 0) (at2 points 0 2)) 0
    (by omega)
  obtain ⟨p3, w3, l3, g3⟩ := wr_spec p2 2 (max (at2 points 0 0) (at2 points 0 1)) 0
    (by omega)
  obtain ⟨p4, w4, l4, g4⟩ := wr_spec p3 3
    (max (max (at2 points 0 0) (at2 points 0 1)) (at2 points 0 2)) 0 (by omega)
  simp only [Nat.cast_zero, Nat.cast_one, Nat.cast_ofNat] at w1 w2 w3 w4
  refine ⟨p4, ?_, by omega, ?_⟩
  · unfold baseRow
    simp only [r0, r1, r2, Option.some_bind, w1, w2, w3, w4]
  · intro last hl
    have h3 : last = 0 ∨ last = 1 ∨ last = 2 ∨ last = 3 := by omega
    rcases h3 with e | e | e | e <;> subst e <;> simp only [g4, g3, g2, g1, baseV] <;>
      norm_num

/-- The body of the loop over `task`, on vectors of length four. -/
theorem nin_taskBody_spec (points : List (List Int)) (n day last task : Nat)
    (h : Rect n 3 points) (hd : day < n) (hl : last ≤ 3) (ht : task < 3) (prev curr : List Int)
    (hp : prev.length = 4) (hc : curr.length = 4) :
    ∃ curr', taskBody points prev day last task curr = some curr' ∧ curr'.length = 4 ∧
      ∀ j, curr'.getD j 0 = if j = last
        then max (curr.getD last 0) (at2 points day task + prev.getD task 0)
        else curr.getD j 0 := by
  obtain ⟨c', hw, hl', hg⟩ := wr_spec curr last
    (max (curr.getD last 0) (at2 points day task + prev.getD task 0)) 0 (by omega)
  refine ⟨c', ?_, by omega, hg⟩
  unfold taskBody
  rw [rd2_at2 points 3 day task (rect_wide h) (by rw [h.1]; exact hd) ht, Option.some_bind,
    rd_getD prev task 0 (by omega), Option.some_bind, rd_getD curr last 0 (by omega),
    Option.some_bind, hw]

/-- The loop over `task` changes `curr[last]` only, to the value of `stepFrom`. -/
theorem nin_taskLoop_spec (points : List (List Int)) (n day last : Nat)
    (h : Rect n 3 points) (hd : day < n) (hl : last ≤ 3) (prev curr : List Int)
    (hp : prev.length = 4) (hc : curr.length = 4) :
    ∃ curr', taskLoop points prev day last curr = some curr' ∧ curr'.length = 4 ∧
      ∀ j, curr'.getD j 0 = if j = last
        then stepFrom (at2 points day) (fun t => prev.getD t 0) last (curr.getD last 0)
        else curr.getD j 0 := by
  obtain ⟨v', h1, h2, h3⟩ := foldlM_inv
    (fun curr (task : Nat) =>
      if (task : Int) ≠ last then taskBody points prev day last task curr else some curr)
    (fromTo 0 3)
    (fun k v => v.length = 4 ∧ ∀ j, v.getD j 0 = if j = last
        then ((fromTo 0 3).take k).foldl
          (fun r task => if task ≠ last then max r (at2 points day task + prev.getD task 0)
            else r) (curr.getD last 0)
        else curr.getD j 0)
    curr ⟨hc, fun j => by
      by_cases e : j = last
      · rw [if_pos e, e]; rfl
      · rw [if_neg e]⟩
    (by
      intro k task v hk hinv
      obtain ⟨hvl, hvg⟩ := hinv
      have htake : (fromTo 0 3).take (k + 1) = (fromTo 0 3).take k ++ [task] := by
        rw [List.take_succ, hk]; rfl
      obtain ⟨_, htk⟩ := fromTo_get hk
      by_cases hne : task = last
      · refine ⟨v, by dsimp only; rw [if_neg (by rw [hne]; exact fun hh => hh rfl)], hvl,
          fun j => ?_⟩
        rw [hvg j, htake, List.foldl_append]
        by_cases e : j = last
        · rw [if_pos e, if_pos e]
          simp [hne]
        · rw [if_neg e, if_neg e]
      · obtain ⟨c', hb, hl', hg⟩ := nin_taskBody_spec points n day last task h hd hl htk prev v
          hp hvl
        refine ⟨c', by dsimp only; rw [if_pos (by omega)]; exact hb, hl', fun j => ?_⟩
        rw [hg j, htake, List.foldl_append]
        by_cases e : j = last
        · rw [if_pos e, if_pos e, hvg last, if_pos rfl]
          simp [hne]
        · rw [if_neg e, if_neg e, hvg j, if_neg e])
  refine ⟨v', h1, h2, fun j => ?_⟩
  rw [h3 j]
  by_cases e : j = last
  · rw [if_pos e, if_pos e, List.take_of_length_le (le_refl _)]
    rfl
  · rw [if_neg e, if_neg e]

/-- One iteration of the loop over `day`: from the values of day `d` in `prev`
it computes the values of day `d + 1`. -/
theorem nin_rowStep_spec (points : List (List Int)) (n d : Nat) (h : Rect n 3 points)
    (hd : d + 1 < n) (st : List Int × List Int) (hp : st.1.length = 4) (hc : st.2.length = 4)
    (hv : ∀ last, last ≤ 3 → st.1.getD last 0 = ninjaV points d last) :
    ∃ st', rowStep points st (d + 1) = some st' ∧ st'.1.length = 4 ∧ st'.2.length = 4 ∧
      ∀ last, last ≤ 3 → st'.1.getD last 0 = ninjaV points (d + 1) last := by
  obtain ⟨v', h1, h2, h3⟩ := foldlM_inv
    (fun curr (last : Nat) =>
      (wr curr last 0).bind fun curr => taskLoop points st.1 ((d + 1 : Nat) : Int) last curr)
    (fromTo 0 4)
    (fun k v => v.length = 4 ∧ ∀ last, last < k → v.getD last 0 = ninjaV points (d + 1) last)
    st.2 ⟨hc, fun last hl => by omega⟩
    (by
      intro k last v hk hinv
      obtain ⟨hlk, hl4⟩ := fromTo_get hk
      obtain ⟨hvl, hvg⟩ := hinv
      obtain ⟨c1, w1, l1, g1⟩ := wr_spec v last (0 : Int) 0 (by omega)
      obtain ⟨c2, w2, l2, g2⟩ := nin_taskLoop_spec points n (d + 1) last h hd (by omega)
        st.1 c1 hp (by omega)
      refine ⟨c2, ?_, l2, fun j hj => ?_⟩
      · show (wr v (last : Int) 0).bind _ = some c2
        rw [w1, Option.some_bind]
        exact w2
      · rw [g2 j]
        by_cases e : j = last
        · rw [if_pos e, g1 last, if_pos rfl, e]
          show _ = stepFrom (at2 points (d + 1)) (ninjaV points d) last 0
          exact stepFrom_congr _ _ _ _ _ (fun t ht => hv t (by omega))
        · rw [if_neg e, g1 j, if_neg e]
          exact hvg j (by omega))
  rw [fromTo_length] at h3
  refine ⟨(v', v'), ?_, h2, h2, fun last hl => h3 last (by omega)⟩
  unfold rowStep
  rw [h1, Option.some_bind]

/-- On a table of `n ≥ 1` days with three values per day the function returns
the value stored for `(n - 1, 3)`. -/
theorem nin_ninjaTraining_spec (points : List (List Int)) (n : Nat) (h : Rect n 3 points)
    (hn : 1 ≤ n) : ninjaTraining points = some (ninjaV points (n - 1) 3) := by
  obtain ⟨p1, hb, hl1, hv1⟩ := nin_baseRow_spec points n h hn (List.replicate 4 0) (by simp)
  obtain ⟨st, hd, hl2, _, hv2⟩ := foldlM_inv (rowStep points) (fromTo 1 n)
    (fun k st => st.1.length = 4 ∧ st.2.length = 4 ∧
      ∀ last, last ≤ 3 → st.1.getD last 0 = ninjaV points k last)
    (p1, List.replicate 4 0) ⟨hl1, by simp, hv1⟩
    (by
      intro k i st hk hinv
      obtain ⟨hik, hin⟩ := fromTo_get hk
      have e : i = k + 1 := by omega
      subst e
      exact nin_rowStep_spec points n k h (by omega) st hinv.1 hinv.2.1 hinv.2.2)
  rw [fromTo_length] at hv2
  unfold ninjaTraining
  dsimp only
  rw [hb, Option.some_bind, h.1, hd, Option.some_bind]
  have e := rd_getD st.1 3 (0 : Int) (by omega)
  simp only [Nat.cast_ofNat] at e
  rw [e, hv2 3 (by omega)]

end NinjaTrainingSpaceOptimized

/-- C16: on every points table with `n ≥ 1` days and three non-negative point
values per day, `NinjaTrainingSpaceOptimized::ninjaTraining(points)` returns
the maximum, over all task sequences `t_0 .. t_{n-1}` in `{0, 1, 2}` with
`t_i ≠ t_{i+1}` for every consecutive pair of days, of the sum over the days `i`
of `points[i][t_i]`: the value is the total of such a sequence and no such
sequence has a greater total.  Integers of the embedding are unbounded. -/
theorem ninjaTraining_is_maximum (n : Nat) (points : List (List Int))
    (h : CherryPickup.Rect n 3 points) (hn : 1 ≤ n) (hnn : CherryPickup.NonNeg points) :
    ∃ v, NinjaTrainingSpaceOptimized.ninjaTraining points = some v ∧
      (∃ t, NinjaTraining.IsPlan n t ∧ Loops.seqTotal (CherryPickup.at2 points) n t = v) ∧
      ∀ t, NinjaTraining.IsPlan n t → Loops.seqTotal (CherryPickup.at2 points) n t ≤ v := by
  have hN : n - 1 + 1 = n := by omega
  obtain ⟨⟨t, ht, _, htot⟩, hub⟩ :=
    NinjaTraining.ninjaV_greatest points hnn (n - 1) 3 (le_refl 3)
  rw [hN] at ht htot hub
  refine ⟨_, NinjaTrainingSpaceOptimized.nin_ninjaTraining_spec points n h hn,
    ⟨t, ht, htot⟩, fun t' ht' => hub t' ht' ?_⟩
  have := ht'.1 (n - 1) (by omega)
  omega

theorem ninjaTraining_is_maximum_witness :
    (CherryPickup.Rect 3 3 [[2, 1, 3], [3, 4, 6], [10, 1, 6]] ∧
        CherryPickup.NonNeg [[2, 1, 3], [3, 4, 6], [10, 1, 6]]) ∧
      ∃ v, NinjaTrainingSpaceOptimized.ninjaTraining [[2, 1, 3], [3, 4, 6], [10, 1, 6]] =
          some v ∧
        (∃ t, NinjaTraining.IsPlan 3 t ∧
          Loops.seqTotal (CherryPickup.at2 [[2, 1, 3], [3, 4, 6], [10, 1, 6]]) 3 t = v) ∧
        ∀ t, NinjaTraining.IsPlan 3 t →
          Loops.seqTotal (CherryPickup.at2 [[2, 1, 3], [3, 4, 6], [10, 1, 6]]) 3 t ≤ v :=
  ⟨⟨by decide, by decide⟩,
    ninjaTraining_is_maximum 3 [[2, 1, 3], [3, 4, 6], [10, 1, 6]] (by decide) (by decide)
      (by decide)⟩

namespace SubsetSum

open CherryPickup Loops

/-! ## Subset sum -/

theorem reach_zero (xs : List Int) : Reach xs 0 := ⟨[], List.nil_sublist xs, rfl⟩

theorem reach_nonneg {xs : List Int} (h : ∀ x ∈ xs, 0 ≤ x) {s : Int} (hr : Reach xs s) :
    0 ≤ s := by
  obtain ⟨sub, hsub, hsum⟩ := hr
  rw [← hsum]
  exact List.sum_nonneg (fun x hx => h x (hsub.subset hx))

theorem reach_single (a s : Int) : Reach [a] s ↔ s = 0 ∨ s = a := by
  constructor
  · rintro ⟨sub, hsub, hsum⟩
    rcases List.sublist_cons_iff.1 hsub with h | ⟨r, e, h⟩
    · rw [List.sublist_nil.1 h] at hsum
      left; rw [← hsum]; rfl
    · rw [e, List.sublist_nil.1 h] at hsum
      right; rw [← hsum]; simp
  · rintro (e | e)
    · rw [e]; exact reach_zero _
    · exact ⟨[a], List.Sublist.refl _, by rw [e]; simp⟩

theorem reach_snoc (xs : List Int) (a s : Int) :
    Reach (xs ++ [a]) s ↔ Reach xs s ∨ Reach xs (s - a) := by
  constructor
  · rintro ⟨sub, hsub, hsum⟩
    obtain ⟨l1, l2, e, h1, h2⟩ := List.sublist_append_iff.1 hsub
    rcases List.sublist_cons_iff.1 h2 with h | ⟨r, e2, h⟩
    · rw [List.sublist_nil.1 h, List.append_nil] at e
      left
      exact ⟨l1, h1, by rw [← e]; exact hsum⟩
    · rw [List.sublist_nil.1 h] at e2
      right
      refine ⟨l1, h1, ?_⟩
      rw [e, e2] at hsum
      simp at hsum
      omega
  · rintro (⟨sub, hsub, hsum⟩ | ⟨sub, hsub, hsum⟩)
    · exact ⟨sub, hsub.trans (List.sublist_append_left xs [a]), hsum⟩
    · refine ⟨sub ++ [a], List.Sublist.append hsub (List.Sublist.refl _), ?_⟩
      simp
      omega

theorem take_succ_getD (arr : List Int) (k : Nat) (hk : k < arr.length) :
    arr.take (k + 1) = arr.take k ++ [arr.getD k 0] := by
  rw [List.take_succ, List.getD_eq_getElem?_getD, List.getElem?_eq_getElem hk]
  rfl

/-- The entry `dp[s]` after the pass of element `ind` tells whether some of the
elements `arr[0 .. ind]` add up to `s`. -/
theorem dpV_iff (arr : List Int) (hnn : ∀ x ∈ arr, 0 ≤ x) (ind : Nat) (hi : ind < arr.length) :
    ∀ s : Nat, dpV arr ind s = true ↔ Reach (arr.take (ind + 1)) (s : Int) := by
  induction ind with
  | zero =>
    intro s
    have e : arr.take 1 = [arr.getD 0 0] := by
      rw [take_succ_getD arr 0 hi]; rfl
    rw [e, reach_single]
    show baseV (arr.getD 0 0) s = true ↔ _
    unfold baseV
    simp only [Bool.or_eq_true, decide_eq_true_eq]
    constructor
    · rintro (h | h)
      · left; omega
      · right; omega
    · rintro (h | h)
      · left; omega
      · right; omega
  | succ ind ih =>
    intro s
    have ih' := ih (by omega)
    have hpre : ∀ x ∈ arr.take (ind + 1), 0 ≤ x := fun x hx => hnn x (List.mem_of_mem_take hx)
    rw [take_succ_getD arr (ind + 1) hi, reach_snoc]
    show stepV (arr.getD (ind + 1) 0) (dpV arr ind) s = true ↔ _
    unfold stepV
    by_cases hs : s = 0
    · rw [if_pos hs, ih' 0, hs]
      constructor
      · intro h; exact Or.inl h
      · intro _; exact reach_zero _
    · rw [if_neg hs]
      simp only [Bool.or_eq_true]
      constructor
      · rintro (h | h)
        · right
          by_cases ha : arr.getD (ind + 1) 0 ≤ (s : Int)
          · rw [if_pos ha] at h
            have := (ih' _).1 h
            rw [Int.toNat_of_nonneg (by omega)] at this
            exact this
          · rw [if_neg ha] at h
            cases h
        · left; exact (ih' s).1 h
      · rintro (h | h)
        · right; exact (ih' s).2 h
        · left
          have hge := reach_nonneg hpre h
          rw [if_pos (by omega)]
          apply (ih' _).2
          rw [Int.toNat_of_nonneg (by omega)]
          exact h

end SubsetSum

namespace SubsetSumSpaceOptimized1D

open CherryPickup Loops SubsetSum

/-- One pass of the in-place loop: every entry read at `s` and at
`s - arr[ind]` is still the entry of the previous pass, so the pass computes
`stepV` of the old entries. -/
theorem ss_rowStep_spec (arr : List Int) (S ind : Nat) (hi : ind < arr.length)
    (ha : 0 ≤ arr.getD ind 0) (dp : List Bool) (hl : dp.length = S + 1) :
    ∃ dp', rowStep arr S dp ind = some dp' ∧ dp'.length = S + 1 ∧
      ∀ s, s ≤ S → dp'.getD s false = stepV (arr.getD ind 0) (fun t => dp.getD t false) s := by
  obtain ⟨v', h1, h2, h3, h4⟩ := fillDown_spec false 1 S
    (fun v s => cellValue arr v ind s)
    (fun s => stepV (arr.getD ind 0) (fun t => dp.getD t false) s) dp (by omega)
    (by
      intro v s hlen h1s hsS _ hold
      show cellValue arr v ind s = _
      unfold cellValue stepV
      dsimp only
      rw [rd_getD v s false (by omega), Option.some_bind, rd_getD arr ind 0 hi,
        Option.some_bind, hold s (Or.inl (le_refl s)), if_neg (show ¬ s = 0 by omega)]
      by_cases hle : arr.getD ind 0 ≤ (s : Int)
      · have e : (s : Int) - arr.getD ind 0 = ((((s : Int) - arr.getD ind 0).toNat : Nat) : Int) :=
          (Int.toNat_of_nonneg (by omega)).symm
        rw [if_pos hle, if_pos hle, e, rd_getD v _ false (by omega), Option.some_bind,
          hold _ (Or.inl (by omega)), ← e]
      · rw [if_neg hle, if_neg hle, Option.some_bind])
  refine ⟨v', h1, by rw [h2, hl], ?_⟩
  intro s hs
  by_cases h0 : s = 0
  · rw [h0, h4 0 (Or.inl (by omega))]
    rfl
  · exact h3 s (by omega) hs

/-- The initialisation and the passes of all elements: `dp[s]` ends as the
entry of the last pass. -/
theorem ss_isSubsetSum_spec (arr : List Int) (S : Nat) (hne : arr ≠ [])
    (hnn : ∀ x ∈ arr, 0 ≤ x) :
    isSubsetSum arr (S : Int) = some (dpV arr (arr.length - 1) S) := by
  have hlen : 0 < arr.length := List.length_pos.2 hne
  have ha0 : 0 ≤ arr.getD 0 0 := hnn _ (getD_mem_or arr 0 0 hlen)
  -- dp[0] = true
  obtain ⟨d1, w1, l1, g1⟩ := wr_spec (List.replicate (S + 1) false) 0 true false (by simp)
  rw [Nat.cast_zero] at w1
  have l1' : d1.length = S + 1 := by rw [l1]; simp
  have r0 : rd arr 0 = some (arr.getD 0 0) := by
    have := rd_getD arr 0 (0 : Int) hlen
    rw [Nat.cast_zero] at this
    exact this
  -- if (arr[0] <= sum) dp[arr[0]] = true
  have hbase : ∀ a0 : Int, 0 ≤ a0 →
      ∃ d2, (if a0 ≤ (S : Int) then wr d1 a0 true else some d1) =
      some d2 ∧ d2.length = S + 1 ∧ ∀ s, s ≤ S → d2.getD s false = baseV a0 s := by
    intro a0 ha0
    have hrep : ∀ s, s ≤ S → d1.getD s false = decide (s = 0) := by
      intro s hs
      rw [g1 s]
      by_cases e : s = 0
      · simp [e]
      · rw [if_neg e]
        have hlt : s < S + 1 := by omega
        simp [List.getD_eq_getElem?_getD, List.getElem?_replicate, e, hlt]
    by_cases hle : a0 ≤ (S : Int)
    · obtain ⟨d2, w2, l2, g2⟩ := wr_spec d1 a0.toNat true false (by omega)
      rw [Int.toNat_of_nonneg ha0] at w2
      refine ⟨d2, by rw [if_pos hle]; exact w2, by omega, fun s hs => ?_⟩
      rw [g2 s, hrep s hs]
      unfold baseV
      by_cases e : s = a0.toNat
      · rw [if_pos e]
        have : a0 = (s : Int) := by omega
        simp [this]
      · rw [if_neg e]
        have : ¬ a0 = (s : Int) := by omega
        simp [this]
    · refine ⟨d1, by rw [if_neg hle], l1', fun s hs => ?_⟩
      rw [hrep s hs]
      unfold baseV
      have : ¬ a0 = (s : Int) := by omega
      simp [this]
  obtain ⟨d2, w2, l2, g2⟩ := hbase _ ha0
  obtain ⟨dp, hd, hl, hv⟩ := foldlM_inv (rowStep arr S) (fromTo 1 arr.length)
    (fun k dp => dp.length = S + 1 ∧ ∀ s, s ≤ S → dp.getD s false = dpV arr k s)
    d2 ⟨l2, g2⟩
    (by
      intro k ind dp hk hinv
      obtain ⟨hik, hin⟩ := fromTo_get hk
      have e : ind = k + 1 := by omega
      subst e
      have hak : 0 ≤ arr.getD (k + 1) 0 := hnn _ (getD_mem_or arr (k + 1) 0 hin)
      obtain ⟨dp', h1, h2, h3⟩ := ss_rowStep_spec arr S (k + 1) hin hak dp hinv.1
      refine ⟨dp', h1, h2, fun s hs => ?_⟩
      rw [h3 s hs]
      show _ = stepV (arr.getD (k + 1) 0) (dpV arr k) s
      unfold stepV
      dsimp only
      by_cases h0 : s = 0
      · rw [if_pos h0, if_pos h0]; exact hinv.2 0 (by omega)
      · rw [if_neg h0, if_neg h0, hinv.2 s hs]
        by_cases hle : arr.getD (k + 1) 0 ≤ (s : Int)
        · rw [if_pos hle, if_pos hle, hinv.2 _ (by omega)]
        · rw [if_neg hle, if_neg hle])
  rw [fromTo_length] at hv
  unfold isSubsetSum
  dsimp only
  have e1 : ((S : Int) + 1).toNat = S + 1 := by omega
  rw [if_neg (by omega), if_neg (by omega), e1, w1, Option.some_bind, r0, Option.some_bind, w2,
    Option.some_bind, Int.toNat_natCast, hd, Option.some_bind, rd_getD dp S false (by omega),
    hv S (le_refl S)]

end SubsetSumSpaceOptimized1D

namespace CherryPickup

/-! ## The margin of the sentinel -/

theorem getD_abs_le (K : Int) (hK : 0 ≤ K) (row : List Int) (h : ∀ x ∈ row, |x| ≤ K) (j : Nat) :
    |row.getD j 0| ≤ K := by
  rw [List.getD_eq_getElem?_getD]
  by_cases hj : j < row.length
  · rw [List.getElem?_eq_getElem hj]
    exact h _ (List.getElem_mem hj)
  · rw [List.getElem?_eq_none (by omega)]
    simpa using hK

theorem rowReward_abs_le (K : Int) (hK : 0 ≤ K) (row : List Int) (h : ∀ x ∈ row, |x| ≤ K)
    (a b : Nat) : |rowReward row a b| ≤ 2 * K := by
  have ha := abs_le.1 (getD_abs_le K hK row h a)
  have hb := abs_le.1 (getD_abs_le K hK row h b)
  unfold rowReward
  split
  · exact abs_le.2 ⟨by omega, by omega⟩
  · exact abs_le.2 ⟨by omega, by omega⟩

/-- The value stored for a state of a grid with rewards bounded by `K` is
bounded by `2 * K` times the number of rows from the state to the last row,
as long as that bound stays above the sentinel: the zero-displacement move is a
candidate of the fold, so the fold never stays at the sentinel. -/
theorem cellV_abs_le (m : Nat) (K : Int) (hK : 0 ≤ K) (rows : List (List Int))
    (hne : rows ≠ []) (h : Bounded K rows) (hmargin : 2 * K * (rows.length : Int) < 1000000000)
    (a b : Nat) (ha : a < m) (hb : b < m) :
    |cellV m rows a b| ≤ 2 * K * (rows.length : Int) := by
  induction rows generalizing a b with
  | nil => exact absurd rfl hne
  | cons row rest ih =>
    have hrow := abs_le.1 (rowReward_abs_le K hK row (h row (List.mem_cons_self _ _)) a b)
    cases rest with
    | nil =>
      show |rowReward row a b| ≤ _
      have e : 2 * K * (([row] : List (List Int)).length : Int) = 2 * K := by simp
      rw [e]
      exact abs_le.2 hrow
    | cons next rest =>
      have e : 2 * K * ((row :: next :: rest).length : Int) =
          2 * K * ((next :: rest).length : Int) + 2 * K := by
        simp only [List.length_cons]; push_cast; ring
      rw [e] at hmargin ⊢
      have ih' := fun a b ha hb => abs_le.1 (ih (by simp)
        (fun r hr => h r (List.mem_cons_of_mem _ hr)) (by linarith) a b ha hb)
      have h2 := bestV_ge m (rowReward row a b) (cellV m (next :: rest)) a b a b ha hb
        (near_refl a) (near_refl b)
      show |bestV m (rowReward row a b) (cellV m (next :: rest)) a b| ≤ _
      have hlow := ih' a b ha hb
      rcases bestV_cases m (rowReward row a b) (cellV m (next :: rest)) a b with hs | hs
      · rw [hs] at h2
        unfold NEG_INF at h2
        linarith
      · obtain ⟨a', b', ha', hb', _, _, hv⟩ := hs
        have hup := ih' a' b' ha' hb'
        exact abs_le.2 ⟨by linarith, by rw [hv]; linarith⟩

theorem bounded_nonneg (n m : Nat) (K : Int) (grid : List (List Int)) (h : Rect n m grid)
    (hn : 1 ≤ n) (hm : 1 ≤ m) (hK : Bounded K grid) : 0 ≤ K := by
  have h0 : 0 < grid.length := by rw [h.1]; omega
  have hrow : grid.getD 0 [] ∈ grid := getD_mem_or grid 0 [] h0
  have hl : 0 < (grid.getD 0 []).length := by rw [h.2 _ hrow]; omega
  have hx := hK _ hrow _ (getD_mem_or (grid.getD 0 []) 0 0 hl)
  exact le_trans (abs_nonneg _) hx

theorem bounded_drop (K : Int) (grid : List (List Int)) (hK : Bounded K grid) (i : Nat) :
    Bounded K (grid.drop i) :=
  fun row hr => hK row (List.mem_of_mem_drop hr)

/-- C21: on every rectangular grid with `n, m ≥ 1` whose rewards satisfy
`|grid[r][c]| ≤ K` with `2 * n * K < 10^9`, every cell `dp[i][j1][j2]` of the
table of the tabulated variant, and every cell of the layer `prev` the rolling
variant holds for row `i = n - 1 - k` after `k` iterations of its driver loop,
has absolute value at most `2 * K * (n - i)` and differs from the sentinel
`-10^9`; both variants return the same value, and it differs from the
sentinel. -/
theorem sentinel_margin (n m : Nat) (K : Int) (grid : List (List Int)) (h : Rect n m grid)
    (hn : 1 ≤ n) (hm : 1 ≤ m) (hK : Bounded K grid)
    (hmargin : 2 * (n : Int) * K < 1000000000) :
    (∃ dp, CherryPickupTabulation.table grid = some dp ∧
      ∀ i j1 j2, i < n → j1 < m → j2 < m →
        |at3 dp i j1 j2| ≤ 2 * K * ((n : Int) - i) ∧ at3 dp i j1 j2 ≠ NEG_INF) ∧
    (∀ k, k < n → ∃ st, CherryPickupSpaceOptimized.layersAt grid k = some st ∧
      ∀ j1 j2, j1 < m → j2 < m →
        |at2 st.1 j1 j2| ≤ 2 * K * ((k : Int) + 1) ∧ at2 st.1 j1 j2 ≠ NEG_INF) ∧
    ∃ v, CherryPickupTabulation.cherryPickup grid = some v ∧
      CherryPickupSpaceOptimized.cherryPickup grid = some v ∧ v ≠ NEG_INF := by
  have hK0 := bounded_nonneg n m K grid h hn hm hK
  have hcell : ∀ i a b, i < n → a < m → b < m →
      |cellV m (grid.drop i) a b| ≤ 2 * K * ((n : Int) - i) ∧
        cellV m (grid.drop i) a b ≠ NEG_INF := by
    intro i a b hi ha hb
    have hlen : (grid.drop i).length = n - i := by rw [List.length_drop, h.1]
    have hcast : (((grid.drop i).length : Nat) : Int) = (n : Int) - i := by
      rw [hlen]; omega
    have hle : 2 * K * ((n : Int) - i) ≤ 2 * (n : Int) * K := by
      have : (0 : Int) ≤ 2 * K * (i : Int) := by positivity
      linarith
    have hb1 := cellV_abs_le m K hK0 (grid.drop i)
      (by intro e; rw [e] at hlen; simp at hlen; omega) (bounded_drop K grid hK i)
      (by rw [hcast]; linarith) a b ha hb
    rw [hcast] at hb1
    refine ⟨hb1, fun e => ?_⟩
    rw [e] at hb1
    have := (abs_le.1 hb1).1
    unfold NEG_INF at this
    linarith
  obtain ⟨row0, rest, rfl⟩ : ∃ row0 rest, grid = row0 :: rest := by
    cases grid with
    | nil => have := h.1; simp at this; omega
    | cons r rs => exact ⟨r, rs, rfl⟩
  have hm0 : row0.length = m := h.2 row0 (List.mem_cons_self _ _)
  have hn0 : rest.length + 1 = n := h.1
  have hw : Wide row0.length (row0 :: rest) := by rw [hm0]; exact rect_wide h
  refine ⟨?_, ?_, ?_⟩
  · obtain ⟨dp, hd, _, hv⟩ := CherryPickupTabulation.tab_table_spec row0 rest hw
    refine ⟨dp, hd, fun i a b hi ha hb => ?_⟩
    rw [hv i a b (by omega) (by omega) (by omega), hm0]
    exact hcell i a b hi ha hb
  · intro k hk
    obtain ⟨st, hs, _, hv, _⟩ :=
      CherryPickupSpaceOptimized.so_layersAt_spec row0 rest hw k (by omega)
    refine ⟨st, hs, fun a b ha hb => ?_⟩
    rw [hv a b (by omega) (by omega), hm0]
    have := hcell (rest.length - k) a b (by omega) ha hb
    have e : (n : Int) - ((rest.length - k : Nat) : Int) = (k : Int) + 1 := by omega
    rw [e] at this
    exact this
  · obtain ⟨h1, h2⟩ := cherryPickup_rect n m (row0 :: rest) h hn hm
    refine ⟨_, h1, h2, ?_⟩
    have := (hcell 0 0 (m - 1) (by omega) (by omega) (by omega)).2
    rw [List.drop_zero] at this
    exact this

theorem sentinel_margin_witness :
    (Rect 4 3 [[3, 1, 1], [2, 5, 1], [1, 5, 5], [2, 1, 1]] ∧
        Bounded 5 [[3, 1, 1], [2, 5, 1], [1, 5, 5], [2, 1, 1]] ∧
        2 * ((4 : Nat) : Int) * 5 < 1000000000) ∧
      ((∃ dp, CherryPickupTabulation.table [[3, 1, 1], [2, 5, 1], [1, 5, 5], [2, 1, 1]] =
          some dp ∧
        ∀ i j1 j2, i < 4 → j1 < 3 → j2 < 3 →
          |at3 dp i j1 j2| ≤ 2 * 5 * (((4 : Nat) : Int) - i) ∧ at3 dp i j1 j2 ≠ NEG_INF) ∧
      (∀ k, k < 4 → ∃ st,
        CherryPickupSpaceOptimized.layersAt [[3, 1, 1], [2, 5, 1], [1, 5, 5], [2, 1, 1]] k =
          some st ∧
        ∀ j1 j2, j1 < 3 → j2 < 3 →
          |at2 st.1 j1 j2| ≤ 2 * 5 * ((k : Int) + 1) ∧ at2 st.1 j1 j2 ≠ NEG_INF) ∧
      ∃ v, CherryPickupTabulation.cherryPickup [[3, 1, 1], [2, 5, 1], [1, 5, 5], [2, 1, 1]] =
          some v ∧
        CherryPickupSpaceOptimized.cherryPickup [[3, 1, 1], [2, 5, 1], [1, 5, 5], [2, 1, 1]] =
          some v ∧ v ≠ NEG_INF) :=
  ⟨⟨by decide, by decide, by decide⟩,
    sentinel_margin 4 3 5 [[3, 1, 1], [2, 5, 1], [1, 5, 5], [2, 1, 1]] (by decide) (by decide)
      (by decide) (by decide) (by decide)⟩

end CherryPickup

namespace Loops

open CherryPickup

/-! ## Two-dimensional vectors -/

theorem shape_replicate {V : Type} (n w : Nat) (x : V) :
    Shape n w (List.replicate n (List.replicate w x)) := by
  refine ⟨List.length_replicate _ _, fun row hr => ?_⟩
  rw [(List.mem_replicate.1 hr).2]
  exact List.length_replicate _ _

theorem cell_replicate {V : Type} (n w : Nat) (x : V) (i j : Nat) :
    cell x (List.replicate n (List.replicate w x)) i j = x := by
  unfold cell
  simp only [List.getD_eq_getElem?_getD, List.getElem?_replicate]
  by_cases hi : i < n
  · rw [if_pos hi]
    simp only [Option.getD_some, List.getElem?_replicate]
    split <;> rfl
  · rw [if_neg hi]
    rfl

theorem rd2_cell {V : Type} (d : V) (t : List (List V)) (n w a b : Nat) (hs : Shape n w t)
    (ha : a < n) (hb : b < w) : rd2 t (a : Int) (b : Int) = some (cell d t a b) := by
  have ha' : a < t.length := by rw [hs.1]; exact ha
  have hrow : (t.getD a []).length = w := hs.2 _ (getD_mem_or t a [] ha')
  unfold rd2 cell
  rw [rd_getD t a [] ha', Option.some_bind, rd_getD _ b d (by rw [hrow]; exact hb)]

/-- A write `t[a][b] = x` inside the vector succeeds, keeps its shape and
changes exactly the entry `(a, b)`. -/
theorem wr2_cell {V : Type} (d : V) (t : List (List V)) (n w a b : Nat) (x : V)
    (hs : Shape n w t) (ha : a < n) (hb : b < w) :
    ∃ t', wr2 t (a : Int) (b : Int) x = some t' ∧ Shape n w t' ∧
      ∀ a' b', cell d t' a' b' = if a' = a ∧ b' = b then x else cell d t a' b' := by
  have ha' : a < t.length := by rw [hs.1]; exact ha
  have hrow : (t.getD a []).length = w := hs.2 _ (getD_mem_or t a [] ha')
  have hb' : b < (t.getD a []).length := by rw [hrow]; exact hb
  refine ⟨t.set a ((t.getD a []).set b x), ?_, ⟨?_, ?_⟩, ?_⟩
  · unfold wr2
    rw [rd_getD t a [] ha', Option.some_bind, wr_of_lt _ b x hb', Option.some_bind,
      wr_of_lt t a _ ha']
  · rw [List.length_set]; exact hs.1
  · intro row hr
    rcases mem_set_cases _ _ _ _ hr with h | h
    · rw [h, List.length_set]; exact hrow
    · exact hs.2 row h
  · intro a' b'
    unfold cell
    rw [getD_set _ _ _ _ _ ha']
    by_cases h1 : a' = a
    · subst h1
      rw [if_pos rfl, getD_set _ _ _ _ _ hb']
      by_cases h2 : b' = b
      · simp [h2]
      · simp [h2]
    · simp [h1]

/-- A loop whose iteration `x` writes the entry `(pi x, pj x)`: when the entries
of a region `R k` hold the values `G` before iteration `k`, the computation of
iteration `k` returns `G` at its entry, and the region grows by at most that
entry, then the loop succeeds and the entries of the final region hold `G`. -/
theorem fillRegion_spec {V : Type} (d : V) (n w : Nat) (l : List Nat) (pi pj : Nat → Nat)
    (R : Nat → Nat → Nat → Prop) (G : Nat → Nat → V) (f : List (List V) → Nat → Option V)
    (hpos : ∀ (k x : Nat), l[k]? = some x → pi x < n ∧ pj x < w)
    (hR : ∀ (k x : Nat), l[k]? = some x →
      ∀ i j, R (k + 1) i j → R k i j ∨ (i = pi x ∧ j = pj x))
    (hf : ∀ (k x : Nat) t, l[k]? = some x → Shape n w t →
      (∀ i j, R k i j → cell d t i j = G i j) →
      f t x = some (G (pi x) (pj x)))
    (t0 : List (List V)) (hs : Shape n w t0) (h0 : ∀ i j, R 0 i j → cell d t0 i j = G i j) :
    ∃ t', l.foldlM (fun t (x : Nat) =>
        (f t x).bind fun v => wr2 t ((pi x : Nat) : Int) ((pj x : Nat) : Int) v) t0 = some t' ∧
      Shape n w t' ∧ ∀ i j, R l.length i j → cell d t' i j = G i j := by
  obtain ⟨t', h1, h2, h3⟩ := foldlM_inv
    (fun t (x : Nat) => (f t x).bind fun v => wr2 t ((pi x : Nat) : Int) ((pj x : Nat) : Int) v)
    l (fun k t => Shape n w t ∧ ∀ i j, R k i j → cell d t i j = G i j) t0 ⟨hs, h0⟩
    (by
      intro k x t hk hinv
      obtain ⟨hp1, hp2⟩ := hpos k x hk
      obtain ⟨t', hw, hs', hc⟩ := wr2_cell d t n w (pi x) (pj x) (G (pi x) (pj x)) hinv.1 hp1 hp2
      refine ⟨t', ?_, hs', fun i j hr => ?_⟩
      · dsimp only
        rw [hf k x t hk hinv.1 hinv.2, Option.some_bind, hw]
      · rw [hc i j]
        by_cases e : i = pi x ∧ j = pj x
        · rw [if_pos e, e.1, e.2]
        · rw [if_neg e]
          rcases hR k x hk i j hr with h | h
          · exact hinv.2 i j h
          · exact absurd h e)
  exact ⟨t', h1, h2, h3⟩

end Loops

namespace SubsetSum

open CherryPickup Loops

/-! ## The other subset-sum classes -/

theorem dpV_zero (arr : List Int) (ind : Nat) : dpV arr ind 0 = true := by
  induction ind with
  | zero => show baseV (arr.getD 0 0) 0 = true; simp [baseV]
  | succ ind ih =>
    show stepV (arr.getD (ind + 1) 0) (dpV arr ind) 0 = true
    unfold stepV
    rw [if_pos rfl]
    exact ih

theorem dpV_succ (arr : List Int) (ind s : Nat) :
    dpV arr (ind + 1) s = stepV (arr.getD (ind + 1) 0) (dpV arr ind) s := rfl

/-- The value `stepV` depends on the old entries up to `s` only. -/
theorem stepV_congr (a : Int) (ha : 0 ≤ a) (old old' : Nat → Bool) (s : Nat)
    (h : ∀ t, t ≤ s → old t = old' t) : stepV a old s = stepV a old' s := by
  unfold stepV
  by_cases h0 : s = 0
  · rw [if_pos h0, if_pos h0]; exact h 0 (by omega)
  · rw [if_neg h0, if_neg h0, h s (le_refl s)]
    by_cases hle : a ≤ (s : Int)
    · rw [if_pos hle, if_pos hle, h _ (by omega)]
    · rw [if_neg hle, if_neg hle]

end SubsetSum

namespace SubsetSumRecursive

theorem rec_solve_zero (arr : List Int) (ind : Nat) : solve arr ind 0 = some true := by
  cases ind with
  | zero => unfold solve; rw [if_pos rfl]
  | succ ind => unfold solve; rw [if_pos rfl]

end SubsetSumRecursive

namespace SubsetSumMemoized

theorem memo_solve_zero (arr : List Int) (ind : Nat) (dp : List (List Int)) :
    solve arr ind 0 dp = some (true, dp) := by
  cases ind with
  | zero => unfold solve; rw [if_pos rfl]
  | succ ind => unfold solve; rw [if_pos rfl]

end SubsetSumMemoized

namespace SubsetSumTabulation

open CherryPickup Loops SubsetSum

/-- The computation of one entry of row `k + 1` from a table whose row `k`
holds the entries of pass `k`. -/
theorem tab_cellValue_spec (arr : List Int) (n S k s : Nat) (t : List (List Bool))
    (hs : Shape n (S + 1) t) (hk : k + 1 < n) (hn : n = arr.length)
    (ha : 0 ≤ arr.getD (k + 1) 0) (h1 : 1 ≤ s) (hsS : s ≤ S)
    (hrow : ∀ u, u ≤ S → cell false t k u = dpV arr k u) :
    cellValue arr t ((k + 1 : Nat) : Int) (s : Int) = some (dpV arr (k + 1) s) := by
  have e0 : ((k + 1 : Nat) : Int) - 1 = (k : Int) := by omega
  rw [dpV_succ]
  unfold cellValue stepV
  rw [e0, rd2_cell false t n (S + 1) k s hs (by omega) (by omega), Option.some_bind,
    rd_getD arr (k + 1) 0 (by omega), Option.some_bind, hrow s hsS,
    if_neg (show ¬ s = 0 by omega)]
  by_cases hle : arr.getD (k + 1) 0 ≤ (s : Int)
  · have e : (s : Int) - arr.getD (k + 1) 0 =
        ((((s : Int) - arr.getD (k + 1) 0).toNat : Nat) : Int) :=
      (Int.toNat_of_nonneg (by omega)).symm
    rw [if_pos hle, if_pos hle, e, rd2_cell false t n (S + 1) k _ hs (by omega) (by omega),
      Option.some_bind, hrow _ (by omega), ← e]
  · rw [if_neg hle, if_neg hle, Option.some_bind]

/-- The loop over `s` for row `k + 1`. -/
theorem tab_rowLoop_spec (arr : List Int) (n S k : Nat) (t : List (List Bool))
    (hs : Shape n (S + 1) t) (hk : k + 1 < n) (hn : n = arr.length)
    (ha : 0 ≤ arr.getD (k + 1) 0)
    (hinv : ∀ i s, i < n → s ≤ S → (i ≤ k ∨ s = 0) → cell false t i s = dpV arr i s) :
    ∃ t', rowLoop arr S t (k + 1) = some t' ∧ Shape n (S + 1) t' ∧
      ∀ i s, i < n → s ≤ S → (i ≤ k + 1 ∨ s = 0) → cell false t' i s = dpV arr i s := by
  obtain ⟨t', h1, h2, h3⟩ := fillRegion_spec false n (S + 1) (fromTo 1 (S + 1))
    (fun _ => k + 1) (fun s => s)
    (fun j i s => i < n ∧ s ≤ S ∧ (i ≤ k ∨ s = 0 ∨ (i = k + 1 ∧ s ≤ j)))
    (dpV arr) (fun t s => cellValue arr t ((k + 1 : Nat) : Int) (s : Int))
    (by
      intro j x hx
      have := fromTo_get hx
      dsimp only
      exact ⟨hk, by omega⟩)
    (by
      intro j x hx i s hr
      have := fromTo_get hx
      obtain ⟨h1, h2, h3⟩ := hr
      dsimp only
      by_cases e : i = k + 1 ∧ s = x
      · exact Or.inr e
      · left
        refine ⟨h1, h2, ?_⟩
        omega)
    (by
      intro j x t hx hsh hknown
      have := fromTo_get hx
      dsimp only
      exact tab_cellValue_spec arr n S k x t hsh hk hn ha (by omega) (by omega)
        (fun u hu => hknown k u ⟨by omega, hu, Or.inl (le_refl k)⟩))
    t hs
    (by
      intro i s hr
      obtain ⟨h1, h2, h3⟩ := hr
      exact hinv i s h1 h2 (by omega))
  refine ⟨t', h1, h2, fun i s hi hsS hor => h3 i s ⟨hi, hsS, ?_⟩⟩
  rw [fromTo_length]
  omega

/-- The table of the tabulated variant holds the entries of every pass. -/
theorem tab_table_rows (arr : List Int) (S : Nat) (hne : arr ≠ [])
    (hnn : ∀ x ∈ arr, 0 ≤ x) :
    ∃ t, table arr (S : Int) = some t ∧ Shape arr.length (S + 1) t ∧
      ∀ i s, i < arr.length → s ≤ S → cell false t i s = dpV arr i s := by
  have hlen : 0 < arr.length := List.length_pos.2 hne
  have ha0 : 0 ≤ arr.getD 0 0 := hnn _ (getD_mem_or arr 0 0 hlen)
  -- for (int i = 0; i < n; i++) dp[i][0] = true;
  obtain ⟨t1, w1, s1, c1⟩ := fillRegion_spec false arr.length (S + 1) (fromTo 0 arr.length)
    (fun i => i) (fun _ => 0) (fun k i s => i < k ∨ s ≠ 0) (fun _ s => decide (s = 0))
    (fun _ _ => some true)
    (by
      intro k x hx
      have := fromTo_get hx
      dsimp only
      exact ⟨by omega, by omega⟩)
    (by
      intro k x hx i s hr
      have := fromTo_get hx
      dsimp only
      by_cases e : i = x ∧ s = 0
      · exact Or.inr e
      · left; omega)
    (by intro k x t _ _ _; rfl)
    (List.replicate arr.length (List.replicate (S + 1) false)) (shape_replicate _ _ _)
    (by
      intro i s hr
      rw [cell_replicate]
      rcases hr with h | h
      · omega
      · simp [h])
  rw [fromTo_length] at c1
  have w1' : (fromTo 0 arr.length).foldlM (fun dp (i : Nat) => wr2 dp i 0 true)
      (List.replicate arr.length (List.replicate (S + 1) false)) = some t1 := by
    rw [← w1]
    apply foldlM_congr
    intro dp i _
    simp
  have r0 : rd arr 0 = some (arr.getD 0 0) := by
    have := rd_getD arr 0 (0 : Int) hlen
    rw [Nat.cast_zero] at this
    exact this
  -- if (arr[0] <= sum) dp[0][arr[0]] = true;
  have hbase : ∀ a0 : Int, 0 ≤ a0 →
      ∃ t2, (if a0 ≤ (S : Int) then wr2 t1 0 a0 true else some t1) = some t2 ∧
        Shape arr.length (S + 1) t2 ∧
        ∀ i s, i < arr.length → s ≤ S → (i ≤ 0 ∨ s = 0) →
          cell false t2 i s = if i = 0 then baseV a0 s else true := by
    intro a0 h0
    by_cases hle : a0 ≤ (S : Int)
    · obtain ⟨t2, w2, s2, c2⟩ := wr2_cell false t1 arr.length (S + 1) 0 a0.toNat true s1 hlen
        (by omega)
      rw [Nat.cast_zero, Int.toNat_of_nonneg h0] at w2
      refine ⟨t2, by rw [if_pos hle]; exact w2, s2, fun i s hi hs hor => ?_⟩
      rw [c2 i s, c1 i s (by omega)]
      unfold baseV
      by_cases hi0 : i = 0
      · rw [if_pos hi0]
        by_cases e : s = a0.toNat
        · have : a0 = (s : Int) := by omega
          rw [if_pos ⟨hi0, e⟩]
          simp [this]
        · have : ¬ a0 = (s : Int) := by omega
          rw [if_neg (fun h => e h.2)]
          simp [this]
      · have : s = 0 := by omega
        simp [hi0, this]
    · refine ⟨t1, by rw [if_neg hle], s1, fun i s hi hs hor => ?_⟩
      rw [c1 i s (by omega)]
      unfold baseV
      by_cases hi0 : i = 0
      · have : ¬ a0 = (s : Int) := by omega
        simp [hi0, this]
      · have : s = 0 := by omega
        simp [hi0, this]
  obtain ⟨t2, w2, s2, c2⟩ := hbase _ ha0
  obtain ⟨t3, w3, s3, c3⟩ := foldlM_inv (rowLoop arr S) (fromTo 1 arr.length)
    (fun k t => Shape arr.length (S + 1) t ∧
      ∀ i s, i < arr.length → s ≤ S → (i ≤ k ∨ s = 0) → cell false t i s = dpV arr i s)
    t2 ⟨s2, by
      intro i s hi hs hor
      rw [c2 i s hi hs hor]
      by_cases hi0 : i = 0
      · rw [if_pos hi0, hi0]; rfl
      · rw [if_neg hi0]
        have : s = 0 := by omega
        rw [this, dpV_zero]⟩
    (by
      intro k ind t hk hinv
      obtain ⟨hik, hin⟩ := fromTo_get hk
      have e : ind = k + 1 := by omega
      subst e
      exact tab_rowLoop_spec arr arr.length S k t hinv.1 hin rfl
        (hnn _ (getD_mem_or arr (k + 1) 0 hin)) hinv.2)
  rw [fromTo_length] at c3
  refine ⟨t3, ?_, s3, fun i s hi hs => c3 i s hi hs (by omega)⟩
  unfold table
  dsimp only
  have e1 : ((S : Int) + 1).toNat = S + 1 := by omega
  rw [e1, w1', Option.some_bind, r0, Option.some_bind, w2, Option.some_bind, Int.toNat_natCast,
    w3]

theorem tab_isSubsetSum_spec (arr : List Int) (S : Nat) (hne : arr ≠ [])
    (hnn : ∀ x ∈ arr, 0 ≤ x) :
    isSubsetSum arr (S : Int) = some (dpV arr (arr.length - 1) S) := by
  have hlen : 0 < arr.length := List.length_pos.2 hne
  obtain ⟨t, ht, hs, hc⟩ := tab_table_rows arr S hne hnn
  unfold isSubsetSum
  dsimp only
  have e : (arr.length : Int) - 1 = ((arr.length - 1 : Nat) : Int) := by omega
  rw [if_neg (by omega), if_neg (by omega), ht, Option.some_bind, e,
    rd2_cell false t arr.length (S + 1) (arr.length - 1) S hs (by omega) (by omega),
    hc _ _ (by omega) (le_refl S)]

end SubsetSumTabulation

namespace SubsetSumSpaceOptimized2D

open CherryPickup Loops SubsetSum

/-- One pass of the two-array variant: `curr` is computed from `prev`. -/
theorem so2_rowStep_spec (arr : List Int) (S k : Nat) (hk : k + 1 < arr.length)
    (ha : 0 ≤ arr.getD (k + 1) 0) (prev : List Bool) (hl : prev.length = S + 1)
    (hprev : ∀ s, s ≤ S → prev.getD s false = dpV arr k s) :
    ∃ curr, rowStep arr S prev (k + 1) = some curr ∧ curr.length = S + 1 ∧
      ∀ s, s ≤ S → curr.getD s false = dpV arr (k + 1) s := by
  obtain ⟨c0, w0, l0, g0⟩ := wr_spec (List.replicate (S + 1) false) 0 true false (by simp)
  rw [Nat.cast_zero] at w0
  have l0' : c0.length = S + 1 := by rw [l0]; simp
  obtain ⟨c1, w1, l1, g1, g2⟩ := fillUp_spec false 1 (S + 1)
    (fun _ s => cellValue arr prev ((k + 1 : Nat) : Int) (s : Int))
    (fun s => dpV arr (k + 1) s) c0 (by omega)
    (by
      intro v s _ h1s hsS _ _
      show cellValue arr prev _ _ = some (dpV arr (k + 1) s)
      rw [dpV_succ]
      unfold cellValue stepV
      rw [rd_getD prev s false (by omega), Option.some_bind, rd_getD arr (k + 1) 0 hk,
        Option.some_bind, hprev s (by omega), if_neg (show ¬ s = 0 by omega)]
      by_cases hle : arr.getD (k + 1) 0 ≤ (s : Int)
      · have e : (s : Int) - arr.getD (k + 1) 0 =
            ((((s : Int) - arr.getD (k + 1) 0).toNat : Nat) : Int) :=
          (Int.toNat_of_nonneg (by omega)).symm
        rw [if_pos hle, if_pos hle, e, rd_getD prev _ false (by omega), Option.some_bind,
          hprev _ (by omega), ← e]
      · rw [if_neg hle, if_neg hle, Option.some_bind])
  refine ⟨c1, ?_, by rw [l1, l0'], fun s hs => ?_⟩
  · unfold rowStep
    rw [w0, Option.some_bind]
    exact w1
  · by_cases h0 : s = 0
    · rw [h0, g2 0 (Or.inl (by omega)), g0 0, if_pos rfl, dpV_zero]
    · exact g1 s (by omega) (by omega)

theorem so2_isSubsetSum_spec (arr : List Int) (S : Nat) (hne : arr ≠ [])
    (hnn : ∀ x ∈ arr, 0 ≤ x) :
    isSubsetSum arr (S : Int) = some (dpV arr (arr.length - 1) S) := by
  have hlen : 0 < arr.length := List.length_pos.2 hne
  have ha0 : 0 ≤ arr.getD 0 0 := hnn _ (getD_mem_or arr 0 0 hlen)
  obtain ⟨d1, w1, l1, g1⟩ := wr_spec (List.replicate (S + 1) false) 0 true false (by simp)
  rw [Nat.cast_zero] at w1
  have l1' : d1.length = S + 1 := by rw [l1]; simp
  have r0 : rd arr 0 = some (arr.getD 0 0) := by
    have := rd_getD arr 0 (0 : Int) hlen
    rw [Nat.cast_zero] at this
    exact this
  have hbase : ∀ a0 : Int, 0 ≤ a0 →
      ∃ d2, (if a0 ≤ (S : Int) then wr d1 a0 true else some d1) =
      some d2 ∧ d2.length = S + 1 ∧ ∀ s, s ≤ S → d2.getD s false = baseV a0 s := by
    intro a0 ha0
    have hrep : ∀ s, s ≤ S → d1.getD s false = decide (s = 0) := by
      intro s hs
      rw [g1 s]
      by_cases e : s = 0
      · simp [e]
      · rw [if_neg e]
        have hlt : s < S + 1 := by omega
        simp [List.getD_eq_getElem?_getD, List.getElem?_replicate, e, hlt]
    by_cases hle : a0 ≤ (S : Int)
    · obtain ⟨d2, w2, l2, g2⟩ := wr_spec d1 a0.toNat true false (by omega)
      rw [Int.toNat_of_nonneg ha0] at w2
      refine ⟨d2, by rw [if_pos hle]; exact w2, by omega, fun s hs => ?_⟩
      rw [g2 s, hrep s hs]
      unfold baseV
      by_cases e : s = a0.toNat
      · rw [if_pos e]
        have : a0 = (s : Int) := by omega
        simp [this]
      · rw [if_neg e]
        have : ¬ a0 = (s : Int) := by omega
        simp [this]
    · refine ⟨d1, by rw [if_neg hle], l1', fun s hs => ?_⟩
      rw [hrep s hs]
      unfold baseV
      have : ¬ a0 = (s : Int) := by omega
      simp [this]
  obtain ⟨d2, w2, l2, g2⟩ := hbase _ ha0
  obtain ⟨dp, hd, hl, hv⟩ := foldlM_inv (rowStep arr S) (fromTo 1 arr.length)
    (fun k dp => dp.length = S + 1 ∧ ∀ s, s ≤ S → dp.getD s false = dpV arr k s)
    d2 ⟨l2, g2⟩
    (by
      intro k ind dp hk hinv
      obtain ⟨hik, hin⟩ := fromTo_get hk
      have e : ind = k + 1 := by omega
      subst e
      exact so2_rowStep_spec arr S k hin (hnn _ (getD_mem_or arr (k + 1) 0 hin)) dp
        hinv.1 hinv.2)
  rw [fromTo_length] at hv
  unfold isSubsetSum
  dsimp only
  have e1 : ((S : Int) + 1).toNat = S + 1 := by omega
  rw [if_neg (by omega), if_neg (by omega), e1, w1, Option.some_bind, r0, Option.some_bind, w2,
    Option.some_bind, Int.toNat_natCast, hd, Option.some_bind, rd_getD dp S false (by omega),
    hv S (le_refl S)]

end SubsetSumSpaceOptimized2D

/-- C23, counterexample: the empty array is an array of non-negative integers,
and on it each of the five implementations returns `false` for the target sum
`0` (the guards `if(arr.empty()) return false;` and `if(n == 0) return false;`). -/
theorem sum_zero_empty_counterexample :
    (∀ x ∈ ([] : List Int), 0 ≤ x) ∧
      SubsetSumRecursive.isSubsetSum [] 0 = some false ∧
      SubsetSumMemoized.isSubsetSum [] 0 = some false ∧
      SubsetSumTabulation.isSubsetSum [] 0 = some false ∧
      SubsetSumSpaceOptimized2D.isSubsetSum [] 0 = some false ∧
      SubsetSumSpaceOptimized1D.isSubsetSum [] 0 = some false :=
  ⟨by decide, rfl, rfl, rfl, rfl, rfl⟩

/-- C23, amended: for every non-empty array `arr` of non-negative integers, each
of the five subset-sum implementations returns `true` for the target sum `0`. -/
theorem sum_zero (arr : List Int) (hne : arr ≠ []) (hnn : ∀ x ∈ arr, 0 ≤ x) :
    SubsetSumRecursive.isSubsetSum arr 0 = some true ∧
      SubsetSumMemoized.isSubsetSum arr 0 = some true ∧
      SubsetSumTabulation.isSubsetSum arr 0 = some true ∧
      SubsetSumSpaceOptimized2D.isSubsetSum arr 0 = some true ∧
      SubsetSumSpaceOptimized1D.isSubsetSum arr 0 = some true := by
  have hlen : 0 < arr.length := List.length_pos.2 hne
  have h3 := SubsetSumTabulation.tab_isSubsetSum_spec arr 0 hne hnn
  have h4 := SubsetSumSpaceOptimized2D.so2_isSubsetSum_spec arr 0 hne hnn
  have h5 := SubsetSumSpaceOptimized1D.ss_isSubsetSum_spec arr 0 hne hnn
  rw [Nat.cast_zero, SubsetSum.dpV_zero] at h3 h4 h5
  refine ⟨?_, ?_, h3, h4, h5⟩
  · unfold SubsetSumRecursive.isSubsetSum
    rw [if_neg (by omega), SubsetSumRecursive.rec_solve_zero]
  · unfold SubsetSumMemoized.isSubsetSum
    dsimp only
    rw [if_neg (by omega), if_neg (by omega), SubsetSumMemoized.memo_solve_zero,
      Option.some_bind]

theorem sum_zero_witness :
    (([0, 5, 2] : List Int) ≠ [] ∧ ∀ x ∈ ([0, 5, 2] : List Int), 0 ≤ x) ∧
      (SubsetSumRecursive.isSubsetSum [0, 5, 2] 0 = some true ∧
        SubsetSumMemoized.isSubsetSum [0, 5, 2] 0 = some true ∧
        SubsetSumTabulation.isSubsetSum [0, 5, 2] 0 = some true ∧
        SubsetSumSpaceOptimized2D.isSubsetSum [0, 5, 2] 0 = some true ∧
        SubsetSumSpaceOptimized1D.isSubsetSum [0, 5, 2] 0 = some true) :=
  ⟨⟨by decide, by decide⟩, sum_zero [0, 5, 2] (by decide) (by decide)⟩

namespace Loops

open CherryPickup

/-! ## Two loops in step -/

/-- Two loops over the same counter values whose states are related before
the loops and stay related through every iteration both succeed, with related
final states. -/
theorem foldlM_sim {α σ τ : Type} (step1 : σ → α → Option σ) (step2 : τ → α → Option τ)
    (l : List α) (Rel : σ → τ → Prop)
    (hs : ∀ x ∈ l, ∀ s t, Rel s t →
      ∃ s' t', step1 s x = some s' ∧ step2 t x = some t' ∧ Rel s' t')
    (s0 : σ) (t0 : τ) (h0 : Rel s0 t0) :
    ∃ s' t', l.foldlM step1 s0 = some s' ∧ l.foldlM step2 t0 = some t' ∧ Rel s' t' := by
  induction l generalizing s0 t0 with
  | nil => exact ⟨s0, t0, rfl, rfl, h0⟩
  | cons x xs ih =>
    obtain ⟨s1, t1, e1, e2, hr⟩ := hs x (List.mem_cons_self _ _) s0 t0 h0
    obtain ⟨s', t', f1, f2, hr'⟩ := ih (fun y hy => hs y (List.mem_cons_of_mem _ hy)) s1 t1 hr
    refine ⟨s', t', ?_, ?_, hr'⟩
    · rw [List.foldlM_cons, e1]; exact f1
    · rw [List.foldlM_cons, e2]; exact f2

/-- A write `t[a][b] = x` inside a rectangular table of integers. -/
theorem wr2_rect (t : List (List Int)) (n w a b : Nat) (x : Int) (hs : Rect n w t)
    (ha : a < n) (hb : b < w) :
    ∃ t', wr2 t (a : Int) (b : Int) x = some t' ∧ Rect n w t' ∧
      ∀ a' b', at2 t' a' b' = if a' = a ∧ b' = b then x else at2 t a' b' :=
  wr2_cell 0 t n w a b x hs ha hb

theorem rd2_rect (t : List (List Int)) (n w a b : Nat) (hs : Rect n w t)
    (ha : a < n) (hb : b < w) : rd2 t (a : Int) (b : Int) = some (at2 t a b) :=
  rd2_cell 0 t n w a b hs ha hb

theorem rect_replicate (n w : Nat) (x : Int) :
    Rect n w (List.replicate n (List.replicate w x)) := shape_replicate n w x

theorem at2_replicate (n w : Nat) (i j : Nat) (hi : i < n) (hj : j < w) (x : Int) :
    at2 (List.replicate n (List.replicate w x)) i j = x := by
  unfold at2
  simp [List.getD_eq_getElem?_getD, List.getElem?_replicate, hi, hj]

end Loops

namespace MinFallingPathRecursion

open CherryPickup Loops

theorem mfr_f_zero (mat : List (List Int)) (n c : Nat) (h : Rect n n mat) (hc : c < n) :
    f mat 0 (c : Int) = some (at2 mat 0 c) := by
  have hlen : mat.length = n := h.1
  unfold f
  rw [if_neg (by omega)]
  have := rd2_rect mat n n 0 c h (by omega) hc
  rw [Nat.cast_zero] at this
  exact this

theorem mfr_f_outside (mat : List (List Int)) (i : Nat) (j : Int)
    (hj : j < 0 ∨ j ≥ (mat.length : Int)) : f mat i j = some INT_MAX := by
  cases i with
  | zero => unfold f; rw [if_pos hj]
  | succ i => unfold f; rw [if_pos hj]

/-- One unfolding of the recursion at an inner row. -/
theorem mfr_f_succ (mat : List (List Int)) (n i c : Nat) (h : Rect n n mat) (hi : i + 1 < n)
    (hc : c < n) (v1 v2 v3 : Int) (h1 : f mat i (c : Int) = some v1)
    (h2 : f mat i ((c : Int) - 1) = some v2) (h3 : f mat i ((c : Int) + 1) = some v3) :
    f mat (i + 1) (c : Int) =
      some (if min v1 (min v2 v3) = INT_MAX then INT_MAX
        else at2 mat (i + 1) c + min v1 (min v2 v3)) := by
  have hlen : mat.length = n := h.1
  rw [f, if_neg (by omega), h1, Option.some_bind, h2, Option.some_bind, h3, Option.some_bind]
  dsimp only
  by_cases hb : min v1 (min v2 v3) = INT_MAX
  · rw [if_pos hb, if_pos hb]
  · rw [if_neg hb, if_neg hb, rd2_rect mat n n (i + 1) c h hi hc, Option.some_bind]

/-- The recursion returns a value for every row of the matrix. -/
theorem mfr_f_total (mat : List (List Int)) (n : Nat) (h : Rect n n mat) :
    ∀ i, i < n → ∀ j : Int, ∃ v, f mat i j = some v := by
  have hlen : mat.length = n := h.1
  intro i
  induction i with
  | zero =>
    intro hi j
    by_cases hj : j < 0 ∨ j ≥ (mat.length : Int)
    · exact ⟨_, mfr_f_outside mat 0 j hj⟩
    · obtain ⟨c, rfl⟩ : ∃ c : Nat, j = c := ⟨j.toNat, by omega⟩
      exact ⟨_, mfr_f_zero mat n c h (by omega)⟩
  | succ i ih =>
    intro hi j
    by_cases hj : j < 0 ∨ j ≥ (mat.length : Int)
    · exact ⟨_, mfr_f_outside mat (i + 1) j hj⟩
    · obtain ⟨c, rfl⟩ : ∃ c : Nat, j = c := ⟨j.toNat, by omega⟩
      obtain ⟨v1, h1⟩ := ih (by omega) (c : Int)
      obtain ⟨v2, h2⟩ := ih (by omega) ((c : Int) - 1)
      obtain ⟨v3, h3⟩ := ih (by omega) ((c : Int) + 1)
      exact ⟨_, mfr_f_succ mat n i c h hi (by omega) v1 v2 v3 h1 h2 h3⟩

end MinFallingPathRecursion

namespace MinFallingPathMemoization

open CherryPickup Loops MinFallingPath

/-- A call of the memoized function returns what the recursion returns and
leaves a memo table whose entries are the marker or values of the recursion:
an entry equal to the marker is computed again, with the same result. -/
theorem mfm_f_spec (mat : List (List Int)) (n : Nat) (h : Rect n n mat) :
    ∀ i, i < n → ∀ (j : Int) (dp : List (List Int)), Rect n n dp → MemoOk mat dp →
      ∃ v dp', f mat i j dp = some (v, dp') ∧ MinFallingPathRecursion.f mat i j = some v ∧
        Rect n n dp' ∧ MemoOk mat dp' := by
  have hlen : mat.length = n := h.1
  intro i
  induction i with
  | zero =>
    intro hi j dp hdp hok
    by_cases hj : j < 0 ∨ j ≥ (mat.length : Int)
    · refine ⟨INT_MAX, dp, ?_, MinFallingPathRecursion.mfr_f_outside mat 0 j hj, hdp, hok⟩
      unfold f; rw [if_pos hj]
    · obtain ⟨c, rfl⟩ : ∃ c : Nat, j = c := ⟨j.toNat, by omega⟩
      refine ⟨at2 mat 0 c, dp, ?_, MinFallingPathRecursion.mfr_f_zero mat n c h (by omega),
        hdp, hok⟩
      have := rd2_rect mat n n 0 c h (by omega) (by omega)
      rw [Nat.cast_zero] at this
      unfold f
      rw [if_neg hj, this, Option.some_bind]
  | succ i ih =>
    intro hi j dp hdp hok
    by_cases hj : j < 0 ∨ j ≥ (mat.length : Int)
    · refine ⟨INT_MAX, dp, ?_, MinFallingPathRecursion.mfr_f_outside mat (i + 1) j hj, hdp, hok⟩
      unfold f; rw [if_pos hj]
    · obtain ⟨c, rfl⟩ : ∃ c : Nat, j = c := ⟨j.toNat, by omega⟩
      have hc : c < n := by omega
      have hread := rd2_rect dp n n (i + 1) c hdp hi hc
      by_cases hm : at2 dp (i + 1) c ≠ INT_MAX
      · refine ⟨at2 dp (i + 1) c, dp, ?_, ?_, hdp, hok⟩
        · rw [f, if_neg hj, hread, Option.some_bind, if_pos hm]
        · rcases hok (i + 1) c (by omega) (by omega) with e | e
          · exact absurd e hm
          · exact e
      · obtain ⟨v1, d1, m1, r1, s1, k1⟩ := ih (by omega) (c : Int) dp hdp hok
        obtain ⟨v2, d2, m2, r2, s2, k2⟩ := ih (by omega) ((c : Int) - 1) d1 s1 k1
        obtain ⟨v3, d3, m3, r3, s3, k3⟩ := ih (by omega) ((c : Int) + 1) d2 s2 k2
        have hrec := MinFallingPathRecursion.mfr_f_succ mat n i c h hi hc v1 v2 v3 r1 r2 r3
        obtain ⟨d4, w4, s4, g4⟩ := wr2_rect d3 n n (i + 1) c
          (if min v1 (min v2 v3) = INT_MAX then INT_MAX
            else at2 mat (i + 1) c + min v1 (min v2 v3)) s3 hi hc
        refine ⟨_, d4, ?_, hrec, s4, ?_⟩
        · rw [f, if_neg hj, hread, Option.some_bind, if_neg hm, m1, Option.some_bind, m2,
            Option.some_bind, m3, Option.some_bind]
          dsimp only
          by_cases hb : min v1 (min v2 v3) = INT_MAX
          · rw [if_pos hb] at w4 ⊢
            rw [if_pos hb, w4, Option.some_bind]
          · rw [if_neg hb] at w4 ⊢
            rw [if_neg hb, rd2_rect mat n n (i + 1) c h hi hc, Option.some_bind, w4,
              Option.some_bind]
        · intro i' j' hi' hj'
          rw [g4 i' j']
          by_cases e : i' = i + 1 ∧ j' = c
          · rw [if_pos e, e.1, e.2]
            exact Or.inr hrec
          · rw [if_neg e]
            exact k3 i' j' hi' hj'

end MinFallingPathMemoization

/-- C24: for every `n × n` integer matrix,
`MinFallingPathMemoization::minFallingPathSum(mat)` returns the value that
`MinFallingPathRecursion::minFallingPathSum(mat)` returns.  A cell whose
computed value is `INT_MAX`, the marker of the memo table for "not computed",
is computed again at every visit, with the same result.  Integers of the
embedding are unbounded. -/
theorem memoization_eq_recursion (n : Nat) (mat : List (List Int))
    (h : CherryPickup.Rect n n mat) :
    ∃ v, MinFallingPathMemoization.minFallingPathSum mat = some v ∧
      MinFallingPathRecursion.minFallingPathSum mat = some v := by
  have hlen : mat.length = n := h.1
  obtain ⟨st, a, h1, h2, hr⟩ := Loops.foldlM_sim
    (fun (st : Int × List (List Int)) (j : Nat) =>
      (MinFallingPathMemoization.f mat (mat.length - 1) j st.2).bind fun r =>
        some (min st.1 r.1, r.2))
    (fun ans (j : Nat) =>
      (MinFallingPathRecursion.f mat (mat.length - 1) j).bind fun v => some (min ans v))
    (Loops.fromTo 0 mat.length)
    (fun st a => st.1 = a ∧ CherryPickup.Rect n n st.2 ∧ MinFallingPath.MemoOk mat st.2)
    (by
      intro x hx st a hrel
      have hxn := (NinjaTraining.mem_fromTo.1 hx).2
      obtain ⟨v, dp', m1, r1, s1, k1⟩ := MinFallingPathMemoization.mfm_f_spec mat n h
        (mat.length - 1) (by omega) (x : Int) st.2 hrel.2.1 hrel.2.2
      refine ⟨(min st.1 v, dp'), min a v, ?_, ?_, ?_, s1, k1⟩
      · dsimp only
        rw [m1, Option.some_bind]
      · dsimp only
        rw [r1, Option.some_bind]
      · rw [hrel.1])
    (Loops.INT_MAX, List.replicate mat.length (List.replicate mat.length Loops.INT_MAX))
    Loops.INT_MAX
    ⟨rfl, by rw [hlen]; exact Loops.rect_replicate n n _, by
      intro i j hi hj
      left
      exact Loops.at2_replicate _ _ i j hi hj _⟩
  refine ⟨a, ?_, h2⟩
  unfold MinFallingPathMemoization.minFallingPathSum
  dsimp only
  rw [h1, Option.some_bind, hr.1]

theorem memoization_eq_recursion_witness :
    CherryPickup.Rect 2 2 [[2147483646, 2147483646], [1, 1]] ∧
      (∃ v, MinFallingPathMemoization.minFallingPathSum [[2147483646, 2147483646], [1, 1]] =
          some v ∧
        MinFallingPathRecursion.minFallingPathSum [[2147483646, 2147483646], [1, 1]] = some v) ∧
      MinFallingPathRecursion.f [[2147483646, 2147483646], [1, 1]] 1 0 = some Loops.INT_MAX :=
  ⟨by decide, memoization_eq_recursion 2 [[2147483646, 2147483646], [1, 1]] (by decide),
    by decide⟩

namespace Loops

open CherryPickup

theorem rd2_rect_col0 (t : List (List Int)) (n w a : Nat) (hs : Rect n w t)
    (ha : a < n) (hw : 0 < w) : rd2 t (a : Int) 0 = some (at2 t a 0) := by
  have := rd2_rect t n w a 0 hs ha hw
  rw [Nat.cast_zero] at this
  exact this

theorem rd2_rect_row0 (t : List (List Int)) (n w b : Nat) (hs : Rect n w t)
    (hn : 0 < n) (hb : b < w) : rd2 t 0 (b : Int) = some (at2 t 0 b) := by
  have := rd2_rect t n w 0 b hs hn hb
  rw [Nat.cast_zero] at this
  exact this

end Loops

namespace MinPathSum

open CherryPickup Loops

/-! ## Minimum Path Sum: recursion and tabulation -/

theorem minCost_zero_zero (grid : List (List Int)) : minCost grid 0 0 = at2 grid 0 0 := rfl

theorem minCost_zero_succ (grid : List (List Int)) (j : Nat) :
    minCost grid 0 (j + 1) = at2 grid 0 (j + 1) + minCost grid 0 j := rfl

theorem minCost_succ_zero (grid : List (List Int)) (i : Nat) :
    minCost grid (i + 1) 0 = at2 grid (i + 1) 0 + minCost grid i 0 := rfl

theorem minCost_succ_succ (grid : List (List Int)) (i j : Nat) :
    minCost grid (i + 1) (j + 1) =
      at2 grid (i + 1) (j + 1) + min (minCost grid i (j + 1)) (minCost grid (i + 1) j) := rfl

theorem sum_take_succ (l : List Int) (k : Nat) :
    (l.take (k + 1)).sum = (l.take k).sum + l.getD k 0 := by
  rw [List.take_succ, List.sum_append, List.getD_eq_getElem?_getD]
  cases l[k]? <;> simp

theorem sum_take_le (l : List Int) (hnn : ∀ x ∈ l, 0 ≤ x) (k : Nat) :
    (l.take k).sum ≤ l.sum := by
  have h1 := List.sum_take_add_sum_drop l k
  have h2 : 0 ≤ (l.drop k).sum :=
    List.sum_nonneg (fun x hx => hnn x (List.mem_of_mem_drop hx))
  omega

theorem rows_take_succ (g : List (List Int)) (k : Nat) :
    ((g.take (k + 1)).map List.sum).sum =
      ((g.take k).map List.sum).sum + (g.getD k []).sum := by
  rw [List.take_succ, List.map_append, List.sum_append, List.getD_eq_getElem?_getD]
  cases g[k]? <;> simp

theorem rows_take_le (g : List (List Int)) (hnn : NonNeg g) (k : Nat) :
    ((g.take k).map List.sum).sum ≤ gridSum g := by
  unfold gridSum
  rw [List.map_take]
  apply sum_take_le
  intro x hx
  obtain ⟨row, hr, rfl⟩ := List.mem_map.1 hx
  exact List.sum_nonneg (hnn row hr)

theorem row_nonneg (g : List (List Int)) (hnn : NonNeg g) (i : Nat) :
    ∀ x ∈ g.getD i [], 0 ≤ x := by
  by_cases hi : i < g.length
  · exact hnn _ (getD_mem_or g i [] hi)
  · rw [List.getD_eq_getElem?_getD, List.getElem?_eq_none (by omega)]
    intro x hx
    cases hx

/-- The value stored for a cell is at most the sum of the rows above it and of
its own row up to its column: the cost of the path along the first column and
then along the row. -/
theorem minCost_le_rows (grid : List (List Int)) (hnn : NonNeg grid) :
    ∀ i j, minCost grid i j ≤
      ((grid.take i).map List.sum).sum + ((grid.getD i []).take (j + 1)).sum := by
  intro i
  induction i with
  | zero =>
    intro j
    induction j with
    | zero =>
      rw [minCost_zero_zero, sum_take_succ]
      simp [at2]
    | succ j ihj =>
      rw [minCost_zero_succ, sum_take_succ _ (j + 1)]
      unfold at2
      omega
  | succ i ih =>
    intro j
    induction j with
    | zero =>
      have h1 := ih 0
      have h2 := sum_take_le (grid.getD i []) (row_nonneg grid hnn i) (0 + 1)
      rw [minCost_succ_zero, rows_take_succ, sum_take_succ _ 0]
      simp only [List.take_zero, List.sum_nil]
      unfold at2
      omega
    | succ j ihj =>
      have h1 := min_le_right (minCost grid i (j + 1)) (minCost grid (i + 1) j)
      rw [minCost_succ_succ, sum_take_succ _ (j + 1)]
      unfold at2
      omega

theorem minCost_le_gridSum (grid : List (List Int)) (hnn : NonNeg grid) (i j : Nat) :
    minCost grid i j ≤ gridSum grid := by
  have h1 := minCost_le_rows grid hnn i j
  have h2 := sum_take_le (grid.getD i []) (row_nonneg grid hnn i) (j + 1)
  have h3 := rows_take_le grid hnn (i + 1)
  rw [rows_take_succ] at h3
  omega

end MinPathSum

namespace MinPathSumTabulation

open CherryPickup Loops MinPathSum

/-- On a rectangular grid the tabulated variant returns the value stored for
the cell `(n - 1, m - 1)`. -/
theorem mpt_minPathSum_spec (n m : Nat) (grid : List (List Int)) (h : Rect n m grid)
    (hn : 1 ≤ n) (hm : 1 ≤ m) :
    minPathSum grid = some (minCost grid (n - 1) (m - 1)) := by
  obtain ⟨row0, rest, hg, hm0, hlen⟩ := rect_cons h hn
  have hgl : grid.length = n := h.1
  have r00 : rd2 grid 0 0 = some (at2 grid 0 0) := rd2_rect_col0 grid n m 0 h (by omega) hm
  -- dp[0][0] = grid[0][0];
  obtain ⟨d1, w1, s1, c1⟩ := wr2_rect (List.replicate n (List.replicate m 0)) n m 0 0
    (at2 grid 0 0) (rect_replicate n m 0) (by omega) (by omega)
  rw [Nat.cast_zero] at w1
  -- first column
  obtain ⟨d2, w2, s2, c2⟩ := fillRegion_spec (0 : Int) n m (fromTo 1 n)
    (fun i => i) (fun _ => 0) (fun k i j => j = 0 ∧ i ≤ k) (minCost grid)
    (fun t i => firstColumnValue grid t (i : Int))
    (by
      intro k x hx
      have := fromTo_get hx
      dsimp only
      exact ⟨by omega, by omega⟩)
    (by
      intro k x hx i j hr
      have := fromTo_get hx
      dsimp only
      by_cases e : i = x ∧ j = 0
      · exact Or.inr e
      · left; omega)
    (by
      intro k x t hx hsh hknown
      obtain ⟨hxk, hxn⟩ := fromTo_get hx
      have e : x = k + 1 := by omega
      subst e
      have hprev : at2 t k 0 = minCost grid k 0 := hknown k 0 ⟨rfl, le_refl k⟩
      have e0 : ((k + 1 : Nat) : Int) - 1 = (k : Int) := by omega
      show firstColumnValue grid t ((k + 1 : Nat) : Int) = some (minCost grid (k + 1) 0)
      unfold firstColumnValue
      rw [rd2_rect_col0 grid n m (k + 1) h hxn hm, Option.some_bind, e0,
        rd2_rect_col0 t n m k hsh (by omega) hm, Option.some_bind, hprev, minCost_succ_zero])
    d1 s1
    (by
      intro i j hr
      have e : i = 0 ∧ j = 0 := by omega
      show at2 d1 i j = _
      rw [c1 i j, if_pos e, e.1, e.2, minCost_zero_zero])
  rw [fromTo_length] at c2
  have w2' : firstColumn grid n d1 = some d2 := by
    unfold firstColumn
    rw [← w2]
    apply foldlM_congr
    intro dp i _
    rfl
  -- first row
  obtain ⟨d3, w3, s3, c3⟩ := fillRegion_spec (0 : Int) n m (fromTo 1 m)
    (fun _ => 0) (fun j => j) (fun k i j => (j = 0 ∧ i ≤ n - 1) ∨ (i = 0 ∧ j ≤ k))
    (minCost grid) (fun t j => firstRowValue grid t (j : Int))
    (by
      intro k x hx
      have := fromTo_get hx
      dsimp only
      exact ⟨by omega, by omega⟩)
    (by
      intro k x hx i j hr
      have := fromTo_get hx
      dsimp only
      by_cases e : i = 0 ∧ j = x
      · exact Or.inr e
      · left; omega)
    (by
      intro k x t hx hsh hknown
      obtain ⟨hxk, hxn⟩ := fromTo_get hx
      have e : x = k + 1 := by omega
      subst e
      have hprev : at2 t 0 k = minCost grid 0 k := hknown 0 k (Or.inr ⟨rfl, le_refl k⟩)
      have e0 : ((k + 1 : Nat) : Int) - 1 = (k : Int) := by omega
      show firstRowValue grid t ((k + 1 : Nat) : Int) = some (minCost grid 0 (k + 1))
      unfold firstRowValue
      rw [rd2_rect_row0 grid n m (k + 1) h (by omega) hxn, Option.some_bind, e0,
        rd2_rect_row0 t n m k hsh (by omega) (by omega), Option.some_bind, hprev,
        minCost_zero_succ])
    d2 s2
    (by
      intro i j hr
      exact c2 i j (by omega))
  rw [fromTo_length] at c3
  have w3' : firstRow grid m d2 = some d3 := by
    unfold firstRow
    rw [← w3]
    apply foldlM_congr
    intro dp j _
    rfl
  -- remaining cells
  obtain ⟨d4, w4, s4, c4⟩ := foldlM_inv (rowLoop grid m) (fromTo 1 n)
    (fun k t => Rect n m t ∧
      ∀ i j, (j = 0 ∧ i ≤ n - 1) ∨ (i ≤ k ∧ j ≤ m - 1) → at2 t i j = minCost grid i j)
    d3 ⟨s3, fun i j hr => c3 i j (by omega)⟩
    (by
      intro k x t hx hinv
      obtain ⟨hxk, hxn⟩ := fromTo_get hx
      have e : x = k + 1 := by omega
      subst e
      obtain ⟨t', h1, h2, h3⟩ := fillRegion_spec (0 : Int) n m (fromTo 1 m)
        (fun _ => k + 1) (fun j => j)
        (fun k' i j => (j = 0 ∧ i ≤ n - 1) ∨ (i ≤ k ∧ j ≤ m - 1) ∨ (i = k + 1 ∧ j ≤ k'))
        (minCost grid) (fun t j => cellValue grid t ((k + 1 : Nat) : Int) (j : Int))
        (by
          intro k' y hy
          have := fromTo_get hy
          dsimp only
          exact ⟨hxn, by omega⟩)
        (by
          intro k' y hy i j hr
          have := fromTo_get hy
          dsimp only
          by_cases e : i = k + 1 ∧ j = y
          · exact Or.inr e
          · left; omega)
        (by
          intro k' y t hy hsh hknown
          obtain ⟨hyk, hym⟩ := fromTo_get hy
          have e : y = k' + 1 := by omega
          subst e
          have hup : at2 t k (k' + 1) = minCost grid k (k' + 1) :=
            hknown k (k' + 1) (Or.inr (Or.inl ⟨le_refl k, by omega⟩))
          have hleft : at2 t (k + 1) k' = minCost grid (k + 1) k' :=
            hknown (k + 1) k' (Or.inr (Or.inr ⟨rfl, le_refl k'⟩))
          have e0 : ((k + 1 : Nat) : Int) - 1 = (k : Int) := by omega
          have e1 : ((k' + 1 : Nat) : Int) - 1 = (k' : Int) := by omega
          show cellValue grid t ((k + 1 : Nat) : Int) ((k' + 1 : Nat) : Int) =
            some (minCost grid (k + 1) (k' + 1))
          unfold cellValue
          rw [rd2_rect grid n m (k + 1) (k' + 1) h hxn hym, Option.some_bind, e0,
            rd2_rect t n m k (k' + 1) hsh (by omega) hym, Option.some_bind, e1,
            rd2_rect t n m (k + 1) k' hsh hxn (by omega), Option.some_bind, hup, hleft,
            minCost_succ_succ])
        t hinv.1
        (by
          intro i j hr
          exact hinv.2 i j (by omega))
      rw [fromTo_length] at h3
      exact ⟨t', h1, h2, fun i j hr => h3 i j (by omega)⟩)
  rw [fromTo_length] at c4
  unfold minPathSum
  rw [hg, rd_zero_cons, Option.some_bind]
  dsimp only
  have e : (m : Int) - 1 = ((m - 1 : Nat) : Int) := by omega
  have e' : (n : Int) - 1 = ((n - 1 : Nat) : Int) := by omega
  rw [← hg, hgl, hm0, r00, Option.some_bind, w1, Option.some_bind, w2', Option.some_bind, w3',
    Option.some_bind, w4, Option.some_bind, e, e',
    rd2_rect d4 n m (n - 1) (m - 1) s4 (by omega) (by omega),
    c4 (n - 1) (m - 1) (Or.inr ⟨le_refl _, le_refl _⟩)]

end MinPathSumTabulation

namespace MinPathSumRecursion

open CherryPickup Loops MinPathSum

theorem mpr_f_outside (grid : List (List Int)) (i j : Int) (h0 : ¬ (i = 0 ∧ j = 0))
    (h1 : i < 0 ∨ j < 0) : f grid i j = some (INT_MAX, []) := by
  rw [f, dif_neg h0, dif_pos h1]

/-- One unfolding of the recursion at a cell of the grid other than `(0, 0)`
whose `best` is not `INT_MAX`. -/
theorem mpr_f_step (grid : List (List Int)) (n m i j : Nat) (h : Rect n m grid) (hi : i < n)
    (hj : j < m) (hij : ¬ (i = 0 ∧ j = 0)) (top left : Int × List (Int × Int))
    (ht : f grid ((i : Int) - 1) (j : Int) = some top)
    (hl : f grid (i : Int) ((j : Int) - 1) = some left)
    (hbest : min top.1 left.1 ≠ INT_MAX) :
    f grid (i : Int) (j : Int) =
      some (at2 grid i j + min top.1 left.1,
        top.2 ++ left.2 ++ [(at2 grid i j, min top.1 left.1)]) := by
  rw [f, dif_neg (by omega), dif_neg (by omega), ht, Option.some_bind, hl, Option.some_bind]
  dsimp only
  rw [if_neg hbest, rd2_rect grid n m i j h hi hj, Option.some_bind]

/-- On a grid whose stored values stay below `INT_MAX` the recursion returns
the stored value of every cell, and no addition it evaluates has `INT_MAX` as
its second operand. -/
theorem mpr_f_spec (grid : List (List Int)) (n m : Nat) (h : Rect n m grid)
    (hb : ∀ i j, i < n → j < m → minCost grid i j < INT_MAX) :
    ∀ i, i < n → ∀ j, j < m →
      ∃ log, f grid (i : Int) (j : Int) = some (minCost grid i j, log) ∧
        ∀ p ∈ log, p.2 ≠ INT_MAX := by
  intro i
  induction i with
  | zero =>
    intro hi j
    induction j with
    | zero =>
      intro hj
      have r00 : rd2 grid 0 0 = some (at2 grid 0 0) := rd2_rect_col0 grid n m 0 h hi hj
      refine ⟨[], ?_, fun p hp => by cases hp⟩
      rw [f, dif_pos ⟨by omega, by omega⟩, r00, Option.some_bind, minCost_zero_zero]
    | succ j ihj =>
      intro hj
      obtain ⟨log, hl, hlog⟩ := ihj (by omega)
      have e1 : ((j + 1 : Nat) : Int) - 1 = (j : Int) := by omega
      have hlt := hb 0 j hi (by omega)
      have hmin : min INT_MAX (minCost grid 0 j) = minCost grid 0 j := min_eq_right (by omega)
      have hstep := mpr_f_step grid n m 0 (j + 1) h hi hj (by omega) (INT_MAX, [])
        (minCost grid 0 j, log) (mpr_f_outside grid _ _ (by omega) (by omega))
        (by rw [e1]; exact hl) (by dsimp only; rw [hmin]; omega)
      dsimp only at hstep
      rw [hmin] at hstep
      refine ⟨_, hstep, fun p hp => ?_⟩
      simp only [List.nil_append, List.mem_append, List.mem_singleton] at hp
      rcases hp with hp | hp
      · exact hlog p hp
      · rw [hp]; dsimp only; omega
  | succ i ih =>
    intro hi j
    induction j with
    | zero =>
      intro hj
      obtain ⟨log, hl, hlog⟩ := ih (by omega) 0 hj
      have e1 : ((i + 1 : Nat) : Int) - 1 = (i : Int) := by omega
      have hlt := hb i 0 (by omega) hj
      have hmin : min (minCost grid i 0) INT_MAX = minCost grid i 0 := min_eq_left (by omega)
      have hstep := mpr_f_step grid n m (i + 1) 0 h hi hj (by omega) (minCost grid i 0, log)
        (INT_MAX, []) (by rw [e1]; exact hl)
        (mpr_f_outside grid _ _ (by omega) (by omega)) (by dsimp only; rw [hmin]; omega)
      dsimp only at hstep
      rw [hmin] at hstep
      refine ⟨_, hstep, fun p hp => ?_⟩
      simp only [List.append_nil, List.mem_append, List.mem_singleton] at hp
      rcases hp with hp | hp
      · exact hlog p hp
      · rw [hp]; dsimp only; omega
    | succ j ihj =>
      intro hj
      obtain ⟨log1, hl1, hlog1⟩ := ih (by omega) (j + 1) hj
      obtain ⟨log2, hl2, hlog2⟩ := ihj (by omega)
      have e1 : ((i + 1 : Nat) : Int) - 1 = (i : Int) := by omega
      have e2 : ((j + 1 : Nat) : Int) - 1 = (j : Int) := by omega
      have hlt := hb i (j + 1) (by omega) hj
      have hne : min (minCost grid i (j + 1)) (minCost grid (i + 1) j) ≠ INT_MAX := by
        have := min_le_left (minCost grid i (j + 1)) (minCost grid (i + 1) j)
        omega
      have hstep := mpr_f_step grid n m (i + 1) (j + 1) h hi hj (by omega)
        (minCost grid i (j + 1), log1) (minCost grid (i + 1) j, log2)
        (by rw [e1]; exact hl1) (by rw [e2]; exact hl2) hne
      dsimp only at hstep
      refine ⟨_, hstep, fun p hp => ?_⟩
      simp only [List.mem_append, List.mem_singleton] at hp
      rcases hp with (hp | hp) | hp
      · exact hlog1 p hp
      · exact hlog2 p hp
      · rw [hp]; exact hne

end MinPathSumRecursion

/-- C26: on every rectangular grid with `n, m ≥ 1` of non-negative costs whose
total sum is below `INT_MAX`, `MinPathSumRecursion::minPathSum(grid)` returns
the value that `MinPathSumTabulation::minPathSum(grid)` returns, and in every
addition `grid[i][j] + best` that the recursion evaluates the operand `best`
differs from `INT_MAX`. -/
theorem recursion_eq_tabulation (n m : Nat) (grid : List (List Int))
    (h : CherryPickup.Rect n m grid) (hn : 1 ≤ n) (hm : 1 ≤ m)
    (hnn : CherryPickup.NonNeg grid) (hsum : MinPathSum.gridSum grid < Loops.INT_MAX) :
    ∃ v log, MinPathSumRecursion.f grid ((n : Int) - 1) ((m : Int) - 1) = some (v, log) ∧
      MinPathSumRecursion.minPathSum grid = some v ∧
      MinPathSumTabulation.minPathSum grid = some v ∧
      ∀ p ∈ log, p.2 ≠ Loops.INT_MAX := by
  obtain ⟨row0, rest, hg, hm0, hlen⟩ := CherryPickup.rect_cons h hn
  have hgl : grid.length = n := h.1
  have e : (m : Int) - 1 = ((m - 1 : Nat) : Int) := by omega
  have e' : (n : Int) - 1 = ((n - 1 : Nat) : Int) := by omega
  obtain ⟨log, hf, hlog⟩ := MinPathSumRecursion.mpr_f_spec grid n m h
    (fun i j _ _ => lt_of_le_of_lt (MinPathSum.minCost_le_gridSum grid hnn i j) hsum)
    (n - 1) (by omega) (m - 1) (by omega)
  refine ⟨_, log, by rw [e, e']; exact hf, ?_,
    MinPathSumTabulation.mpt_minPathSum_spec n m grid h hn hm, hlog⟩
  unfold MinPathSumRecursion.minPathSum
  rw [hg, CherryPickup.rd_zero_cons, Option.some_bind]
  dsimp only
  rw [← hg, hgl, hm0, e, e', hf, Option.some_bind]

theorem recursion_eq_tabulation_witness :
    (CherryPickup.Rect 3 3 [[1, 3, 1], [1, 5, 1], [4, 2, 1]] ∧
        CherryPickup.NonNeg [[1, 3, 1], [1, 5, 1], [4, 2, 1]] ∧
        MinPathSum.gridSum [[1, 3, 1], [1, 5, 1], [4, 2, 1]] < Loops.INT_MAX) ∧
      ∃ v log, MinPathSumRecursion.f [[1, 3, 1], [1, 5, 1], [4, 2, 1]] (((3 : Nat) : Int) - 1)
          (((3 : Nat) : Int) - 1) = some (v, log) ∧
        MinPathSumRecursion.minPathSum [[1, 3, 1], [1, 5, 1], [4, 2, 1]] = some v ∧
        MinPathSumTabulation.minPathSum [[1, 3, 1], [1, 5, 1], [4, 2, 1]] = some v ∧
        ∀ p ∈ log, p.2 ≠ Loops.INT_MAX :=
  ⟨⟨by decide, by decide, by decide⟩,
    recursion_eq_tabulation 3 3 [[1, 3, 1], [1, 5, 1], [4, 2, 1]] (by decide) (by decide)
      (by decide) (by decide) (by decide)⟩

namespace NinjaTraining

open CherryPickup Loops

/-! ## Ninja Training: recursion and tabulation -/

theorem fromTo_03 : fromTo 0 3 = [0, 1, 2] := rfl

/-- With non-negative points for the tasks `0` and `1` of day `0` the fold
started at `0` is the plain maximum over the tasks different from `last`. -/
theorem recV_zero (p : Nat → Int) (h0 : 0 ≤ p 0) (h1 : 0 ≤ p 1) (last : Nat)
    (hl : last ≤ 3) : stepFrom p (fun _ => 0) last 0 = baseV p last := by
  have h3 : last = 0 ∨ last = 1 ∨ last = 2 ∨ last = 3 := by omega
  unfold stepFrom baseV
  rw [fromTo_03]
  rcases h3 with e | e | e | e <;> subst e <;> simp <;> omega

/-- When the points of day `0` are non-negative the recursion and the loops
store the same value for every `(day, last)`. -/
theorem recV_eq_ninjaV (points : List (List Int)) (h0 : 0 ≤ at2 points 0 0)
    (h1 : 0 ≤ at2 points 0 1) :
    ∀ d last, last ≤ 3 → recV points d last = ninjaV points d last := by
  intro d
  induction d with
  | zero =>
    intro last hl
    exact recV_zero (at2 points 0) h0 h1 last hl
  | succ d ih =>
    intro last _
    show stepFrom (at2 points (d + 1)) (recV points d) last 0 =
      stepFrom (at2 points (d + 1)) (ninjaV points d) last 0
    exact stepFrom_congr _ _ _ _ _ (fun t ht => ih t (by omega))

end NinjaTraining

namespace NinjaTrainingRecursion

open CherryPickup Loops NinjaTraining

/-- The recursion returns a value for every day of the table. -/
theorem nin_rec_f_value (points : List (List Int)) (n : Nat) (h : Rect n 3 points) :
    ∀ d, d < n → ∀ last : Nat, f points d (last : Int) = some (recV points d last) := by
  intro d
  induction d with
  | zero =>
    intro hd last
    unfold f
    show _ = some (stepFrom (at2 points 0) (fun _ => 0) last 0)
    unfold stepFrom
    apply foldlM_some
    intro res task ht
    have ht3 := (mem_fromTo.1 ht).2
    by_cases e : task = last
    · rw [if_neg (by rw [e]; exact fun hh => hh rfl), if_neg (fun hh => hh e)]
    · rw [if_pos (by omega), if_pos e, rd2_rect_row0 points n 3 task h hd ht3,
        Option.some_bind, add_zero]
  | succ d ih =>
    intro hd last
    unfold f
    show _ = some (stepFrom (at2 points (d + 1)) (recV points d) last 0)
    unfold stepFrom
    apply foldlM_some
    intro res task ht
    have ht3 := (mem_fromTo.1 ht).2
    by_cases e : task = last
    · rw [if_neg (by rw [e]; exact fun hh => hh rfl), if_neg (fun hh => hh e)]
    · rw [if_pos (by omega), if_pos e, rd2_rect points n 3 (d + 1) task h hd ht3,
        Option.some_bind, ih (by omega) task, Option.some_bind]

theorem nin_rec_ninjaTraining_value (points : List (List Int)) (n : Nat) (h : Rect n 3 points)
    (hn : 1 ≤ n) : ninjaTraining points = some (recV points (n - 1) 3) := by
  have hgl : points.length = n := h.1
  have := nin_rec_f_value points n h (n - 1) (by omega) 3
  rw [Nat.cast_ofNat] at this
  unfold ninjaTraining
  dsimp only
  rw [if_neg (by omega), hgl]
  exact this

end NinjaTrainingRecursion

namespace NinjaTrainingTabulation

open CherryPickup Loops NinjaTraining

/-- The statements for day `0` fill `dp[0]`. -/
theorem tab_baseRow_spec (points : List (List Int)) (n : Nat) (h : Rect n 3 points)
    (hn : 1 ≤ n) (dp : List (List Int)) (hp : Rect n 4 dp) :
    ∃ dp', baseRow points dp = some dp' ∧ Rect n 4 dp' ∧
      ∀ last, last ≤ 3 → at2 dp' 0 last = baseV (at2 points 0) last := by
  have hR : ∀ j : Nat, j < 3 → rd2 points 0 (j : Int) = some (at2 points 0 j) :=
    fun j hj => rd2_rect_row0 points n 3 j h (by omega) hj
  have r0 := hR 0 (by omega)
  have r1 := hR 1 (by omega)
  have r2 := hR 2 (by omega)
  simp only [Nat.cast_zero, Nat.cast_one, Nat.cast_ofNat] at r0 r1 r2
  obtain ⟨p1, w1, l1, g1⟩ := wr2_rect dp n 4 0 0 (max (at2 points 0 1) (at2 points 0 2)) hp
    (by omega) (by omega)
  obtain ⟨p2, w2, l2, g2⟩ := wr2_rect p1 n 4 0 1 (max (at2 points 0 0) (at2 points 0 2)) l1
    (by omega) (by omega)
  obtain ⟨p3, w3, l3, g3⟩ := wr2_rect p2 n 4 0 2 (max (at2 points 0 0) (at2 points 0 1)) l2
    (by omega) (by omega)
  obtain ⟨p4, w4, l4, g4⟩ := wr2_rect p3 n 4 0 3
    (max (max (at2 points 0 0) (at2 points 0 1)) (at2 points 0 2)) l3 (by omega) (by omega)
  simp only [Nat.cast_zero, Nat.cast_one, Nat.cast_ofNat] at w1 w2 w3 w4
  refine ⟨p4, ?_, l4, ?_⟩
  · unfold baseRow
    simp only [r0, r1, r2, Option.some_bind, w1, w2, w3, w4]
  · intro last hl
    have h3 : last = 0 ∨ last = 1 ∨ last = 2 ∨ last = 3 := by omega
    rcases h3 with e | e | e | e <;> subst e <;> simp only [g4, g3, g2, g1, baseV] <;>
      norm_num

/-- The loop over `task` changes `dp[d + 1][last]` only, to the value of
`stepFrom` over the entries of row `d`. -/
theorem tab_taskLoop_spec (points : List (List Int)) (n d last : Nat)
    (h : Rect n 3 points) (hd : d + 1 < n) (hl : last ≤ 3) (dp : List (List Int))
    (hp : Rect n 4 dp) :
    ∃ dp', taskLoop points ((d + 1 : Nat) : Int) (last : Int) dp = some dp' ∧ Rect n 4 dp' ∧
      ∀ i j, at2 dp' i j = if i = d + 1 ∧ j = last
        then stepFrom (at2 points (d + 1)) (at2 dp d) last (at2 dp (d + 1) last)
        else at2 dp i j := by
  obtain ⟨v', h1, h2, h3⟩ := foldlM_inv
    (fun dp (task : Nat) =>
      if (task : Int) ≠ (last : Int) then
        taskBody points ((d + 1 : Nat) : Int) (last : Int) task dp
      else some dp)
    (fromTo 0 3)
    (fun k v => Rect n 4 v ∧ ∀ i j, at2 v i j = if i = d + 1 ∧ j = last
        then ((fromTo 0 3).take k).foldl
          (fun r task => if task ≠ last then max r (at2 points (d + 1) task + at2 dp d task)
            else r) (at2 dp (d + 1) last)
        else at2 dp i j)
    dp ⟨hp, fun i j => by
      by_cases e : i = d + 1 ∧ j = last
      · rw [if_pos e, e.1, e.2]; rfl
      · rw [if_neg e]⟩
    (by
      intro k task v hk hinv
      obtain ⟨hvl, hvg⟩ := hinv
      have htake : (fromTo 0 3).take (k + 1) = (fromTo 0 3).take k ++ [task] := by
        rw [List.take_succ, hk]; rfl
      obtain ⟨_, htk⟩ := fromTo_get hk
      by_cases hne : task = last
      · refine ⟨v, by dsimp only; rw [if_neg (by rw [hne]; exact fun hh => hh rfl)], hvl,
          fun i j => ?_⟩
        rw [hvg i j, htake, List.foldl_append]
        by_cases e : i = d + 1 ∧ j = last
        · rw [if_pos e, if_pos e]
          simp [hne]
        · rw [if_neg e, if_neg e]
      · have e0 : ((d + 1 : Nat) : Int) - 1 = (d : Int) := by omega
        obtain ⟨c', hw, hl', hg⟩ := wr2_rect v n 4 (d + 1) last
          (max (at2 v (d + 1) last) (at2 points (d + 1) task + at2 v d task)) hvl hd (by omega)
        have hb : taskBody points ((d + 1 : Nat) : Int) (last : Int) task v = some c' := by
          unfold taskBody
          rw [rd2_rect points n 3 (d + 1) task h hd htk, Option.some_bind, e0,
            rd2_rect v n 4 d task hvl (by omega) (by omega), Option.some_bind,
            rd2_rect v n 4 (d + 1) last hvl hd (by omega), Option.some_bind, hw]
        refine ⟨c', by dsimp only; rw [if_pos (by omega)]; exact hb, hl', fun i j => ?_⟩
        have hrow : at2 v d task = at2 dp d task := by
          rw [hvg d task, if_neg (by omega)]
        rw [hg i j, htake, List.foldl_append]
        by_cases e : i = d + 1 ∧ j = last
        · rw [if_pos e, if_pos e, hvg (d + 1) last, if_pos ⟨rfl, rfl⟩, hrow]
          simp [hne]
        · rw [if_neg e, if_neg e, hvg i j, if_neg e])
  refine ⟨v', h1, h2, fun i j => ?_⟩
  rw [h3 i j]
  by_cases e : i = d + 1 ∧ j = last
  · rw [if_pos e, if_pos e, List.take_of_length_le (le_refl _)]
    rfl
  · rw [if_neg e, if_neg e]

/-- One iteration of the loop over `day` fills row `d + 1` from row `d`. -/
theorem tab_dayStep_spec (points : List (List Int)) (n d : Nat) (h : Rect n 3 points)
    (hd : d + 1 < n) (dp : List (List Int)) (hp : Rect n 4 dp)
    (hv : ∀ i last, i ≤ d → last ≤ 3 → at2 dp i last = ninjaV points i last) :
    ∃ dp', dayStep points dp (d + 1) = some dp' ∧ Rect n 4 dp' ∧
      ∀ i last, i ≤ d + 1 → last ≤ 3 → at2 dp' i last = ninjaV points i last := by
  obtain ⟨v', h1, h2, h3, h4⟩ := foldlM_inv
    (fun dp (last : Nat) =>
      (wr2 dp ((d + 1 : Nat) : Int) (last : Int) 0).bind fun dp =>
        taskLoop points ((d + 1 : Nat) : Int) (last : Int) dp)
    (fromTo 0 4)
    (fun k v => Rect n 4 v ∧
      (∀ i last, i ≤ d → last ≤ 3 → at2 v i last = ninjaV points i last) ∧
      ∀ last, last < k → at2 v (d + 1) last = ninjaV points (d + 1) last)
    dp ⟨hp, hv, fun last hl => by omega⟩
    (by
      intro k last v hk hinv
      obtain ⟨hlk, hl4⟩ := fromTo_get hk
      obtain ⟨hvl, hvold, hvg⟩ := hinv
      obtain ⟨c1, w1, l1, g1⟩ := wr2_rect v n 4 (d + 1) last 0 hvl hd (by omega)
      obtain ⟨c2, w2, l2, g2⟩ := tab_taskLoop_spec points n d last h hd (by omega) c1 l1
      refine ⟨c2, ?_, l2, fun i j hi hj => ?_, fun j hj => ?_⟩
      · dsimp only
        rw [w1, Option.some_bind]
        exact w2
      · rw [g2 i j, if_neg (by omega), g1 i j, if_neg (by omega)]
        exact hvold i j hi hj
      · rw [g2 (d + 1) j]
        by_cases e : j = last
        · rw [if_pos ⟨rfl, e⟩, g1 (d + 1) last, if_pos ⟨rfl, rfl⟩, e]
          show _ = stepFrom (at2 points (d + 1)) (ninjaV points d) last 0
          apply stepFrom_congr
          intro t ht
          rw [g1 d t, if_neg (by omega)]
          exact hvold d t (le_refl d) (by omega)
        · rw [if_neg (fun hh => e hh.2), g1 (d + 1) j, if_neg (fun hh => e hh.2)]
          exact hvg j (by omega))
  rw [fromTo_length] at h4
  refine ⟨v', h1, h2, fun i last hi hl => ?_⟩
  by_cases e : i = d + 1
  · rw [e]; exact h4 last (by omega)
  · exact h3 i last (by omega) hl

/-- The table of the tabulated variant holds the stored value of every
`(day, last)`. -/
theorem tab_table_value (points : List (List Int)) (n : Nat) (h : Rect n 3 points)
    (hn : 1 ≤ n) :
    ∃ dp, table points = some dp ∧ Rect n 4 dp ∧
      ∀ i last, i < n → last ≤ 3 → at2 dp i last = ninjaV points i last := by
  have hgl : points.length = n := h.1
  obtain ⟨p1, hb, hl1, hv1⟩ := tab_baseRow_spec points n h hn
    (List.replicate n (List.replicate 4 0)) (rect_replicate n 4 0)
  obtain ⟨dp, hd, hs, hv⟩ := foldlM_inv (dayStep points) (fromTo 1 n)
    (fun k t => Rect n 4 t ∧
      ∀ i last, i ≤ k → last ≤ 3 → at2 t i last = ninjaV points i last)
    p1 ⟨hl1, fun i last hi hl => by
      have e : i = 0 := by omega
      rw [e]
      exact hv1 last hl⟩
    (by
      intro k i t hk hinv
      obtain ⟨hik, hin⟩ := fromTo_get hk
      have e : i = k + 1 := by omega
      subst e
      exact tab_dayStep_spec points n k h hin t hinv.1 hinv.2)
  rw [fromTo_length] at hv
  refine ⟨dp, ?_, hs, fun i last hi hl => hv i last (by omega) hl⟩
  unfold table
  dsimp only
  rw [hgl, hb, Option.some_bind, hd]

theorem tab_ninjaTraining_value (points : List (List Int)) (n : Nat) (h : Rect n 3 points)
    (hn : 1 ≤ n) : ninjaTraining points = some (ninjaV points (n - 1) 3) := by
  have hgl : points.length = n := h.1
  obtain ⟨dp, hd, hs, hv⟩ := tab_table_value points n h hn
  have e : (n : Int) - 1 = ((n - 1 : Nat) : Int) := by omega
  have hr := rd2_rect dp n 4 (n - 1) 3 hs (by omega) (by omega)
  rw [Nat.cast_ofNat] at hr
  unfold ninjaTraining
  dsimp only
  rw [hd, Option.some_bind, hgl, e, hr, hv (n - 1) 3 (by omega) (by omega)]

end NinjaTrainingTabulation

/-- C25, counterexample: on the one-day table `{{-1, -2, -3}}` the recursion
returns `0`, the start value of its fold, and the tabulation returns `-1`, the
maximum of the three values. -/
theorem ninjaTraining_negative_points_counterexample :
    CherryPickup.Rect 1 3 [[-1, -2, -3]] ∧
      NinjaTrainingRecursion.ninjaTraining [[-1, -2, -3]] = some 0 ∧
      NinjaTrainingTabulation.ninjaTraining [[-1, -2, -3]] = some (-1) :=
  ⟨by decide, by decide, by decide⟩

/-- C25, amended: for every points table with `n ≥ 1` days and three integer
point values per day, those of day `0` non-negative,
`NinjaTrainingRecursion::ninjaTraining(points)` and
`NinjaTrainingTabulation::ninjaTraining(points)` return the same value; and for
day `0` and every `last` in `0 .. 3` the value `f(0, last)` of the recursion and
the entry `dp[0][last]` of the table are equal, to the maximum of
`points[0][task]` over the tasks different from `last`. -/
theorem ninjaTraining_recursion_eq_tabulation (n : Nat) (points : List (List Int))
    (h : CherryPickup.Rect n 3 points) (hn : 1 ≤ n) (h0 : ∀ x ∈ points.getD 0 [], 0 ≤ x) :
    (∃ v, NinjaTrainingRecursion.ninjaTraining points = some v ∧
      NinjaTrainingTabulation.ninjaTraining points = some v) ∧
    ∃ dp, NinjaTrainingTabulation.table points = some dp ∧
      ∀ last : Nat, last ≤ 3 →
        ∃ v, NinjaTrainingRecursion.f points 0 (last : Int) = some v ∧
          CherryPickup.at2 dp 0 last = v ∧
          (∃ task, task < 3 ∧ task ≠ last ∧ v = CherryPickup.at2 points 0 task) ∧
          ∀ task, task < 3 → task ≠ last → CherryPickup.at2 points 0 task ≤ v := by
  have hp : ∀ t, 0 ≤ CherryPickup.at2 points 0 t :=
    fun t => CherryPickup.getD_nonneg (points.getD 0 []) h0 t
  have heq := NinjaTraining.recV_eq_ninjaV points (hp 0) (hp 1)
  obtain ⟨dp, hd, _, hv⟩ := NinjaTrainingTabulation.tab_table_value points n h hn
  refine ⟨⟨_, NinjaTrainingRecursion.nin_rec_ninjaTraining_value points n h hn, ?_⟩, dp, hd, ?_⟩
  · rw [heq (n - 1) 3 (le_refl 3)]
    exact NinjaTrainingTabulation.tab_ninjaTraining_value points n h hn
  · intro last hl
    obtain ⟨⟨task, ht, hne, htv⟩, hub⟩ :=
      NinjaTraining.baseV_spec (CherryPickup.at2 points 0) last hl
    refine ⟨NinjaTraining.ninjaV points 0 last, ?_, hv 0 last (by omega) hl,
      ⟨task, ht, hne, htv⟩, hub⟩
    rw [NinjaTrainingRecursion.nin_rec_f_value points n h 0 (by omega) last, heq 0 last hl]

theorem ninjaTraining_recursion_eq_tabulation_witness :
    (CherryPickup.Rect 3 3 [[2, 1, 3], [3, -4, 6], [10, 1, -6]] ∧
        ∀ x ∈ ([[2, 1, 3], [3, -4, 6], [10, 1, -6]] : List (List Int)).getD 0 [], 0 ≤ x) ∧
      ((∃ v, NinjaTrainingRecursion.ninjaTraining [[2, 1, 3], [3, -4, 6], [10, 1, -6]] =
          some v ∧
        NinjaTrainingTabulation.ninjaTraining [[2, 1, 3], [3, -4, 6], [10, 1, -6]] = some v) ∧
      ∃ dp, NinjaTrainingTabulation.table [[2, 1, 3], [3, -4, 6], [10, 1, -6]] = some dp ∧
        ∀ last : Nat, last ≤ 3 →
          ∃ v, NinjaTrainingRecursion.f [[2, 1, 3], [3, -4, 6], [10, 1, -6]] 0 (last : Int) =
              some v ∧
            CherryPickup.at2 dp 0 last = v ∧
            (∃ task, task < 3 ∧ task ≠ last ∧
              v = CherryPickup.at2 [[2, 1, 3], [3, -4, 6], [10, 1, -6]] 0 task) ∧
            ∀ task, task < 3 → task ≠ last →
              CherryPickup.at2 [[2, 1, 3], [3, -4, 6], [10, 1, -6]] 0 task ≤ v) :=
  ⟨⟨by decide, by decide⟩,
    ninjaTraining_recursion_eq_tabulation 3 [[2, 1, 3], [3, -4, 6], [10, 1, -6]] (by decide)
      (by decide) (by decide)⟩

namespace CherryPickup

namespace Wrap32

/-! ## 32-bit additions -/

theorem wrap_of_isInt {x : Int} (h : IsInt x) : wrap x = x := by
  unfold wrap
  unfold IsInt at h
  omega

theorem wrap_add_wrap (a b : Int) : wrap (wrap a + b) = wrap (a + b) := by
  unfold wrap
  omega

theorem isInt_wrap (x : Int) : IsInt (wrap x) := by
  unfold wrap IsInt
  omega

/-- Adding to the 32-bit reward gives, after the wrap, what adding to the exact
reward gives. -/
theorem wrap_rowReward32_add (row : List Int) (a b : Nat) (x : Int) :
    wrap (rowReward32 row a b + x) = wrap (rowReward row a b + x) := by
  unfold rowReward32 rowReward
  by_cases hab : a = b
  · rw [if_pos hab, if_pos hab]
  · rw [if_neg hab, if_neg hab, wrap_add_wrap]

theorem rowReward32_eq (row : List Int) (a b : Nat) (h : IsInt (rowReward row a b)) :
    rowReward32 row a b = rowReward row a b := by
  unfold rowReward32 rowReward at *
  by_cases hab : a = b
  · rw [if_pos hab, if_pos hab]
  · rw [if_neg hab] at h ⊢
    rw [if_neg hab, wrap_of_isInt h]

/-! ## The 32-bit loops -/

theorem cellReward32_spec (grid : List (List Int)) (m i a b : Nat) (hg : Wide m grid)
    (hi : i < grid.length) (ha : a < m) (hb : b < m) :
    cellReward grid (i : Int) (a : Int) (b : Int) =
      some (rowReward32 (grid.getD i []) a b) := by
  unfold cellReward rowReward32
  by_cases hab : a = b
  · subst hab
    rw [if_pos rfl, if_pos rfl, rd2_at2 grid m i a hg hi ha]
    rfl
  · rw [if_neg (fun h => hab (Int.ofNat_inj.1 h)), if_neg hab, rd2_at2 grid m i a hg hi ha,
      rd2_at2 grid m i b hg hi hb]
    rfl

/-- The checked 32-bit loops of the tabulated variants for one cell: when the
reward of the cell reads as `r` and the in-range cells of the next layer read
as `nx`, they return the fold of `bestV` over the wrapped sums. -/
theorem bestOver32_spec (grid : List (List Int)) (m : Nat) (i : Int) (j1 j2 : Nat) (r : Int)
    (next : Int → Int → Option Int) (nx : Nat → Nat → Int)
    (hr : cellReward grid i j1 j2 = some r)
    (hn : ∀ a b : Nat, a < m → b < m → next a b = some (nx a b)) :
    bestOver grid m i j1 j2 next =
      some (bestV m 0 (fun a b => wrap (r + nx a b)) j1 j2) := by
  unfold bestOver bestV
  apply foldlM_some
  intro best dj1 _
  apply foldlM_some
  intro best dj2 _
  dsimp only
  by_cases hc : (j1 : Int) + dj1 < 0 ∨ (j1 : Int) + dj1 ≥ m ∨ (j2 : Int) + dj2 < 0 ∨
      (j2 : Int) + dj2 ≥ m
  · rw [if_pos hc, if_pos hc]
  · rw [if_neg hc, if_neg hc, hr, Option.some_bind]
    have e1 : (j1 : Int) + dj1 = ((((j1 : Int) + dj1).toNat : Nat) : Int) := by omega
    have e2 : (j2 : Int) + dj2 = ((((j2 : Int) + dj2).toNat : Nat) : Int) := by omega
    have h := hn ((j1 : Int) + dj1).toNat ((j2 : Int) + dj2).toNat (by omega) (by omega)
    rw [← e1, ← e2] at h
    rw [h, Option.some_bind, zero_add]

theorem cellW_drop_last (m : Nat) (grid : List (List Int)) (i a b : Nat)
    (h : i + 1 = grid.length) :
    cellW m (grid.drop i) a b = rowReward32 (grid.getD i []) a b := by
  rw [getD_drop_head grid i (by omega), List.drop_eq_nil_of_le (by omega)]
  rfl

theorem cellW_drop (m : Nat) (grid : List (List Int)) (i a b : Nat)
    (h : i + 1 < grid.length) :
    cellW m (grid.drop i) a b =
      bestV m 0 (fun a' b' =>
        wrap (rowReward32 (grid.getD i []) a b + cellW m (grid.drop (i + 1)) a' b')) a b := by
  rw [getD_drop_head grid i (by omega), getD_drop_head grid (i + 1) h]
  rfl

namespace CherryPickupTabulation

/-- The base-case loops succeed on a table of the right shape and fill layer
`n - 1` with the rewards of the last row. -/
theorem tab32_baseLoops_spec (grid : List (List Int)) (n m : Nat) (hn : grid.length = n)
    (hpos : 0 < n) (hg : Wide m grid) (dp : List (List (List Int))) (hdp : Cube n m dp) :
    ∃ dp', baseLoops grid n m dp = some dp' ∧ Cube n m dp' ∧
      ∀ a b, a < m → b < m →
        at3 dp' (n - 1) a b = rowReward32 (grid.getD (n - 1) []) a b := by
  have e : (n : Int) - 1 = ((n - 1 : Nat) : Int) := by omega
  unfold baseLoops
  rw [e]
  exact fill_spec m (fun dp => Cube n m dp) (fun dp a b => at3 dp (n - 1) a b)
    (fun _ a b => cellReward grid ((n - 1 : Nat) : Int) a b)
    (fun dp a b x => wr3 dp ((n - 1 : Nat) : Int) a b x)
    (fun a b => rowReward32 (grid.getD (n - 1) []) a b)
    (fun _ a b _ ha hb => cellReward32_spec grid m (n - 1) a b hg (by omega) ha hb)
    (fun s a b x hs ha hb => by
      obtain ⟨s', h1, h2, h3⟩ := wr3_spec s n m (n - 1) a b x hs (by omega) ha hb
      refine ⟨s', h1, h2, fun a' b' => ?_⟩
      dsimp only
      rw [h3]
      by_cases hc : a' = a ∧ b' = b
      · rw [if_pos hc, if_pos ⟨rfl, hc⟩]
      · rw [if_neg hc, if_neg (fun h => hc h.2)])
    dp hdp

/-- One iteration of the driver loop on row `i`: when layer `i + 1` holds the
values `nx`, the loops succeed, fill layer `i` by the transition and leave the
other layers as they were. -/
theorem tab32_rowLoops_spec (grid : List (List Int)) (n m i : Nat) (hn : grid.length = n)
    (hi : i + 1 < n) (hg : Wide m grid) (dp : List (List (List Int))) (hdp : Cube n m dp)
    (nx : Nat → Nat → Int) (hnx : ∀ a b, a < m → b < m → at3 dp (i + 1) a b = nx a b) :
    ∃ dp', rowLoops grid m dp i = some dp' ∧ Cube n m dp' ∧
      (∀ i' a b, i' ≠ i → at3 dp' i' a b = at3 dp i' a b) ∧
      ∀ a b, a < m → b < m →
        at3 dp' i a b = bestV m 0 (fun a' b' => wrap (rowReward32 (grid.getD i []) a b + nx a' b')) a b := by
  obtain ⟨dp', h1, ⟨h2, h3⟩, h4⟩ := fill_spec m
    (fun s => Cube n m s ∧ ∀ i' a b, i' ≠ i → at3 s i' a b = at3 dp i' a b)
    (fun s a b => at3 s i a b)
    (fun s a b => bestOver grid m i a b fun a' b' => rd3 s ((i : Int) + 1) a' b')
    (fun s a b x => wr3 s i a b x)
    (fun a b => bestV m 0 (fun a' b' => wrap (rowReward32 (grid.getD i []) a b + nx a' b')) a b)
    (fun s a b hs ha hb => by
      apply bestOver32_spec grid m i a b _ _ nx
        (cellReward32_spec grid m i a b hg (by omega) ha hb)
      intro a' b' ha' hb'
      have e : (i : Int) + 1 = ((i + 1 : Nat) : Int) := by omega
      rw [e, rd3_at3 s n m (i + 1) a' b' hs.1 hi ha' hb', hs.2 (i + 1) a' b' (by omega),
        hnx a' b' ha' hb'])
    (fun s a b x hs ha hb => by
      obtain ⟨s', h1, h2, h3⟩ := wr3_spec s n m i a b x hs.1 (by omega) ha hb
      refine ⟨s', h1, ⟨h2, fun i' a' b' hne => ?_⟩, fun a' b' => ?_⟩
      · rw [h3, if_neg (fun h => hne h.1)]
        exact hs.2 i' a' b' hne
      · dsimp only
        rw [h3]
        by_cases hc : a' = a ∧ b' = b
        · rw [if_pos hc, if_pos ⟨rfl, hc⟩]
        · rw [if_neg hc, if_neg (fun h => hc h.2)])
    dp ⟨hdp, fun _ _ _ _ => rfl⟩
  exact ⟨dp', by unfold rowLoops; exact h1, h2, h3, h4⟩

/-- The table of the tabulated variant: on a grid whose rows have at least
`m = grid[0].size()` entries the loops succeed, the table has shape
`n × m × m`, and layer `i` holds `cellW` of the rows from `i` on. -/
theorem tab32_table_spec (row0 : List Int) (rest : List (List Int))
    (hg : Wide row0.length (row0 :: rest)) :
    ∃ dp, table (row0 :: rest) = some dp ∧
      Cube (rest.length + 1) row0.length dp ∧
      ∀ i a b, i < rest.length + 1 → a < row0.length → b < row0.length →
        at3 dp i a b = cellW row0.length ((row0 :: rest).drop i) a b := by
  have hn : (row0 :: rest).length = rest.length + 1 := rfl
  obtain ⟨dp1, hb1, hc1, hv1⟩ := tab32_baseLoops_spec (row0 :: rest) (rest.length + 1) row0.length
    hn (by omega) hg _ (cube_replicate (rest.length + 1) row0.length)
  obtain ⟨dp2, hd1, hc2, hv2⟩ := foldlM_inv (rowLoops (row0 :: rest) row0.length)
    (driverRows (rest.length + 1))
    (fun k dp => Cube (rest.length + 1) row0.length dp ∧
      ∀ i a b, rest.length - k ≤ i → i < rest.length + 1 → a < row0.length →
        b < row0.length → at3 dp i a b = cellW row0.length ((row0 :: rest).drop i) a b)
    dp1
    ⟨hc1, fun i a b h1 h2 ha hb => by
      have e : i = rest.length + 1 - 1 := by omega
      rw [e, hv1 a b ha hb, cellW_drop_last _ _ _ _ _ (by rw [hn]; omega)]⟩
    (by
      intro k i dp hk hinv
      obtain ⟨hik, hkn⟩ := driverRows_get hk
      obtain ⟨dp', h1, h2, h3, h4⟩ := tab32_rowLoops_spec (row0 :: rest) (rest.length + 1)
        row0.length i hn (by omega) hg dp hinv.1
        (cellW row0.length ((row0 :: rest).drop (i + 1)))
        (fun a b ha hb => hinv.2 (i + 1) a b (by omega) (by omega) ha hb)
      refine ⟨dp', h1, h2, ?_⟩
      intro i' a b hi1 hi2 ha hb
      by_cases hii : i' = i
      · rw [hii, h4 a b ha hb, cellW_drop _ _ _ _ _ (by rw [hn]; omega)]
      · rw [h3 i' a b hii]
        exact hinv.2 i' a b (by omega) hi2 ha hb)
  refine ⟨dp2, ?_, hc2, ?_⟩
  · unfold table
    rw [rd_zero_cons, Option.some_bind]
    dsimp only
    rw [hn, hb1, Option.some_bind]
    exact hd1
  · intro i a b hi ha hb
    rw [driverRows_length] at hv2
    exact hv2 i a b (by omega) hi ha hb

/-- The tabulated variant returns `cellW` of the whole grid at the start
columns `(0, m - 1)`. -/
theorem tab32_cherryPickup_spec (row0 : List Int) (rest : List (List Int))
    (hg : Wide row0.length (row0 :: rest)) (hm : 0 < row0.length) :
    cherryPickup (row0 :: rest) =
      some (cellW row0.length (row0 :: rest) 0 (row0.length - 1)) := by
  obtain ⟨dp, h1, h2, h3⟩ := tab32_table_spec row0 rest hg
  unfold cherryPickup
  rw [rd_zero_cons, Option.some_bind]
  dsimp only
  rw [h1, Option.some_bind]
  have e : (row0.length : Int) - 1 = ((row0.length - 1 : Nat) : Int) := by omega
  have h := rd3_at3 dp _ _ 0 0 (row0.length - 1) h2 (by omega) hm (by omega)
  rw [Nat.cast_zero, ← e] at h
  rw [h, h3 0 0 (row0.length - 1) (by omega) hm (by omega)]
  rfl

end CherryPickupTabulation

namespace CherryPickupSpaceOptimized

/-- The base-case loops succeed on a square layer and fill it with the rewards
of the last row. -/
theorem so32_baseLoops_spec (grid : List (List Int)) (n m : Nat) (hn : grid.length = n)
    (hpos : 0 < n) (hg : Wide m grid) (prev : List (List Int)) (hp : Sq m prev) :
    ∃ prev', baseLoops grid n m prev = some prev' ∧ Sq m prev' ∧
      ∀ a b, a < m → b < m → at2 prev' a b = rowReward32 (grid.getD (n - 1) []) a b := by
  have e : (n : Int) - 1 = ((n - 1 : Nat) : Int) := by omega
  unfold baseLoops
  rw [e]
  exact fill_spec m (fun s => Sq m s) (fun s a b => at2 s a b)
    (fun _ a b => cellReward grid ((n - 1 : Nat) : Int) a b)
    (fun s a b x => wr2 s a b x)
    (fun a b => rowReward32 (grid.getD (n - 1) []) a b)
    (fun _ a b _ ha hb => cellReward32_spec grid m (n - 1) a b hg (by omega) ha hb)
    (fun s a b x hs ha hb => wr2_spec s m a b x hs ha hb)
    prev hp

/-- One iteration of the driver loop on row `i`: when `prev` holds the values
`nx`, the loops succeed and both `prev` and `curr` end as the layer computed
from `nx` by the transition. -/
theorem so32_rowStep_spec (grid : List (List Int)) (n m i : Nat) (hn : grid.length = n)
    (hi : i + 1 < n) (hg : Wide m grid) (st : List (List Int) × List (List Int))
    (hp : Sq m st.1) (hc : Sq m st.2)
    (nx : Nat → Nat → Int) (hnx : ∀ a b, a < m → b < m → at2 st.1 a b = nx a b) :
    ∃ st', rowStep grid m st i = some st' ∧ Sq m st'.1 ∧ Sq m st'.2 ∧ st'.1 = st'.2 ∧
      ∀ a b, a < m → b < m →
        at2 st'.1 a b = bestV m 0 (fun a' b' => wrap (rowReward32 (grid.getD i []) a b + nx a' b')) a b := by
  obtain ⟨curr', h1, h2, h3⟩ := fill_spec m (fun s => Sq m s) (fun s a b => at2 s a b)
    (fun _ a b => bestOver grid m i a b fun a' b' => rd2 st.1 a' b')
    (fun s a b x => wr2 s a b x)
    (fun a b => bestV m 0 (fun a' b' => wrap (rowReward32 (grid.getD i []) a b + nx a' b')) a b)
    (fun _ a b _ ha hb => by
      apply bestOver32_spec grid m i a b _ _ nx
        (cellReward32_spec grid m i a b hg (by omega) ha hb)
      intro a' b' ha' hb'
      rw [rd2_at2 st.1 m a' b' (sq_wide hp) (by rw [hp.1]; exact ha') hb', hnx a' b' ha' hb'])
    (fun s a b x hs ha hb => wr2_spec s m a b x hs ha hb)
    st.2 hc
  refine ⟨(curr', curr'), ?_, h2, h2, rfl, h3⟩
  unfold rowStep
  rw [h1, Option.some_bind]

/-- The two layers of the space-optimised variant when the driver loop has
finished: on a grid whose rows have at least `m = grid[0].size()` entries the
loops succeed and `prev` holds `cellW` of the whole grid. -/
theorem so32_layers_spec (row0 : List Int) (rest : List (List Int))
    (hg : Wide row0.length (row0 :: rest)) :
    ∃ st, layers (row0 :: rest) = some st ∧ Sq row0.length st.1 ∧
      ∀ a b, a < row0.length → b < row0.length →
        at2 st.1 a b = cellW row0.length (row0 :: rest) a b := by
  have hn : (row0 :: rest).length = rest.length + 1 := rfl
  obtain ⟨p1, hb1, hc1, hv1⟩ := so32_baseLoops_spec (row0 :: rest) (rest.length + 1) row0.length
    hn (by omega) hg _ (sq_replicate row0.length)
  obtain ⟨st, hd1, hc2, _, hv2⟩ := foldlM_inv (rowStep (row0 :: rest) row0.length)
    (driverRows (rest.length + 1))
    (fun k st => Sq row0.length st.1 ∧ Sq row0.length st.2 ∧
      ∀ a b, a < row0.length → b < row0.length →
        at2 st.1 a b = cellW row0.length ((row0 :: rest).drop (rest.length - k)) a b)
    (p1, List.replicate row0.length (List.replicate row0.length NEG_INF))
    ⟨hc1, sq_replicate row0.length, fun a b ha hb => by
      have e : rest.length - 0 = rest.length + 1 - 1 := by omega
      rw [e, hv1 a b ha hb, cellW_drop_last _ _ _ _ _ (by rw [hn]; omega)]⟩
    (by
      intro k i s hk hinv
      obtain ⟨hik, hkn⟩ := driverRows_get hk
      obtain ⟨s', h1, h2, h3, _, h5⟩ := so32_rowStep_spec (row0 :: rest) (rest.length + 1)
        row0.length i hn (by omega) hg s hinv.1 hinv.2.1
        (cellW row0.length ((row0 :: rest).drop (i + 1)))
        (fun a b ha hb => by
          have e : i + 1 = rest.length - k := by omega
          rw [e]; exact hinv.2.2 a b ha hb)
      refine ⟨s', h1, h2, h3, ?_⟩
      intro a b ha hb
      have e : rest.length - (k + 1) = i := by omega
      rw [e, h5 a b ha hb, cellW_drop _ _ _ _ _ (by rw [hn]; omega)])
  refine ⟨st, ?_, hc2, ?_⟩
  · unfold layers
    rw [rd_zero_cons, Option.some_bind]
    dsimp only
    rw [hn, hb1, Option.some_bind]
    exact hd1
  · intro a b ha hb
    rw [driverRows_length] at hv2
    have e : rest.length - (rest.length + 1 - 1) = 0 := by omega
    have h := hv2 a b ha hb
    rw [e] at h
    exact h

/-- The space-optimised variant returns `cellW` of the whole grid at the start
columns `(0, m - 1)`. -/
theorem so32_cherryPickup_spec (row0 : List Int) (rest : List (List Int))
    (hg : Wide row0.length (row0 :: rest)) (hm : 0 < row0.length) :
    cherryPickup (row0 :: rest) =
      some (cellW row0.length (row0 :: rest) 0 (row0.length - 1)) := by
  obtain ⟨st, h1, h2, h3⟩ := so32_layers_spec row0 rest hg
  unfold cherryPickup
  rw [rd_zero_cons, Option.some_bind]
  dsimp only
  rw [h1, Option.some_bind]
  have e : (row0.length : Int) - 1 = ((row0.length - 1 : Nat) : Int) := by omega
  have h := rd2_at2 st.1 row0.length 0 (row0.length - 1) (sq_wide h2) (by rw [h2.1]; exact hm)
    (by omega)
  rw [Nat.cast_zero, ← e] at h
  rw [h, h3 0 (row0.length - 1) hm (by omega)]

end CherryPickupSpaceOptimized

/-! ## Exact and 32-bit values -/

/-- The fold of `bestV` depends on the sums it is offered by the in-range
neighbours only. -/
theorem bestV_near_congr (m : Nat) (r r' : Int) (f g : Nat → Nat → Int) (j1 j2 : Nat)
    (h : ∀ a b, a < m → b < m → Near a j1 → Near b j2 → r + f a b = r' + g a b) :
    bestV m r f j1 j2 = bestV m r' g j1 j2 := by
  refine (bestV_isBest m r f j1 j2).unique (IsBest.congr ?_ (bestV_isBest m r' g j1 j2))
  intro y
  constructor
  · rintro ⟨a, b, ha, hb, hna, hnb, hy⟩
    exact ⟨a, b, ha, hb, hna, hnb, by rw [h a b ha hb hna hnb]; exact hy⟩
  · rintro ⟨a, b, ha, hb, hna, hnb, hy⟩
    exact ⟨a, b, ha, hb, hna, hnb, by rw [← h a b ha hb hna hnb]; exact hy⟩

/-- On a run without overflow the 32-bit code stores the exact values. -/
theorem cellW_eq_cellV (m : Nat) (rows : List (List Int)) (hr : InRange m rows)
    (a b : Nat) (ha : a < m) (hb : b < m) : cellW m rows a b = cellV m rows a b := by
  induction rows generalizing a b with
  | nil => rfl
  | cons row rest ih =>
    cases rest with
    | nil => exact rowReward32_eq row a b (hr a ha b hb)
    | cons next rest =>
      obtain ⟨hnext, hrow⟩ := hr
      show bestV m 0 (fun a' b' => wrap (rowReward32 row a b + cellW m (next :: rest) a' b'))
        a b = bestV m (rowReward row a b) (cellV m (next :: rest)) a b
      apply bestV_near_congr
      intro a' b' ha' hb' hna hnb
      rw [zero_add, wrap_rowReward32_add,
        wrap_of_isInt ((hrow a ha b hb).2 a' ha' b' hb' hna hnb), ih hnext a' b' ha' hb']

/-- A grid whose rewards are bounded by `K` with `2 * K * n < 10^9` runs
without overflow. -/
theorem inRange_of_bounded (m : Nat) (K : Int) (hK : 0 ≤ K) (rows : List (List Int))
    (h : Bounded K rows) (hmargin : 2 * K * (rows.length : Int) < 1000000000) :
    InRange m rows := by
  induction rows with
  | nil => exact trivial
  | cons row rest ih =>
    have hrow : ∀ a b, -(2 * K) ≤ rowReward row a b ∧ rowReward row a b ≤ 2 * K :=
      fun a b => abs_le.1 (rowReward_abs_le K hK row (h row (List.mem_cons_self _ _)) a b)
    cases rest with
    | nil =>
      intro a _ b _
      have e : 2 * K * (([row] : List (List Int)).length : Int) = 2 * K := by simp
      rw [e] at hmargin
      have := hrow a b
      unfold IsInt
      constructor <;> linarith
    | cons next rest =>
      have e : 2 * K * ((row :: next :: rest).length : Int) =
          2 * K * ((next :: rest).length : Int) + 2 * K := by
        simp only [List.length_cons]; push_cast; ring
      rw [e] at hmargin
      have hbd : Bounded K (next :: rest) := fun r hr => h r (List.mem_cons_of_mem _ hr)
      have hnext := ih hbd (by linarith)
      have hlen : (0 : Int) ≤ 2 * K * ((next :: rest).length : Int) := by positivity
      refine ⟨hnext, fun a ha b hb => ⟨?_, fun a' ha' b' hb' _ _ => ?_⟩⟩
      · have := hrow a b
        unfold IsInt
        constructor <;> linarith
      · have h1 := hrow a b
        have h2 := abs_le.1 (cellV_abs_le m K hK (next :: rest) (by simp) hbd (by linarith)
          a' b' ha' hb')
        rw [cellW_eq_cellV m (next :: rest) hnext a' b' ha' hb']
        unfold IsInt
        constructor <;> linarith

/-! ## States the walkers can reach -/

theorem reachable_start (m : Nat) (hm : 0 < m) : Reachable m 0 0 (m - 1) := by
  refine ⟨[0], [m - 1], rfl, rfl, ⟨?_, List.chain'_singleton _⟩,
    ⟨?_, List.chain'_singleton _⟩, rfl, rfl, rfl, rfl⟩
  · intro c hc
    rw [List.mem_singleton.1 hc]; exact hm
  · intro c hc
    rw [List.mem_singleton.1 hc]; omega

theorem isWalk_concat (m : Nat) (cols : List Nat) (a a' : Nat) (h : IsWalk m cols)
    (hl : cols.getLast? = some a) (ha' : a' < m) (hn : Near a a') :
    IsWalk m (cols ++ [a']) := by
  refine ⟨?_, ?_⟩
  · intro c hc
    rcases List.mem_append.1 hc with h1 | h1
    · exact h.1 c h1
    · rw [List.mem_singleton.1 h1]; exact ha'
  · refine List.Chain'.append h.2 (List.chain'_singleton _) ?_
    intro x hx y hy
    rw [hl] at hx
    have ex : a = x := by simpa using hx
    have ey : a' = y := by simpa using hy
    rw [← ex, ← ey]
    exact hn

theorem reachable_step (m i a b a' b' : Nat) (h : Reachable m i a b) (ha' : a' < m)
    (hb' : b' < m) (hna : Near a a') (hnb : Near b b') : Reachable m (i + 1) a' b' := by
  obtain ⟨as, bs, hla, hlb, hwa, hwb, hha, hhb, hea, heb⟩ := h
  refine ⟨as ++ [a'], bs ++ [b'], by simp [hla], by simp [hlb],
    isWalk_concat m as a a' hwa hea ha' hna, isWalk_concat m bs b b' hwb heb hb' hnb,
    ?_, ?_, by simp, by simp⟩
  · cases as with
    | nil => simp at hha
    | cons x as => simpa using hha
  · cases bs with
    | nil => simp at hhb
    | cons x bs => simpa using hhb

theorem walkTotal_head_lt {m : Nat} {rows : List (List Int)} {a b : Nat} {t : Int}
    (h : WalkTotal m rows a b t) : a < m ∧ b < m := by
  obtain ⟨as, bs, hla, hlb, hwa, hwb, hha, hhb, _⟩ := h
  constructor
  · cases as with
    | nil => simp at hha
    | cons x as =>
      simp only [List.head?_cons, Option.some.injEq] at hha
      rw [← hha]; exact hwa.1 x (List.mem_cons_self _ _)
  · cases bs with
    | nil => simp at hhb
    | cons y bs =>
      simp only [List.head?_cons, Option.some.injEq] at hhb
      rw [← hhb]; exact hwb.1 y (List.mem_cons_self _ _)

/-- The value the 32-bit code stores for a state is the greatest total over the
pairs of walks from that state, provided the totals from every state that can
be reached from it (the states `R`) lie above the sentinel and inside the
range of `int`. -/
theorem cellW_greatest (m : Nat) (R : Nat → Nat → Nat → Prop)
    (hstep : ∀ i a b a' b', R i a b → a' < m → b' < m → Near a a' → Near b b' →
      R (i + 1) a' b')
    (rows : List (List Int)) (hne : rows ≠ []) (k : Nat)
    (hs : ∀ i a b t, i < rows.length → R (k + i) a b → WalkTotal m (rows.drop i) a b t →
      NEG_INF < t ∧ t ≤ Loops.INT_MAX)
    (a b : Nat) (ha : a < m) (hb : b < m) (hR : R k a b) :
    WalkTotal m rows a b (cellW m rows a b) ∧
      ∀ t, WalkTotal m rows a b t → t ≤ cellW m rows a b := by
  induction rows generalizing k a b with
  | nil => exact absurd rfl hne
  | cons row rest ih =>
    have hrange : ∀ t, WalkTotal m (row :: rest) a b t → IsInt t := by
      intro t ht
      have := hs 0 a b t (by simp) (by simpa using hR) (by simpa using ht)
      unfold IsInt
      unfold NEG_INF Loops.INT_MAX at this
      omega
    cases rest with
    | nil =>
      have e : cellW m [row] a b = rowReward row a b :=
        rowReward32_eq row a b
          (hrange _ ((walkTotal_single_iff m row a b _).2 ⟨ha, hb, rfl⟩))
      rw [e]
      constructor
      · exact (walkTotal_single_iff m row a b _).2 ⟨ha, hb, rfl⟩
      · intro t ht
        rw [((walkTotal_single_iff m row a b t).1 ht).2.2]
    | cons next rest =>
      have ih' : ∀ a' b', a' < m → b' < m → Near a a' → Near b b' →
          WalkTotal m (next :: rest) a' b' (cellW m (next :: rest) a' b') ∧
            ∀ t, WalkTotal m (next :: rest) a' b' t → t ≤ cellW m (next :: rest) a' b' :=
        fun a' b' ha' hb' hna hnb =>
          ih (by simp) (k + 1) (fun i a'' b'' t hi hR' ht =>
            hs (i + 1) a'' b'' t (by simp at hi ⊢; omega)
              (by rw [← add_assoc, add_right_comm]; exact hR') (by simpa using ht))
            a' b' ha' hb' (hstep k a b a' b' hR ha' hb' hna hnb)
      have hmove : ∀ a' b', a' < m → b' < m → Near a a' → Near b b' →
          WalkTotal m (row :: next :: rest) a b
            (rowReward row a b + cellW m (next :: rest) a' b') :=
        fun a' b' ha' hb' hna hnb => (walkTotal_cons_iff m row next rest a b _).2
          ⟨ha, hb, a', b', _, hna, hnb, (ih' a' b' ha' hb' hna hnb).1, rfl⟩
      have hcell : cellW m (row :: next :: rest) a b =
          bestV m (rowReward row a b) (cellW m (next :: rest)) a b := by
        show bestV m 0 (fun a' b' => wrap (rowReward32 row a b + cellW m (next :: rest) a' b'))
          a b = _
        apply bestV_near_congr
        intro a' b' ha' hb' hna hnb
        rw [zero_add, wrap_rowReward32_add,
          wrap_of_isInt (hrange _ (hmove a' b' ha' hb' (near_symm hna) (near_symm hnb)))]
      have hstay := hmove a b ha hb (near_refl a) (near_refl b)
      constructor
      · rcases bestV_cases m (rowReward row a b) (cellW m (next :: rest)) a b with
          h | ⟨a', b', ha', hb', hna, hnb, h⟩
        · exfalso
          have h1 := (hs 0 a b _ (by simp) (by simpa using hR) (by simpa using hstay)).1
          have h2 := bestV_ge m (rowReward row a b) (cellW m (next :: rest)) a b a b ha hb
            (near_refl a) (near_refl b)
          rw [h] at h2
          omega
        · rw [hcell, h]
          exact hmove a' b' ha' hb' (near_symm hna) (near_symm hnb)
      · intro t ht
        obtain ⟨_, _, a', b', t', hna, hnb, ht', e⟩ :=
          (walkTotal_cons_iff m row next rest a b t).1 ht
        obtain ⟨ha', hb'⟩ := walkTotal_head_lt ht'
        rw [hcell, e]
        exact le_trans (add_le_add_left ((ih' a' b' ha' hb' hna hnb).2 t' ht') _)
          (bestV_ge m _ _ a b a' b' ha' hb' (near_symm hna) (near_symm hnb))

/-! ## Single column -/

/-- In a grid of width one the only state of a row is `(0, 0)` and, as long as
the sums of the lower rows stay between the sentinel and the largest `int`,
the 32-bit code stores the column sum. -/
theorem cellW_single_column (rows : List (List Int)) (hne : rows ≠ [])
    (hs : ∀ i, i + 1 < rows.length →
      NEG_INF ≤ columnSum (rows.drop i) ∧ columnSum (rows.drop i) ≤ Loops.INT_MAX) :
    cellW 1 rows 0 0 = columnSum rows := by
  induction rows with
  | nil => exact absurd rfl hne
  | cons row rest ih =>
    cases rest with
    | nil =>
      show rowReward32 row 0 0 = columnSum [row]
      simp [rowReward32, columnSum]
    | cons next rest =>
      have ih' := ih (by simp) (fun i hi => by
        have := hs (i + 1) (by simp at hi ⊢; omega)
        simpa using this)
      have h0 := hs 0 (by simp)
      rw [List.drop_zero, columnSum_cons] at h0
      rw [columnSum_cons]
      have hr : rowReward32 row 0 0 = row.getD 0 0 := by simp [rowReward32]
      have hw : wrap (row.getD 0 0 + columnSum (next :: rest)) =
          row.getD 0 0 + columnSum (next :: rest) := by
        apply wrap_of_isInt
        unfold IsInt
        unfold NEG_INF Loops.INT_MAX at h0
        omega
      show bestV 1 0 (fun a' b' => wrap (rowReward32 row 0 0 + cellW 1 (next :: rest) a' b'))
        0 0 = _
      rw [hr]
      have hge := bestV_ge 1 0
        (fun a' b' => wrap (row.getD 0 0 + cellW 1 (next :: rest) a' b')) 0 0 0 0
        (by omega) (by omega) ⟨by omega, by omega⟩ ⟨by omega, by omega⟩
      rcases bestV_cases 1 0
        (fun a' b' => wrap (row.getD 0 0 + cellW 1 (next :: rest) a' b')) 0 0 with
        h | ⟨a, b, ha, hb, _, _, h⟩
      · dsimp only at hge
        rw [ih', hw] at hge
        rw [h] at hge ⊢
        have := h0.1
        omega
      · have ea : a = 0 := by omega
        have eb : b = 0 := by omega
        rw [h, ea, eb, ih', hw, zero_add]

/-! ## The brute-force recursion -/

theorem recW_drop_last (m : Nat) (grid : List (List Int)) (i a b : Nat)
    (h : i + 1 = grid.length) :
    recW m (grid.drop i) a b = rowReward32 (grid.getD i []) a b := by
  rw [getD_drop_head grid i (by omega), List.drop_eq_nil_of_le (by omega)]
  rfl

theorem recW_drop (m : Nat) (grid : List (List Int)) (i a b : Nat)
    (h : i + 1 < grid.length) :
    recW m (grid.drop i) a b =
      recBest m (rowReward32 (grid.getD i []) a b) (recW m (grid.drop (i + 1))) a b := by
  rw [getD_drop_head grid i (by omega), getD_drop_head grid (i + 1) h]
  rfl

/-- The loops of the 32-bit `solveRec` over the nine moves: when the reward of
the cell reads as `c` and the recursive calls return the sentinel outside
`[0, m)` and `nx` inside, the loops return the fold `recBest`. -/
theorem recLoops32_spec (grid : List (List Int)) (m : Nat) (i : Int) (j1 j2 : Nat) (c : Int)
    (rec : Int → Int → Option Int) (nx : Nat → Nat → Int)
    (hc : cellReward grid i j1 j2 = some c)
    (hrec : ∀ a b : Int, rec a b =
      some (if a < 0 ∨ a ≥ m ∨ b < 0 ∨ b ≥ m then NEG_INF else nx a.toNat b.toNat)) :
    CherryPickupRecursion.recLoops grid i j1 j2 rec = some (recBest m c nx j1 j2) := by
  unfold CherryPickupRecursion.recLoops recBest
  apply foldlM_some
  intro best dj1 _
  apply foldlM_some
  intro best dj2 _
  rw [hc, Option.some_bind, hrec, Option.some_bind]

/-- On a grid whose rows have at least `m` entries the 32-bit `solveRec` on row
`i` returns: the sentinel outside `[0, m)`, the value `recW` inside. -/
theorem solveRec32_spec (grid : List (List Int)) (m : Nat) (hg : Wide m grid) (k : Nat) :
    ∀ (i : Nat) (j1 j2 : Int), i + k + 1 = grid.length →
      CherryPickupRecursion.solveRec i j1 j2 grid.length m grid =
        some (if j1 < 0 ∨ j1 ≥ m ∨ j2 < 0 ∨ j2 ≥ m then NEG_INF
          else recW m (grid.drop i) j1.toNat j2.toNat) := by
  induction k with
  | zero =>
    intro i j1 j2 hi
    rw [CherryPickupRecursion.solveRec]
    by_cases hoob : j1 < 0 ∨ j1 ≥ m ∨ j2 < 0 ∨ j2 ≥ m
    · rw [if_pos hoob, if_pos hoob]
    · obtain ⟨a, rfl⟩ : ∃ a : Nat, j1 = a := ⟨j1.toNat, by omega⟩
      obtain ⟨b, rfl⟩ : ∃ b : Nat, j2 = b := ⟨j2.toNat, by omega⟩
      rw [if_neg hoob, if_neg hoob, if_pos (by omega), Int.toNat_natCast, Int.toNat_natCast,
        recW_drop_last m grid i _ _ (by omega),
        cellReward32_spec grid m i a b hg (by omega) (by omega) (by omega)]
  | succ k ih =>
    intro i j1 j2 hi
    rw [CherryPickupRecursion.solveRec]
    by_cases hoob : j1 < 0 ∨ j1 ≥ m ∨ j2 < 0 ∨ j2 ≥ m
    · rw [if_pos hoob, if_pos hoob]
    · obtain ⟨a, rfl⟩ : ∃ a : Nat, j1 = a := ⟨j1.toNat, by omega⟩
      obtain ⟨b, rfl⟩ : ∃ b : Nat, j2 = b := ⟨j2.toNat, by omega⟩
      rw [if_neg hoob, if_neg hoob, if_neg (by omega), dif_pos (by omega), Int.toNat_natCast,
        Int.toNat_natCast, recW_drop m grid i _ _ (by omega)]
      exact recLoops32_spec grid m i a b (rowReward32 (grid.getD i []) a b)
        (fun a b => CherryPickupRecursion.solveRec ((i : Int) + 1) a b grid.length m grid)
        (recW m (grid.drop (i + 1)))
        (cellReward32_spec grid m i a b hg (by omega) (by omega) (by omega))
        (fun a b => by
          have e : (i : Int) + 1 = ((i + 1 : Nat) : Int) := by omega
          rw [e]
          exact ih (i + 1) a b (by omega))

/-- The fold of the recursion and the fold of the tabulation agree when the
reward is a non-negative `int`, the next row returns `nx` at the in-range
neighbours, no candidate sum overflows, and `nx` is at least the sentinel at
the cell itself: the candidates `r + NEG_INF` of the moves outside `[0, m)`
never exceed the candidate of the move that stays. -/
theorem recBest_eq_bestV (m : Nat) (r : Int) (next nx : Nat → Nat → Int) (j1 j2 : Nat)
    (hj1 : j1 < m) (hj2 : j2 < m) (hr0 : 0 ≤ r) (hrI : IsInt r)
    (hval : ∀ a b, a < m → b < m → Near a j1 → Near b j2 →
      next a b = nx a b ∧ IsInt (r + nx a b))
    (hnx : NEG_INF ≤ nx j1 j2) :
    recBest m r next j1 j2 = bestV m r nx j1 j2 := by
  have hB := bestV_isBest m r nx j1 j2
  have hX := foldl_isBest deltas
    (fun best dj1 =>
      deltas.foldl (fun best dj2 =>
        max best (wrap (r + (if (j1 : Int) + dj1 < 0 ∨ (j1 : Int) + dj1 ≥ m ∨
            (j2 : Int) + dj2 < 0 ∨ (j2 : Int) + dj2 ≥ m then NEG_INF
          else next ((j1 : Int) + dj1).toNat ((j2 : Int) + dj2).toNat)))) best)
    (fun dj1 y => ∃ dj2, dj2 ∈ deltas ∧
      y = wrap (r + (if (j1 : Int) + dj1 < 0 ∨ (j1 : Int) + dj1 ≥ m ∨ (j2 : Int) + dj2 < 0 ∨
            (j2 : Int) + dj2 ≥ m then NEG_INF
          else next ((j1 : Int) + dj1).toNat ((j2 : Int) + dj2).toNat)))
    (by
      intro best dj1 _
      apply foldl_isBest
      intro best dj2 _
      exact isBest_max best _)
    NEG_INF
  have hsent : wrap (r + NEG_INF) = r + NEG_INF := by
    apply wrap_of_isInt
    unfold IsInt at hrI ⊢
    unfold NEG_INF
    omega
  unfold recBest
  refine hX.unique ⟨hB.1, ?_, ?_⟩
  · rintro y ⟨dj1, h1, dj2, h2, hy⟩
    rw [mem_deltas] at h1 h2
    rw [hy]
    by_cases hoob : (j1 : Int) + dj1 < 0 ∨ (j1 : Int) + dj1 ≥ m ∨ (j2 : Int) + dj2 < 0 ∨
        (j2 : Int) + dj2 ≥ m
    · rw [if_pos hoob, hsent]
      exact le_trans (add_le_add_left hnx r)
        (bestV_ge m r nx j1 j2 j1 j2 hj1 hj2 (near_refl j1) (near_refl j2))
    · rw [if_neg hoob]
      have hv := hval ((j1 : Int) + dj1).toNat ((j2 : Int) + dj2).toNat (by omega) (by omega)
        (by unfold Near; omega) (by unfold Near; omega)
      rw [hv.1, wrap_of_isInt hv.2]
      exact bestV_ge m r nx j1 j2 _ _ (by omega) (by omega)
        (by unfold Near; omega) (by unfold Near; omega)
  · rcases hB.2.2 with h | ⟨a, b, ha, hb, hna, hnb, h⟩
    · exact Or.inl h
    · right
      have hv := hval a b ha hb hna hnb
      unfold Near at hna hnb
      refine ⟨(a : Int) - j1, by rw [mem_deltas]; omega, (b : Int) - j2,
        by rw [mem_deltas]; omega, ?_⟩
      have e1 : ((j1 : Int) + ((a : Int) - j1)).toNat = a := by omega
      have e2 : ((j2 : Int) + ((b : Int) - j2)).toNat = b := by omega
      rw [if_neg (by omega), e1, e2, hv.1, wrap_of_isInt hv.2]
      exact h

/-- On a grid of non-negative rewards on which the tabulated run does not
overflow, the 32-bit recursion returns the exact stored values as well. -/
theorem recW_eq_cellV (m : Nat) (rows : List (List Int)) (hne : rows ≠ [])
    (hnn : NonNeg rows) (hr : InRange m rows) (a b : Nat) (ha : a < m) (hb : b < m) :
    recW m rows a b = cellV m rows a b := by
  induction rows generalizing a b with
  | nil => exact absurd rfl hne
  | cons row rest ih =>
    cases rest with
    | nil => exact rowReward32_eq row a b (hr a ha b hb)
    | cons next rest =>
      obtain ⟨hnext, hrow⟩ := hr
      have hnn' : NonNeg (next :: rest) := fun r hr => hnn r (List.mem_cons_of_mem _ hr)
      show recBest m (rowReward32 row a b) (recW m (next :: rest)) a b =
        bestV m (rowReward row a b) (cellV m (next :: rest)) a b
      rw [rowReward32_eq row a b (hrow a ha b hb).1]
      refine recBest_eq_bestV m _ _ _ a b ha hb
        (rowReward_nonneg row (hnn row (List.mem_cons_self _ _)) a b) (hrow a ha b hb).1
        (fun a' b' ha' hb' hna hnb => ⟨ih (by simp) hnn' hnext a' b' ha' hb', ?_⟩) ?_
      · rw [← cellW_eq_cellV m (next :: rest) hnext a' b' ha' hb']
        exact (hrow a ha b hb).2 a' ha' b' hb' hna hnb
      · have := cellV_nonneg m (next :: rest) (by simp) hnn' a b ha hb
        unfold NEG_INF
        omega

end Wrap32

end CherryPickup

namespace CherryPickup

/-! ## Results of the 32-bit variants on rectangular grids -/

theorem rect_ne_nil {n m : Nat} {grid : List (List Int)} (h : Rect n m grid) (hn : 1 ≤ n) :
    grid ≠ [] := by
  intro e
  have := h.1
  rw [e] at this
  simp at this
  omega

/-- On a rectangular grid both 32-bit tabulated variants return `cellW` of the
grid at the start columns. -/
theorem cherryPickup32_rect (n m : Nat) (grid : List (List Int)) (h : Rect n m grid)
    (hn : 1 ≤ n) (hm : 1 ≤ m) :
    Wrap32.CherryPickupTabulation.cherryPickup grid = some (Wrap32.cellW m grid 0 (m - 1)) ∧
      Wrap32.CherryPickupSpaceOptimized.cherryPickup grid =
        some (Wrap32.cellW m grid 0 (m - 1)) := by
  obtain ⟨row0, rest, hg, hm0, _⟩ := rect_cons h hn
  subst hg
  subst hm0
  exact ⟨Wrap32.CherryPickupTabulation.tab32_cherryPickup_spec row0 rest (rect_wide h) hm,
    Wrap32.CherryPickupSpaceOptimized.so32_cherryPickup_spec row0 rest (rect_wide h) hm⟩

/-- On a rectangular grid on which no addition of the run leaves the range of
`int`, the 32-bit variants return what the variants with exact additions
return. -/
theorem cherryPickup32_eq_exact (n m : Nat) (grid : List (List Int)) (h : Rect n m grid)
    (hn : 1 ≤ n) (hm : 1 ≤ m) (hr : Wrap32.InRange m grid) :
    Wrap32.CherryPickupTabulation.cherryPickup grid = CherryPickupTabulation.cherryPickup grid ∧
      Wrap32.CherryPickupSpaceOptimized.cherryPickup grid =
        CherryPickupSpaceOptimized.cherryPickup grid := by
  have e := Wrap32.cellW_eq_cellV m grid hr 0 (m - 1) (by omega) (by omega)
  rw [(cherryPickup32_rect n m grid h hn hm).1, (cherryPickup32_rect n m grid h hn hm).2,
    (cherryPickup_rect n m grid h hn hm).1, (cherryPickup_rect n m grid h hn hm).2, e]
  exact ⟨rfl, rfl⟩

/-! ## Totals of bounded grids -/

theorem walkTotal_abs_le (K : Int) (hK : 0 ≤ K) (rows : List (List Int)) (h : Bounded K rows)
    (as bs : List Nat) : |walkTotal rows as bs| ≤ 2 * K * (rows.length : Int) := by
  induction rows generalizing as bs with
  | nil => simp [walkTotal]
  | cons row rest ih =>
    have hlen : (0 : Int) ≤ 2 * K * ((row :: rest).length : Int) := by positivity
    cases as with
    | nil => simpa [walkTotal] using hlen
    | cons a as =>
      cases bs with
      | nil => simpa [walkTotal] using hlen
      | cons b bs =>
        show |rowReward row a b + walkTotal rest as bs| ≤ _
        have h1 := abs_le.1 (rowReward_abs_le K hK row (h row (List.mem_cons_self _ _)) a b)
        have h2 := abs_le.1 (ih (fun r hr => h r (List.mem_cons_of_mem _ hr)) as bs)
        have e : 2 * K * ((row :: rest).length : Int) = 2 * K * (rest.length : Int) + 2 * K := by
          simp only [List.length_cons]; push_cast; ring
        rw [e]
        exact abs_le.2 ⟨by linarith, by linarith⟩

/-- On a grid whose rewards are bounded by `K` with `2 * K * n < 10^9`, the
total of every pair of walks from every state lies above the sentinel and
inside the range of `int`. -/
theorem walkTotal_in_range (m : Nat) (K : Int) (hK : 0 ≤ K) (grid : List (List Int))
    (h : Bounded K grid) (hmargin : 2 * K * (grid.length : Int) < 1000000000)
    (i a b : Nat) (t : Int) (ht : WalkTotal m (grid.drop i) a b t) :
    NEG_INF < t ∧ t ≤ Loops.INT_MAX := by
  obtain ⟨as, bs, _, _, _, _, _, _, e⟩ := ht
  have h1 := abs_le.1 (walkTotal_abs_le K hK (grid.drop i) (bounded_drop K grid h i) as bs)
  have h2 : 2 * K * ((grid.drop i).length : Int) ≤ 2 * K * (grid.length : Int) := by
    apply mul_le_mul_of_nonneg_left _ (by positivity)
    rw [List.length_drop]
    omega
  rw [e]
  unfold NEG_INF Loops.INT_MAX
  constructor <;> linarith

/-! ## The result is the maximum over the pairs of walks -/

/-- C1 (as stated, refuted): on the grid `[[10^9], [0], [-10^9 - 5]]` with a
single column the only feasible total is `-5`, above the sentinel and inside
the 32-bit range, yet `cherryPickup` returns `0`: the total `-10^9 - 5` from
row `1` to the last row is clamped to the sentinel. -/
theorem cherryPickup_is_maximum_counterexample :
    Rect 3 1 [[1000000000], [0], [-1000000005]] ∧
      WalkTotal 1 [[1000000000], [0], [-1000000005]] 0 (1 - 1) (-5) ∧
      (∀ t, WalkTotal 1 [[1000000000], [0], [-1000000005]] 0 (1 - 1) t → t = -5) ∧
      Wrap32.CherryPickupSpaceOptimized.cherryPickup [[1000000000], [0], [-1000000005]] =
        some 0 := by
  have key : ∀ cs : List Nat, cs.length = 3 → IsWalk 1 cs → cs = [0, 0, 0] := by
    intro cs hl hw
    rcases cs with _ | ⟨x, _ | ⟨y, _ | ⟨z, _ | ⟨w, cs⟩⟩⟩⟩
    all_goals simp at hl
    have hx := hw.1 x (by simp)
    have hy := hw.1 y (by simp)
    have hz := hw.1 z (by simp)
    have ex : x = 0 := by omega
    have ey : y = 0 := by omega
    have ez : z = 0 := by omega
    rw [ex, ey, ez]
  have hw : IsWalk 1 [0, 0, 0] := by
    refine ⟨fun c hc => ?_, ?_⟩
    · simp at hc
      omega
    · simp [Near]
  refine ⟨by decide, ⟨[0, 0, 0], [0, 0, 0], rfl, rfl, hw, hw, rfl, rfl, by decide⟩,
    ?_, by rfl⟩
  rintro t ⟨as, bs, hla, hlb, hwa, hwb, _, _, ht⟩
  rw [key as hla hwa, key bs hlb hwb] at ht
  rw [ht]
  decide

/-- C1 (amended): on every rectangular grid with `n ≥ 1` rows and `m ≥ 1`
columns on which, from every state `(row, colA, colB)` the walkers can reach
from their start columns, the total of every pair of column sequences to the
last row lies strictly above the sentinel `-10^9` and inside the signed 32-bit
range, `CherryPickupSpaceOptimized::cherryPickup` returns the maximum, over the
pairs of column sequences `a_0 .. a_{n-1}` and `b_0 .. b_{n-1}` with `a_0 = 0`,
`b_0 = m - 1`, every column in `[0, m)` and moves of at most one column, of the
sum over the rows of `grid[i][a_i]` if `a_i = b_i` and of
`grid[i][a_i] + grid[i][b_i]` otherwise. -/
theorem cherryPickup_is_maximum (n m : Nat) (grid : List (List Int)) (h : Rect n m grid)
    (hn : 1 ≤ n) (hm : 1 ≤ m)
    (hs : ∀ i a b t, i < n → Reachable m i a b → WalkTotal m (grid.drop i) a b t →
      NEG_INF < t ∧ t ≤ Loops.INT_MAX) :
    ∃ v, Wrap32.CherryPickupSpaceOptimized.cherryPickup grid = some v ∧
      WalkTotal m grid 0 (m - 1) v ∧ ∀ t, WalkTotal m grid 0 (m - 1) t → t ≤ v :=
  ⟨Wrap32.cellW m grid 0 (m - 1), (cherryPickup32_rect n m grid h hn hm).2,
    Wrap32.cellW_greatest m (Reachable m)
      (fun i a b a' b' hR ha' hb' hna hnb => Wrap32.reachable_step m i a b a' b' hR ha' hb' hna hnb)
      grid (rect_ne_nil h hn) 0
      (fun i a b t hi hR ht => hs i a b t (by rw [← h.1]; exact hi)
        (by rw [Nat.zero_add] at hR; exact hR) ht)
      0 (m - 1) (by omega) (by omega) (Wrap32.reachable_start m (by omega))⟩

theorem cherryPickup_is_maximum_witness :
    (Rect 2 5 [[0, 0, 0, 0, 0], [0, 0, -2000000000, 0, 0]] ∧
        WalkTotal 5 (List.drop 1 [[0, 0, 0, 0, 0], [0, 0, -2000000000, 0, 0]]) 2 2
          (-2000000000)) ∧
      ∃ v, Wrap32.CherryPickupSpaceOptimized.cherryPickup
          [[0, 0, 0, 0, 0], [0, 0, -2000000000, 0, 0]] = some v ∧
        WalkTotal 5 [[0, 0, 0, 0, 0], [0, 0, -2000000000, 0, 0]] 0 (5 - 1) v ∧
        ∀ t, WalkTotal 5 [[0, 0, 0, 0, 0], [0, 0, -2000000000, 0, 0]] 0 (5 - 1) t → t ≤ v :=
  ⟨⟨by decide, (walkTotal_single_iff 5 _ 2 2 _).2 ⟨by decide, by decide, rfl⟩⟩,
    cherryPickup_is_maximum 2 5 [[0, 0, 0, 0, 0], [0, 0, -2000000000, 0, 0]] (by decide)
      (by decide) (by decide) (by
        intro i a b t hi hR ht
        have hlast : ∀ a b t, a ≤ 1 → 3 ≤ b →
            WalkTotal 5 [[0, 0, -2000000000, 0, 0]] a b t → t = 0 := by
          intro a b t ha hb ht
          obtain ⟨_, hb5, e⟩ := (walkTotal_single_iff 5 _ a b t).1 ht
          rw [e]
          interval_cases a <;> interval_cases b <;> rfl
        have ht0 : t = 0 := by
          obtain ⟨as, bs, hla, hlb, hwa, hwb, hha, hhb, hea, heb⟩ := hR
          have hi' : i = 0 ∨ i = 1 := by omega
          rcases hi' with e | e
          · subst e
            rcases as with _ | ⟨x, _ | ⟨y, as⟩⟩
            all_goals simp at hla
            rcases bs with _ | ⟨x', _ | ⟨y', bs⟩⟩
            all_goals simp at hlb
            simp at hha hea hhb heb
            subst hha hhb
            subst hea heb
            obtain ⟨_, _, a', b', t', hna, hnb, ht', e⟩ :=
              (walkTotal_cons_iff 5 _ _ [] 0 4 t).1 ht
            have := hlast a' b' t' (by unfold Near at hna; omega)
              (by unfold Near at hnb; omega) ht'
            rw [e, this]
            rfl
          · subst e
            rcases as with _ | ⟨x, _ | ⟨y, _ | ⟨z, as⟩⟩⟩
            all_goals simp at hla
            rcases bs with _ | ⟨x', _ | ⟨y', _ | ⟨z', bs⟩⟩⟩
            all_goals simp at hlb
            simp at hha hea hhb heb
            subst hha hhb
            subst hea heb
            have hna : Near 0 y := by simpa using hwa.2
            have hnb : Near 4 y' := by simpa using hwb.2
            exact hlast y y' t (by unfold Near at hna; omega) (by unfold Near at hnb; omega) ht
        rw [ht0]
        decide)⟩

/-! ## The brute-force recursion -/

/-- C3 (as stated, refuted): on the grid `[[2147483647], [2147483647]]` of
non-negative rewards the sum of the two rows leaves the 32-bit range; the
tabulation returns `-2` and the recursion, which also offers
`2147483647 + NEG_INF`, returns `1147483647`. -/
theorem tabulation_eq_recursion_counterexample :
    Rect 2 1 [[2147483647], [2147483647]] ∧ NonNeg [[2147483647], [2147483647]] ∧
      Wrap32.CherryPickupTabulation.cherryPickup [[2147483647], [2147483647]] = some (-2) ∧
      Wrap32.CherryPickupRecursion.solveRec 0 0 (((1 : Nat) : Int) - 1) (2 : Nat) (1 : Nat)
        [[2147483647], [2147483647]] = some 1147483647 := by
  refine ⟨by decide, by decide, by rfl, ?_⟩
  have hspec := Wrap32.solveRec32_spec [[2147483647], [2147483647]] 1 (by decide) 1 0 0 0
    (by rfl)
  rw [if_neg (by decide)] at hspec
  have e : Wrap32.recW 1 (List.drop 0 [[2147483647], [2147483647]]) (0 : Int).toNat
      (0 : Int).toNat = 1147483647 := by rfl
  rw [e] at hspec
  exact hspec

/-- C3 (amended): on every rectangular grid of non-negative rewards with
`n ≥ 1` rows and `m ≥ 1` columns on which no addition of the tabulation leaves
the signed 32-bit range, `CherryPickupTabulation::cherryPickup(grid)` and the
brute-force `CherryPickupRecursion::solveRec(0, 0, m - 1, n, m, grid)` both
return, and they return the same value, although the recursion adds the
sentinel for out-of-bounds moves where the tabulation skips them. -/
theorem tabulation_eq_recursion (n m : Nat) (grid : List (List Int)) (h : Rect n m grid)
    (hn : 1 ≤ n) (hm : 1 ≤ m) (hnn : NonNeg grid) (hr : Wrap32.InRange m grid) :
    ∃ v, Wrap32.CherryPickupTabulation.cherryPickup grid = some v ∧
      Wrap32.CherryPickupRecursion.solveRec 0 0 ((m : Int) - 1) n m grid = some v := by
  refine ⟨Wrap32.cellW m grid 0 (m - 1), (cherryPickup32_rect n m grid h hn hm).1, ?_⟩
  have hspec := Wrap32.solveRec32_spec grid m (rect_wide h) (n - 1) 0 0 ((m : Int) - 1)
    (by rw [h.1]; omega)
  rw [h.1, Nat.cast_zero, if_neg (by omega)] at hspec
  rw [hspec]
  have e : ((m : Int) - 1).toNat = m - 1 := by omega
  rw [e, Int.toNat_zero, List.drop_zero,
    Wrap32.recW_eq_cellV m grid (rect_ne_nil h hn) hnn hr 0 (m - 1) (by omega) (by omega),
    Wrap32.cellW_eq_cellV m grid hr 0 (m - 1) (by omega) (by omega)]

theorem tabulation_eq_recursion_witness :
    (Rect 2 3 [[1, 2, 3], [4, 5, 6]] ∧ NonNeg [[1, 2, 3], [4, 5, 6]] ∧
        Wrap32.InRange 3 [[1, 2, 3], [4, 5, 6]]) ∧
      ∃ v, Wrap32.CherryPickupTabulation.cherryPickup [[1, 2, 3], [4, 5, 6]] = some v ∧
        Wrap32.CherryPickupRecursion.solveRec 0 0 (((3 : Nat) : Int) - 1) (2 : Nat) (3 : Nat)
          [[1, 2, 3], [4, 5, 6]] = some v :=
  ⟨⟨by decide, by decide,
      Wrap32.inRange_of_bounded 3 6 (by decide) [[1, 2, 3], [4, 5, 6]] (by decide) (by decide)⟩,
    tabulation_eq_recursion 2 3 [[1, 2, 3], [4, 5, 6]] (by decide) (by decide) (by decide)
      (by decide)
      (Wrap32.inRange_of_bounded 3 6 (by decide) [[1, 2, 3], [4, 5, 6]] (by decide)
        (by decide))⟩

/-! ## Single column -/

/-- C7 (as stated, refuted): on the single-column grid `[[-10^9], [-1]]`
`cherryPickup` returns the sentinel `-10^9`, which is not the column sum
`-10^9 - 1`: the fold of a row starts at `best = NEG_INF`.  On
`[[2147483647], [1]]` the column sum `2147483648` is not an `int`; the sum
wraps and `cherryPickup` returns `-10^9`. -/
theorem single_column_counterexample :
    Rect 2 1 [[-1000000000], [-1]] ∧
      Wrap32.CherryPickupSpaceOptimized.cherryPickup [[-1000000000], [-1]] =
        some (-1000000000) ∧
      columnSum [[-1000000000], [-1]] = -1000000001 ∧
      Rect 2 1 [[2147483647], [1]] ∧
      Wrap32.CherryPickupSpaceOptimized.cherryPickup [[2147483647], [1]] =
        some (-1000000000) ∧
      columnSum [[2147483647], [1]] = 2147483648 := by
  refine ⟨by decide, by rfl, by rfl, by decide, by rfl, by rfl⟩

/-- C7 (amended): on a grid with a single column and `n ≥ 1` rows in which the
sum of the rows `i .. n - 1` is at least the sentinel `-10^9` and at most
`2^31 - 1` for every row `i < n - 1`, `cherryPickup` returns the single-column
path sum, the sum of `grid[i][0]` over all rows, each row counted once. -/
theorem single_column (n : Nat) (grid : List (List Int)) (h : Rect n 1 grid) (hn : 1 ≤ n)
    (hs : ∀ i, i + 1 < n →
      NEG_INF ≤ columnSum (grid.drop i) ∧ columnSum (grid.drop i) ≤ Loops.INT_MAX) :
    Wrap32.CherryPickupSpaceOptimized.cherryPickup grid = some (columnSum grid) := by
  rw [(cherryPickup32_rect n 1 grid h hn (le_refl 1)).2,
    Wrap32.cellW_single_column grid (rect_ne_nil h hn) (by rw [h.1]; exact hs)]

theorem single_column_witness :
    Rect 3 1 [[5], [-3], [2]] ∧
      Wrap32.CherryPickupSpaceOptimized.cherryPickup [[5], [-3], [2]] = some 4 :=
  ⟨by decide, single_column 3 [[5], [-3], [2]] (by decide) (by decide) (by
    intro i hi
    have hi' : i = 0 ∨ i = 1 := by omega
    rcases hi' with e | e <;> subst e <;> decide)⟩

/-! ## Monotonicity -/

/-- C8 (as stated, refuted): on the grid `[[0], [2147483647]]` `cherryPickup`
returns `2147483647`; with `grid[0][0]` increased by `1` the sum of the two
rows leaves the 32-bit range and `cherryPickup` returns the sentinel `-10^9`,
which is smaller. -/
theorem cherryPickup_monotone_counterexample :
    Rect 2 1 [[0], [2147483647]] ∧
      bump [[0], [2147483647]] 0 0 1 = [[1], [2147483647]] ∧
      Wrap32.CherryPickupSpaceOptimized.cherryPickup [[0], [2147483647]] = some 2147483647 ∧
      Wrap32.CherryPickupSpaceOptimized.cherryPickup (bump [[0], [2147483647]] 0 0 1) =
        some (-1000000000) := by
  refine ⟨by decide, by rfl, by rfl, by rfl⟩

/-- C8 (amended): monotonicity.  On every rectangular grid with `n, m ≥ 1`, for
every cell `(r, c)` and every `d > 0` such that no addition of the computation
leaves the signed 32-bit range, neither on the grid nor on the grid with
`grid[r][c]` increased by `d`, `cherryPickup` of the increased grid is at least
`cherryPickup` of the grid. -/
theorem cherryPickup_monotone (n m : Nat) (grid : List (List Int)) (h : Rect n m grid)
    (hn : 1 ≤ n) (hm : 1 ≤ m) (r c : Nat) (hr : r < n) (hc : c < m) (d : Int) (hd : 0 < d)
    (hg : Wrap32.InRange m grid) (hb : Wrap32.InRange m (bump grid r c d)) :
    at2 (bump grid r c d) r c = at2 grid r c + d ∧
      ∃ v v', Wrap32.CherryPickupSpaceOptimized.cherryPickup grid = some v ∧
        Wrap32.CherryPickupSpaceOptimized.cherryPickup (bump grid r c d) = some v' ∧
        v ≤ v' := by
  refine ⟨at2_bump grid n m r c d h hr hc,
    Wrap32.cellW m grid 0 (m - 1), Wrap32.cellW m (bump grid r c d) 0 (m - 1),
    (cherryPickup32_rect n m grid h hn hm).2,
    (cherryPickup32_rect n m _ (rect_bump h r c d) hn hm).2, ?_⟩
  rw [Wrap32.cellW_eq_cellV m grid hg 0 (m - 1) (by omega) (by omega),
    Wrap32.cellW_eq_cellV m _ hb 0 (m - 1) (by omega) (by omega)]
  exact cellV_mono m _ _ (gridLe_bump grid r c d (le_of_lt hd)) 0 (m - 1)

theorem cherryPickup_monotone_witness :
    (Rect 2 3 [[1, 2, 3], [4, 5, 6]] ∧ Wrap32.InRange 3 [[1, 2, 3], [4, 5, 6]] ∧
        Wrap32.InRange 3 (bump [[1, 2, 3], [4, 5, 6]] 1 2 5)) ∧
      (at2 (bump [[1, 2, 3], [4, 5, 6]] 1 2 5) 1 2 = at2 [[1, 2, 3], [4, 5, 6]] 1 2 + 5 ∧
        ∃ v v', Wrap32.CherryPickupSpaceOptimized.cherryPickup [[1, 2, 3], [4, 5, 6]] = some v ∧
          Wrap32.CherryPickupSpaceOptimized.cherryPickup (bump [[1, 2, 3], [4, 5, 6]] 1 2 5) =
            some v' ∧ v ≤ v') :=
  ⟨⟨by decide,
      Wrap32.inRange_of_bounded 3 6 (by decide) [[1, 2, 3], [4, 5, 6]] (by decide) (by decide),
      Wrap32.inRange_of_bounded 3 11 (by decide) (bump [[1, 2, 3], [4, 5, 6]] 1 2 5) (by decide)
        (by decide)⟩,
    cherryPickup_monotone 2 3 [[1, 2, 3], [4, 5, 6]] (by decide) (by decide)
      (by decide) 1 2 (by decide) (by decide) 5 (by decide)
      (Wrap32.inRange_of_bounded 3 6 (by decide) [[1, 2, 3], [4, 5, 6]] (by decide) (by decide))
      (Wrap32.inRange_of_bounded 3 11 (by decide) (bump [[1, 2, 3], [4, 5, 6]] 1 2 5) (by decide)
        (by decide))⟩

/-! ## Grids whose rows have different lengths -/

theorem rowReward32_take (row : List Int) (m a b : Nat) (ha : a < m) (hb : b < m) :
    Wrap32.rowReward32 (row.take m) a b = Wrap32.rowReward32 row a b := by
  unfold Wrap32.rowReward32
  rw [getD_take_of_lt row m a ha, getD_take_of_lt row m b hb]

/-- The values the 32-bit code stores depend on the first `m` columns only. -/
theorem cellW_cut (m : Nat) (rows : List (List Int)) (a b : Nat) (ha : a < m) (hb : b < m) :
    Wrap32.cellW m (cut m rows) a b = Wrap32.cellW m rows a b := by
  induction rows generalizing a b with
  | nil => rfl
  | cons row rest ih =>
    cases rest with
    | nil => exact rowReward32_take row m a b ha hb
    | cons next rest =>
      show bestV m 0 (fun a' b' => Wrap32.wrap (Wrap32.rowReward32 (row.take m) a b +
          Wrap32.cellW m (cut m (next :: rest)) a' b')) a b =
        bestV m 0 (fun a' b' => Wrap32.wrap (Wrap32.rowReward32 row a b +
          Wrap32.cellW m (next :: rest) a' b')) a b
      rw [rowReward32_take row m a b ha hb]
      exact bestV_congr m _ _ _ a b (fun x y hx hy => by rw [ih x y hx hy])

/-- C10 (as stated, refuted): the grid `[[1], [2, 3]]` violates the shape
precondition (its second row has length `2`, not `m = 1`), yet `cherryPickup`
signals nothing and returns the reward value `3`. -/
theorem cherryPickup_ragged_counterexample :
    ¬ Rect 2 1 [[1], [2, 3]] ∧
      Wrap32.CherryPickupSpaceOptimized.cherryPickup [[1], [2, 3]] = some 3 := by
  refine ⟨by decide, ?_⟩
  rfl

/-- C10 (amended): `cherryPickup` has no shape check.  On a grid with
`m = grid[0].size() ≥ 1` whose rows all have at least `m` entries, of equal
length or not, it signals nothing, runs the whole computation and returns a
reward value: the value it returns on the grid cut to its first `m` columns,
which is rectangular. -/
theorem cherryPickup_no_shape_check (row0 : List Int) (rest : List (List Int))
    (hm : 1 ≤ row0.length) (hw : Wide row0.length (row0 :: rest)) :
    Rect (rest.length + 1) row0.length (cut row0.length (row0 :: rest)) ∧
      ∃ v, Wrap32.CherryPickupSpaceOptimized.cherryPickup (row0 :: rest) = some v ∧
        Wrap32.CherryPickupSpaceOptimized.cherryPickup (cut row0.length (row0 :: rest)) =
          some v := by
  have hr := rect_cut hw
  refine ⟨hr, Wrap32.cellW row0.length (row0 :: rest) 0 (row0.length - 1),
    Wrap32.CherryPickupSpaceOptimized.so32_cherryPickup_spec row0 rest hw hm, ?_⟩
  rw [(cherryPickup32_rect _ _ _ hr (by simp) hm).2,
    cellW_cut row0.length (row0 :: rest) 0 (row0.length - 1) (by omega) (by omega)]

theorem cherryPickup_no_shape_check_witness :
    (Wide 1 [[1], [2, 3]] ∧ ¬ Rect 2 1 [[1], [2, 3]]) ∧
      Rect 2 1 (cut 1 [[1], [2, 3]]) ∧
      ∃ v, Wrap32.CherryPickupSpaceOptimized.cherryPickup [[1], [2, 3]] = some v ∧
        Wrap32.CherryPickupSpaceOptimized.cherryPickup (cut 1 [[1], [2, 3]]) = some v :=
  ⟨⟨by decide, by decide⟩, cherryPickup_no_shape_check [1] [[2, 3]] (by decide) (by decide)⟩

/-! ## The transition of one cell -/

/-- C17 (as stated, refuted): on the grid `[[-10^9], [-1]]` the base layer is
`[[-1]]`, and the value the driver loop writes for row `0` at `(0, 0)` is the
sentinel `-10^9`, not `immediateReward + max next = -10^9 + -1`.  On the grid
`[[2147483647, 0], [1, -1]]` the base layer is `[[1, 0], [0, -1]]`; for the cell
`(0, 0)` of row `0` the candidate `2147483647 + 1` leaves the 32-bit range and
the loop writes `2147483647`, not `immediateReward + max next = 2147483648`. -/
theorem transition_counterexample :
    Wrap32.CherryPickupSpaceOptimized.baseLoops [[-1000000000], [-1]] 2 1 [[NEG_INF]] =
        some [[-1]] ∧
      Wrap32.CherryPickupSpaceOptimized.rowStep [[-1000000000], [-1]] 1 ([[-1]], [[NEG_INF]]) 0 =
        some ([[-1000000000]], [[-1000000000]]) ∧
      at2 [[-1000000000], [-1]] 0 0 + at2 [[-1]] 0 0 = -1000000001 ∧
      Wrap32.CherryPickupSpaceOptimized.baseLoops [[2147483647, 0], [1, -1]] 2 2
          (List.replicate 2 (List.replicate 2 NEG_INF)) = some [[1, 0], [0, -1]] ∧
      Wrap32.CherryPickupSpaceOptimized.rowStep [[2147483647, 0], [1, -1]] 2
          ([[1, 0], [0, -1]], List.replicate 2 (List.replicate 2 NEG_INF)) 0 =
        some ([[2147483647, 2147483647], [2147483647, 1]],
          [[2147483647, 2147483647], [2147483647, 1]]) ∧
      at2 [[2147483647, 0], [1, -1]] 0 0 +
          max (max (at2 [[1, 0], [0, -1]] 0 0) (at2 [[1, 0], [0, -1]] 0 1))
            (max (at2 [[1, 0], [0, -1]] 1 0) (at2 [[1, 0], [0, -1]] 1 1)) = 2147483648 := by
  refine ⟨by rfl, by rfl, by rfl, by rfl, by rfl, by rfl⟩

/-- C17 (amended): in both tabulated variants, for every row `i < n - 1` and
all columns `0 ≤ j1, j2 < m` such that every candidate sum
`immediateReward + next[j1 + d1][j2 + d2]` over the in-range moves lies inside
the signed 32-bit range, the value written to the current layer at `(j1, j2)`
is `max(NEG_INF, immediateReward + M)`, where `M` is the greatest of
`next[j1 + d1][j2 + d2]` over the in-range moves and `immediateReward` is
`grid[i][j1]` if `j1 = j2` and `grid[i][j1] + grid[i][j2]` otherwise; it is
`immediateReward + M` whenever that sum is at least the sentinel. -/
theorem transition_value (n m : Nat) (grid : List (List Int)) (h : Rect n m grid) (i : Nat)
    (hi : i + 1 < n) :
    (∀ prev curr, Sq m prev → Sq m curr →
      ∃ st, Wrap32.CherryPickupSpaceOptimized.rowStep grid m (prev, curr) i = some st ∧
        ∀ j1 j2, j1 < m → j2 < m →
          (∀ a, a < m → ∀ b, b < m → Near a j1 → Near b j2 → Wrap32.IsInt
            ((if j1 = j2 then at2 grid i j1 else at2 grid i j1 + at2 grid i j2) +
              at2 prev a b)) →
          ∃ M, IsMaxNext m (at2 prev) j1 j2 M ∧
            at2 st.2 j1 j2 = max NEG_INF
              ((if j1 = j2 then at2 grid i j1 else at2 grid i j1 + at2 grid i j2) + M)) ∧
    (∀ dp, Cube n m dp →
      ∃ dp', Wrap32.CherryPickupTabulation.rowLoops grid m dp i = some dp' ∧
        ∀ j1 j2, j1 < m → j2 < m →
          (∀ a, a < m → ∀ b, b < m → Near a j1 → Near b j2 → Wrap32.IsInt
            ((if j1 = j2 then at2 grid i j1 else at2 grid i j1 + at2 grid i j2) +
              at3 dp (i + 1) a b)) →
          ∃ M, IsMaxNext m (at3 dp (i + 1)) j1 j2 M ∧
            at3 dp' i j1 j2 = max NEG_INF
              ((if j1 = j2 then at2 grid i j1 else at2 grid i j1 + at2 grid i j2) + M)) := by
  have hexact : ∀ (nx : Nat → Nat → Int) (j1 j2 : Nat),
      (∀ a, a < m → ∀ b, b < m → Near a j1 → Near b j2 →
        Wrap32.IsInt (rowReward (grid.getD i []) j1 j2 + nx a b)) →
      bestV m 0 (fun a' b' =>
        Wrap32.wrap (Wrap32.rowReward32 (grid.getD i []) j1 j2 + nx a' b')) j1 j2 =
        bestV m (rowReward (grid.getD i []) j1 j2) nx j1 j2 := by
    intro nx j1 j2 hcand
    apply Wrap32.bestV_near_congr
    intro a b ha hb hna hnb
    rw [zero_add, Wrap32.wrap_rowReward32_add, Wrap32.wrap_of_isInt (hcand a ha b hb hna hnb)]
  constructor
  · intro prev curr hp hc
    obtain ⟨st, h1, _, _, h4, h5⟩ := Wrap32.CherryPickupSpaceOptimized.so32_rowStep_spec grid n m
      i h.1 hi (rect_wide h) (prev, curr) hp hc (at2 prev) (fun _ _ _ _ => rfl)
    refine ⟨st, h1, fun j1 j2 hj1 hj2 hcand => ?_⟩
    obtain ⟨M, hM⟩ := exists_isMaxNext m (at2 prev) j1 j2 hj1 hj2
    refine ⟨M, hM, ?_⟩
    rw [← h4, h5 j1 j2 hj1 hj2, hexact (at2 prev) j1 j2 hcand, bestV_eq_max m _ _ j1 j2 M hM]
    rfl
  · intro dp hdp
    obtain ⟨dp', h1, _, _, h4⟩ := Wrap32.CherryPickupTabulation.tab32_rowLoops_spec grid n m i
      h.1 hi (rect_wide h) dp hdp (at3 dp (i + 1)) (fun _ _ _ _ => rfl)
    refine ⟨dp', h1, fun j1 j2 hj1 hj2 hcand => ?_⟩
    obtain ⟨M, hM⟩ := exists_isMaxNext m (at3 dp (i + 1)) j1 j2 hj1 hj2
    refine ⟨M, hM, ?_⟩
    rw [h4 j1 j2 hj1 hj2, hexact (at3 dp (i + 1)) j1 j2 hcand, bestV_eq_max m _ _ j1 j2 M hM]
    rfl

theorem transition_value_witness :
    Rect 2 2 [[1, 2], [3, 4]] ∧
      ∃ st, Wrap32.CherryPickupSpaceOptimized.rowStep [[1, 2], [3, 4]] 2
          ([[3, 7], [7, 4]], [[NEG_INF, NEG_INF], [NEG_INF, NEG_INF]]) 0 = some st ∧
        ∃ M, IsMaxNext 2 (at2 [[3, 7], [7, 4]]) 0 1 M ∧
          at2 st.2 0 1 = max NEG_INF
            ((if 0 = 1 then at2 [[1, 2], [3, 4]] 0 0
              else at2 [[1, 2], [3, 4]] 0 0 + at2 [[1, 2], [3, 4]] 0 1) + M) := by
  refine ⟨by decide, ?_⟩
  obtain ⟨st, h1, h2⟩ := (transition_value 2 2 [[1, 2], [3, 4]] (by decide) 0 (by decide)).1
    [[3, 7], [7, 4]] [[NEG_INF, NEG_INF], [NEG_INF, NEG_INF]] (by decide) (by decide)
  exact ⟨st, h1, h2 0 1 (by decide) (by decide) (by decide)⟩

end CherryPickup
